import Mathlib

/-! BRLTTY asynchronous I/O reactor (`Programs/async_io.c`)

A shallow embedding of the poll/select back end of the reactor: the function
queue, the per-descriptor operation queues, the transfer extensions and the
functions that create, dispatch, finish and cancel operations.

Modelling conventions.

* A queue is a list (head first).  A queue element is identified by the `id`
  of the operation it holds; ids are handed out by a counter, the way the
  allocator hands out distinct addresses.  `operation->function` is the
  function entry whose queue holds the operation.
* `size_t` values are natural numbers reduced modulo `2 ^ 64`.
* What the operating system and the user callbacks do is supplied from
  outside: the result of `read`/`write` as a function of the number of bytes
  requested, the readiness reported by `poll` per monitor slot, and the value
  a user callback returns.
* A user callback may itself call into the reactor.  A call of
  `asyncHandleOperation` is therefore split at the user callback into
  `handleBegin` (everything up to the call) and `handleEnd` (everything after
  the callback returned); operations whose callback is running are kept on a
  stack of frames.  `asyncHandleOperation` is the composition of the two for
  a callback that does not touch the reactor.
-/

namespace Brltty

/-! ## Data model -/

/-- Number of values of `size_t` (64-bit target). -/
def sizeModulus : Nat := 18446744073709551616

/-- Conversion of a mathematical integer to `size_t`. -/
def wrap (i : Int) : Nat := (i % (sizeModulus : Int)).toNat

/-- The three `invokeCallback` methods. -/
inductive InvokeCallback
  | invokeMonitorCallback
  | invokeInputCallback
  | invokeOutputCallback
  deriving DecidableEq, Repr

/-- The two `finishOperation` methods of the Unix back end. -/
inductive FinishOperation
  | finishUnixRead
  | finishUnixWrite
  deriving DecidableEq, Repr

/-- The five static `FunctionMethods` objects, named by their `functionName`.
Equality of constructors is equality of the `methods` pointers. -/
inductive FunctionMethods
  | transferInput
  | transferOutput
  | monitorFileInput
  | monitorFileOutput
  | monitorFileAlert
  deriving DecidableEq, Repr

/-- The `.invokeCallback` member of each methods object. -/
def FunctionMethods.invokeCallback : FunctionMethods → InvokeCallback
  | .transferInput => .invokeInputCallback
  | .transferOutput => .invokeOutputCallback
  | .monitorFileInput => .invokeMonitorCallback
  | .monitorFileOutput => .invokeMonitorCallback
  | .monitorFileAlert => .invokeMonitorCallback

/-- The `.finishOperation` member of each methods object (`none` is `NULL`). -/
def FunctionMethods.finishOperation : FunctionMethods → Option FinishOperation
  | .transferInput => some .finishUnixRead
  | .transferOutput => some .finishUnixWrite
  | .monitorFileInput => none
  | .monitorFileOutput => none
  | .monitorFileAlert => none

/-- `TransferExtension`; `callback` records whether the callback pointer of the
direction union is non-`NULL`, `end_` is `direction.input.end`. -/
structure TransferExtension where
  callback : Bool
  end_ : Bool
  size : Nat
  length : Nat
  buffer : List Nat
  deriving DecidableEq, Repr

/-- `MonitorExtension`; `callback` records whether the pointer is non-`NULL`. -/
structure MonitorExtension where
  callback : Bool
  deriving DecidableEq, Repr

/-- What `operation->extension` points to. -/
inductive Extension
  | monitor (extension : MonitorExtension)
  | transfer (extension : TransferExtension)
  deriving DecidableEq, Repr

/-- `OperationEntry`.  `monitor` is the index of the slot of the monitor array
the operation was given (`none` is `NULL`). -/
structure OperationEntry where
  id : Nat
  extension : Extension
  data : Nat
  monitor : Option Nat
  error : Int
  active : Bool
  cancel : Bool
  finished : Bool
  deriving DecidableEq, Repr

/-- `FunctionEntry` (`struct FunctionEntryStruct`). -/
structure FunctionEntry where
  fileDescriptor : Int
  methods : FunctionMethods
  operations : List OperationEntry
  deriving DecidableEq, Repr

/-- The reactor: the function queue of the thread, the operations whose user
callback is running (innermost first), and the next fresh element id. -/
structure Reactor where
  functionQueue : List FunctionEntry
  frames : List Nat
  next : Nat
  deriving DecidableEq, Repr

/-- Result of a `read` or `write` system call: the returned count, the value of
`errno` when the count is `-1`, and for `read` the bytes stored. -/
structure SysResult where
  result : Int
  errno : Int
  data : List Nat
  deriving DecidableEq, Repr

/-- Result of `poll`: its return value and, per monitor slot, whether
`revents & events` is non-zero. -/
structure PollResult where
  result : Int
  ready : Nat → Bool

/-- Outcome of the three allocations of `newOperation`: the operation, the
function entry with its queue and queue element, the operation's element. -/
structure Allocation where
  operation : Bool
  function : Bool
  element : Bool
  deriving DecidableEq, Repr

/-- `AsyncInputCallbackParameters`. -/
structure AsyncInputCallbackParameters where
  data : Nat
  buffer : List Nat
  size : Nat
  length : Nat
  error : Int
  end_ : Bool
  deriving DecidableEq, Repr

/-- `AsyncOutputCallbackParameters`. -/
structure AsyncOutputCallbackParameters where
  data : Nat
  buffer : List Nat
  size : Nat
  error : Int
  deriving DecidableEq, Repr

/-- `AsyncMonitorCallbackParameters`. -/
structure AsyncMonitorCallbackParameters where
  data : Nat
  deriving DecidableEq, Repr

/-- A call of a user callback, with the parameters it is given. -/
inductive Invocation
  | monitor (parameters : AsyncMonitorCallbackParameters)
  | input (parameters : AsyncInputCallbackParameters)
  | output (parameters : AsyncOutputCallbackParameters)
  deriving DecidableEq, Repr

/-! ## Transfers -/

/-- Bytes `bytes` stored at `&buffer[offset]`. -/
def storeBytes (buffer : List Nat) (offset : Nat) (bytes : List Nat) : List Nat :=
  buffer.take offset ++ bytes ++ buffer.drop (offset + bytes.length)

/-- `memmove(buffer, &buffer[source], n)`. -/
def memmove (buffer : List Nat) (source : Nat) (n : Nat) : List Nat :=
  (buffer.drop source).take n ++ buffer.drop ((buffer.drop source).take n).length

/-- `setUnixTransferResult (operation, count)`. -/
def setUnixTransferResult (operation : OperationEntry) (count : Int) (errno : Int) :
    OperationEntry :=
  match operation.extension with
  | .transfer extension =>
    if count = -1 then
      { operation with error := errno, finished := true }
    else if count = 0 then
      { operation with
        extension := .transfer { extension with end_ := true }, finished := true }
    else
      { operation with
        extension := .transfer { extension with length := wrap (extension.length + count) },
        finished := true }
  | .monitor _ => operation

/-- The bytes that the `read` of `finishUnixRead` stores at
`&extension->buffer[extension->length]`: as many as it returned. -/
def bytesRead (operation : OperationEntry) (sys : Nat → SysResult) : List Nat :=
  match operation.extension with
  | .transfer extension =>
    let result := sys (wrap (extension.size - extension.length))
    if 0 < result.result then result.data.take result.result.toNat else []
  | .monitor _ => []

/-- `finishUnixRead`: `sys n` is what `read` does when asked for `n` bytes. -/
def finishUnixRead (operation : OperationEntry) (sys : Nat → SysResult) : OperationEntry :=
  match operation.extension with
  | .transfer extension =>
    let result := sys (wrap (extension.size - extension.length))
    setUnixTransferResult
      { operation with
        extension := .transfer
          { extension with
            buffer := storeBytes extension.buffer extension.length (bytesRead operation sys) } }
      result.result result.errno
  | .monitor _ => operation

/-- `finishUnixWrite`: `sys n` is what `write` does when given `n` bytes. -/
def finishUnixWrite (operation : OperationEntry) (sys : Nat → SysResult) : OperationEntry :=
  match operation.extension with
  | .transfer extension =>
    let result := sys (wrap (extension.size - extension.length))
    setUnixTransferResult operation result.result result.errno
  | .monitor _ => operation

/-- `finishOperation`: call the method when there is one. -/
def finishOperation (methods : FunctionMethods) (operation : OperationEntry)
    (sys : Nat → SysResult) : OperationEntry :=
  match methods.finishOperation with
  | some .finishUnixRead => finishUnixRead operation sys
  | some .finishUnixWrite => finishUnixWrite operation sys
  | none => operation

/-- `startOperation`: no methods object of the Unix back end has a
`startOperation` member, so nothing is called. -/
def startOperation (_methods : FunctionMethods) (operation : OperationEntry) :
    OperationEntry :=
  operation

/-! ## Callbacks

Each `invoke...Callback` function is given the value that the user callback
returns; its result is the operation afterwards, the value it returns and the
call of the user callback it made, if any. -/

/-- `invokeMonitorCallback`; `answer` is what the user callback returns. -/
def invokeMonitorCallback (operation : OperationEntry) (answer : Nat) :
    OperationEntry × Bool × Option Invocation :=
  match operation.extension with
  | .monitor extension =>
    if extension.callback then
      if answer ≠ 0 then (operation, true, some (.monitor { data := operation.data }))
      else (operation, false, some (.monitor { data := operation.data }))
    else (operation, false, none)
  | .transfer _ => (operation, false, none)

/-- `invokeInputCallback`; `count` is what the user callback returns. -/
def invokeInputCallback (operation : OperationEntry) (count : Nat) :
    OperationEntry × Bool × Option Invocation :=
  match operation.extension with
  | .transfer extension =>
    if !extension.callback then (operation, false, none)
    else
      let called : Option Invocation :=
        some (.input
          { data := operation.data, buffer := extension.buffer, size := extension.size,
            length := extension.length, error := operation.error, end_ := extension.end_ })
      if operation.error ≠ 0 then (operation, false, called)
      else if extension.end_ then (operation, false, called)
      else if count ≠ 0 then
        let length := wrap (extension.length - count)
        ({ operation with
           extension := .transfer
             { extension with
               buffer := memmove extension.buffer count length, length := length },
           finished := decide (0 < length) }, true, called)
      else ({ operation with finished := false }, true, called)
  | .monitor _ => (operation, false, none)

/-- `invokeOutputCallback`. -/
def invokeOutputCallback (operation : OperationEntry) :
    OperationEntry × Bool × Option Invocation :=
  match operation.extension with
  | .transfer extension =>
    if operation.error = 0 ∧ extension.length < extension.size then
      ({ operation with finished := false }, true, none)
    else if extension.callback then
      (operation, false,
        some (.output
          { data := operation.data, buffer := extension.buffer, size := extension.size,
            error := operation.error }))
    else (operation, false, none)
  | .monitor _ => (operation, false, none)

/-- `function->methods->invokeCallback (operation)`; `answer` is what the user
callback returns when one is called. -/
def invokeCallback (methods : FunctionMethods) (operation : OperationEntry) (answer : Nat) :
    OperationEntry × Bool × Option Invocation :=
  match methods.invokeCallback with
  | .invokeMonitorCallback => invokeMonitorCallback operation answer
  | .invokeInputCallback => invokeInputCallback operation answer
  | .invokeOutputCallback => invokeOutputCallback operation

/-- The user callback that `invokeCallback` calls for the operation, with the
parameters it is given (they do not depend on what the callback returns). -/
def userCallback (methods : FunctionMethods) (operation : OperationEntry) :
    Option Invocation :=
  (invokeCallback methods operation 0).2.2

/-! ## Queues

The queue module (`queue.c`) is not among the source files.  A queue is taken
to be a list, head first: `enqueueItem` appends at the tail, `getQueueHead` and
`getQueueTail` read the two ends, `deleteElement` removes one element and
`requeueElement` moves one element to the tail. -/

/-- Modelled from the spec: `findElement` and `processQueue` of the queue
module, whose source is missing.  The queue is walked from its head up to the
first element satisfying `p`; the result is that element with the elements
before and after it. -/
def locate (p : FunctionEntry → Bool) :
    List FunctionEntry → Option (List FunctionEntry × FunctionEntry × List FunctionEntry)
  | [] => none
  | function :: rest =>
    if p function then some ([], function, rest)
    else
      match locate p rest with
      | some (before, found, after) => some (function :: before, found, after)
      | none => none

/-- Apply `g` to the last element of a list. -/
def modifyLast {α : Type} (g : α → α) : List α → List α
  | [] => []
  | [a] => [g a]
  | a :: b :: l => a :: modifyLast g (b :: l)

/-- Modelled from the spec: `deleteElement` of the queue module, whose source is
missing, together with assignment through the item of an element.  The element
`id` of an operation queue is replaced by `g` of it, or deleted when `g` gives
`none`; the other elements keep their places. -/
def replaceOperation (id : Nat) (g : OperationEntry → Option OperationEntry) :
    List OperationEntry → List OperationEntry
  | [] => []
  | operation :: rest =>
    if operation.id = id then
      match g operation with
      | some changed => changed :: rest
      | none => rest
    else operation :: replaceOperation id g rest

/-- Whether the operation queue of `function` holds the element `id`, that is
whether `operation->function` of that operation is `function`. -/
def FunctionEntry.owns (function : FunctionEntry) (id : Nat) : Bool :=
  function.operations.any (fun operation => operation.id == id)

/-- The operation held by the element `id` of the queue of `function`. -/
def FunctionEntry.operation (function : FunctionEntry) (id : Nat) : Option OperationEntry :=
  function.operations.find? (fun operation => operation.id == id)

/-- `getActiveOperationElement` (and `getActiveOperation`, which returns the
item of that element). -/
def getActiveOperationElement (function : FunctionEntry) : Option OperationEntry :=
  if function.methods.invokeCallback = .invokeMonitorCallback then
    function.operations.getLast?
  else function.operations.head?

/-- Assignment through the pointer that `getActiveOperation` returns. -/
def modifyActive (function : FunctionEntry) (g : OperationEntry → OperationEntry) :
    FunctionEntry :=
  if function.methods.invokeCallback = .invokeMonitorCallback then
    { function with operations := modifyLast g function.operations }
  else { function with operations := function.operations.modifyHead g }

/-- `testFunctionEntry`. -/
def testFunctionEntry (fileDescriptor : Int) (methods : FunctionMethods)
    (function : FunctionEntry) : Bool :=
  function.fileDescriptor == fileDescriptor && function.methods == methods

/-! ## The reactor -/

/-- `addFunctionMonitor`; `count` is `monitors->count`.  The result is the
function entry, the new count and the value returned. -/
def addFunctionMonitor (function : FunctionEntry) (count : Nat) :
    FunctionEntry × Nat × Bool :=
  match getActiveOperationElement function with
  | none => (function, count, false)
  | some operation =>
    if !operation.active then
      if operation.finished then
        (modifyActive function (fun o => { o with monitor := none }), count, true)
      else
        (modifyActive function (fun o => { o with monitor := some count }), count + 1, false)
    else (modifyActive function (fun o => { o with monitor := none }), count, false)

/-- `processQueue (functions, addFunctionMonitor, &monitors)`: the entries
visited without a hit, the entry that stopped the walk with the entries after
it, and the final count. -/
def processAddFunctionMonitor :
    List FunctionEntry → Nat →
      List FunctionEntry × Option (FunctionEntry × List FunctionEntry) × Nat
  | [], count => ([], none, count)
  | function :: rest, count =>
    match addFunctionMonitor function count with
    | (changed, count1, true) => ([], some (changed, rest), count1)
    | (changed, count1, false) =>
      match processAddFunctionMonitor rest count1 with
      | (visited, found, count2) => (changed :: visited, found, count2)

/-- `testFunctionMonitor`; `ready` is `testMonitor` per monitor slot. -/
def testFunctionMonitor (ready : Nat → Bool) (function : FunctionEntry) : Bool :=
  match getActiveOperationElement function with
  | none => false
  | some operation =>
    match operation.monitor with
    | some slot => ready slot
    | none => false

/-- The first part of `asyncHandleOperation`: the function element whose active
operation is to be handled (with the elements before and after it in the
function queue), if any, after the monitors have been set up and awaited. -/
def selectFunction (functions : List FunctionEntry) (poll : PollResult) :
    List FunctionEntry × Option (List FunctionEntry × FunctionEntry × List FunctionEntry) :=
  if functions.length = 0 then (functions, none)
  else
    match processAddFunctionMonitor functions 0 with
    | (visited, some (function, rest), _) =>
      (visited ++ function :: rest, some (visited, function, rest))
    | (visited, none, count) =>
      if count = 0 then (visited, none)
      else if 0 < poll.result then (visited, locate (testFunctionMonitor poll.ready) visited)
      else (visited, none)

/-- What `asyncHandleOperation` does to the operation before it calls
`invokeCallback`: `if (!operation->finished) finishOperation (operation);` and
`operation->active = 1;`. -/
def beforeCallback (methods : FunctionMethods) (sys : Nat → SysResult)
    (operation : OperationEntry) : OperationEntry :=
  { (if !operation.finished then finishOperation methods operation sys else operation) with
    active := true }

/-- `asyncHandleOperation` from the selection of the function element to
`operation->active = 1`: the new function queue and the element of the
operation whose callback is about to be invoked. -/
def dispatch (functions : List FunctionEntry) (poll : PollResult) (sys : Nat → SysResult) :
    List FunctionEntry × Option Nat :=
  match selectFunction functions poll with
  | (functions1, none) => (functions1, none)
  | (functions1, some (before, function, after)) =>
    match getActiveOperationElement function with
    | none => (functions1, none)
    | some operation =>
      (before ++ modifyActive function (beforeCallback function.methods sys) :: after,
       some operation.id)

/-- What `asyncHandleOperation` does to the operation once
`invokeCallback` has been entered: the callback's verdict sets `cancel`,
`active` is cleared, and the operation is deleted (`none`) when `cancel` is set
and otherwise has its error cleared. -/
def afterCallback (methods : FunctionMethods) (answer : Nat) (operation : OperationEntry) :
    Option OperationEntry :=
  match invokeCallback methods operation answer with
  | (changed, verdict, _) =>
    let cancel := if !verdict then true else changed.cancel
    if cancel then none
    else some { changed with cancel := cancel, active := false, error := 0 }

/-- The rest of `asyncHandleOperation`, from the call of `invokeCallback` for
the operation of element `id` to the end; `answer` is what the user callback
returns. -/
def complete (functions : List FunctionEntry) (id : Nat) (answer : Nat) :
    List FunctionEntry :=
  match locate (fun function => function.owns id) functions with
  | none => functions
  | some (before, function, after) =>
    let function1 : FunctionEntry :=
      { function with
        operations :=
          replaceOperation id (afterCallback function.methods answer) function.operations }
    match getActiveOperationElement function1 with
    | some _ =>
      before ++ after ++
        [modifyActive function1 (fun o =>
          if !o.finished then startOperation function.methods o else o)]
    | none => before ++ after

/-- `cancelOperation (operationElement)` for the element `id`.  No methods
object of the Unix back end has a `cancelOperation` member, so cancelling the
first operation of a queue calls nothing. -/
def cancelOperation (functions : List FunctionEntry) (id : Nat) : List FunctionEntry :=
  match locate (fun function => function.owns id) functions with
  | none => functions
  | some (before, function, after) =>
    match function.operation id with
    | none => functions
    | some operation =>
      if operation.active then
        before ++
          { function with
            operations :=
              replaceOperation id (fun o => some { o with cancel := true })
                function.operations } :: after
      else
        let isFirstOperation : Bool :=
          (getActiveOperationElement function).map (fun o => o.id) == some id
        if function.operations.length = 1 then before ++ after
        else
          let function1 : FunctionEntry :=
            { function with
              operations := replaceOperation id (fun _ => none) function.operations }
          before ++
            (if isFirstOperation then
              modifyActive function1 (fun o =>
                if !o.finished then startOperation function.methods o else o)
            else function1) :: after

/-- `getFunctionElement (fileDescriptor, methods, 1)`: the function element for
the key, created at the tail when there is none and `allocated` holds. -/
def getFunctionElement (functions : List FunctionEntry) (fileDescriptor : Int)
    (methods : FunctionMethods) (allocated : Bool) :
    Option (List FunctionEntry × FunctionEntry × List FunctionEntry) :=
  match locate (testFunctionEntry fileDescriptor methods) functions with
  | some found => some found
  | none =>
    if allocated then
      some (functions,
        { fileDescriptor := fileDescriptor, methods := methods, operations := [] }, [])
    else none

/-- `newOperation`: the new reactor and the new element, if any. -/
def newOperation (reactor : Reactor) (fileDescriptor : Int) (methods : FunctionMethods)
    (extension : Extension) (data : Nat) (allocation : Allocation) : Reactor × Option Nat :=
  if !allocation.operation then (reactor, none)
  else
    match getFunctionElement reactor.functionQueue fileDescriptor methods
        allocation.function with
    | none => (reactor, none)
    | some (before, function, after) =>
      let isFirstOperation : Bool := function.operations.length == 0
      if allocation.element then
        let operation : OperationEntry :=
          { id := reactor.next, extension := extension, data := data, monitor := none,
            error := 0, active := false, cancel := false, finished := false }
        ({ reactor with
           functionQueue :=
             before ++
               { function with
                 operations :=
                   function.operations ++
                     [if isFirstOperation then startOperation methods operation
                      else operation] } :: after,
           next := reactor.next + 1 },
         some reactor.next)
      else if isFirstOperation then
        ({ reactor with functionQueue := before ++ after }, none)
      else ({ reactor with functionQueue := before ++ function :: after }, none)

/-- `newFileMonitorOperation`. -/
def newFileMonitorOperation (reactor : Reactor) (fileDescriptor : Int)
    (methods : FunctionMethods) (callback : Bool) (data : Nat) (extensionAllocated : Bool)
    (allocation : Allocation) : Reactor × Option Nat :=
  if extensionAllocated then
    newOperation reactor fileDescriptor methods (.monitor { callback := callback }) data
      allocation
  else (reactor, none)

/-- `newTransferOperation`; `buffer` is `none` for a `NULL` buffer.  The bytes
of a buffer that is not copied into are taken to be zero. -/
def newTransferOperation (reactor : Reactor) (fileDescriptor : Int)
    (methods : FunctionMethods) (callback : Bool) (size : Nat) (buffer : Option (List Nat))
    (data : Nat) (extensionAllocated : Bool) (allocation : Allocation) :
    Reactor × Option Nat :=
  if extensionAllocated then
    newOperation reactor fileDescriptor methods
      (.transfer
        { callback := callback, end_ := false, size := size, length := 0,
          buffer :=
            match buffer with
            | some bytes => bytes.take size ++ List.replicate (size - bytes.length) 0
            | none => List.replicate size 0 })
      data allocation
  else (reactor, none)

/-- `newInputOperation`. -/
def newInputOperation (reactor : Reactor) (fileDescriptor : Int) (size : Nat)
    (callback : Bool) (data : Nat) (extensionAllocated : Bool) (allocation : Allocation) :
    Reactor × Option Nat :=
  newTransferOperation reactor fileDescriptor .transferInput callback size none data
    extensionAllocated allocation

/-- `newOutputOperation`. -/
def newOutputOperation (reactor : Reactor) (fileDescriptor : Int) (size : Nat)
    (buffer : List Nat) (callback : Bool) (data : Nat) (extensionAllocated : Bool)
    (allocation : Allocation) : Reactor × Option Nat :=
  newTransferOperation reactor fileDescriptor .transferOutput callback size (some buffer) data
    extensionAllocated allocation

/-- The user callback that is running for the operation of element `id`, with
its parameters, once `dispatch` has made that operation active. -/
def invocation (functions : List FunctionEntry) (id : Nat) : Option Invocation :=
  match locate (fun function => function.owns id) functions with
  | none => none
  | some (_, function, _) =>
    match function.operation id with
    | none => none
    | some operation => userCallback function.methods operation

/-- What a call of `asyncHandleOperation` did: the reactor it leaves, the value
it returns, the elements of the operations for which `invokeCallback` was
called, and the user callback that was called, if any. -/
structure Handled where
  reactor : Reactor
  handled : Bool
  invoked : List Nat
  called : Option Invocation

/-- `asyncHandleOperation` for a user callback that returns `answer` and leaves
the reactor alone. -/
def asyncHandleOperation (reactor : Reactor) (poll : PollResult) (sys : Nat → SysResult)
    (answer : Nat) : Handled :=
  match dispatch reactor.functionQueue poll sys with
  | (functions, none) =>
    { reactor := { reactor with functionQueue := functions }, handled := false,
      invoked := [], called := none }
  | (functions, some id) =>
    { reactor := { reactor with functionQueue := complete functions id answer },
      handled := true, invoked := [id], called := invocation functions id }

/-- `asyncHandleOperation` up to the point where the user callback has been
entered.  When `invokeCallback` calls no user callback the call runs to its
end; otherwise the operation is pushed on the frames. -/
def handleBegin (reactor : Reactor) (poll : PollResult) (sys : Nat → SysResult) : Reactor :=
  match dispatch reactor.functionQueue poll sys with
  | (functions, none) => { reactor with functionQueue := functions }
  | (functions, some id) =>
    match invocation functions id with
    | some _ => { reactor with functionQueue := functions, frames := id :: reactor.frames }
    | none => { reactor with functionQueue := complete functions id 0 }

/-- The innermost running user callback returns `answer`, and the call of
`asyncHandleOperation` that invoked it runs to its end. -/
def handleEnd (reactor : Reactor) (answer : Nat) : Reactor :=
  match reactor.frames with
  | [] => reactor
  | id :: frames =>
    { reactor with functionQueue := complete reactor.functionQueue id answer, frames := frames }

/-- What the program and its callbacks can ask of the reactor. -/
inductive Request
  | asyncMonitorFileInput (fileDescriptor : Int) (callback : Bool) (data : Nat)
      (extensionAllocated : Bool) (allocation : Allocation)
  | asyncMonitorFileOutput (fileDescriptor : Int) (callback : Bool) (data : Nat)
      (extensionAllocated : Bool) (allocation : Allocation)
  | asyncMonitorFileAlert (fileDescriptor : Int) (callback : Bool) (data : Nat)
      (extensionAllocated : Bool) (allocation : Allocation)
  | asyncReadFile (fileDescriptor : Int) (size : Nat) (callback : Bool) (data : Nat)
      (extensionAllocated : Bool) (allocation : Allocation)
  | asyncWriteFile (fileDescriptor : Int) (buffer : List Nat) (size : Nat) (callback : Bool)
      (data : Nat) (extensionAllocated : Bool) (allocation : Allocation)
  | cancelOperation (id : Nat)
  | handleBegin (poll : PollResult) (sys : Nat → SysResult)
  | handleEnd (answer : Nat)

/-- One request served. -/
def step (reactor : Reactor) : Request → Reactor
  | .asyncMonitorFileInput fileDescriptor callback data extensionAllocated allocation =>
    (newFileMonitorOperation reactor fileDescriptor .monitorFileInput callback data
      extensionAllocated allocation).1
  | .asyncMonitorFileOutput fileDescriptor callback data extensionAllocated allocation =>
    (newFileMonitorOperation reactor fileDescriptor .monitorFileOutput callback data
      extensionAllocated allocation).1
  | .asyncMonitorFileAlert fileDescriptor callback data extensionAllocated allocation =>
    (newFileMonitorOperation reactor fileDescriptor .monitorFileAlert callback data
      extensionAllocated allocation).1
  | .asyncReadFile fileDescriptor size callback data extensionAllocated allocation =>
    (newInputOperation reactor fileDescriptor size callback data extensionAllocated
      allocation).1
  | .asyncWriteFile fileDescriptor buffer size callback data extensionAllocated allocation =>
    (newOutputOperation reactor fileDescriptor size buffer callback data extensionAllocated
      allocation).1
  | .cancelOperation id =>
    { reactor with functionQueue := cancelOperation reactor.functionQueue id }
  | .handleBegin poll sys => handleBegin reactor poll sys
  | .handleEnd answer => handleEnd reactor answer

/-- A sequence of requests served in order. -/
def run (reactor : Reactor) : List Request → Reactor
  | [] => reactor
  | request :: rest => run (step reactor request) rest

/-- The reactor of a thread that has not yet used it. -/
def initial : Reactor := { functionQueue := [], frames := [], next := 0 }

/-- States the reactor can be in. -/
def Reachable (reactor : Reactor) : Prop := ∃ requests, run initial requests = reactor

/-- The operation as one call of `asyncHandleOperation` that selects it leaves
it: `none` when the call deletes it. -/
def handleOperation (methods : FunctionMethods) (sys : Nat → SysResult) (answer : Nat)
    (operation : OperationEntry) : Option OperationEntry :=
  afterCallback methods answer (beforeCallback methods sys operation)

/-! ## Properties of states and of request sequences -/

/-- The invariant of a transfer extension: `length ≤ size`, with `size` a value
of `size_t`. -/
def OperationEntry.lengthInRange (operation : OperationEntry) : Prop :=
  ∀ extension, operation.extension = .transfer extension →
    extension.length ≤ extension.size ∧ extension.size < sizeModulus

/-- Every operation of every queue has the property. -/
def EveryOperation (P : OperationEntry → Prop) (functions : List FunctionEntry) : Prop :=
  ∀ function ∈ functions, ∀ operation ∈ function.operations, P operation

/-- Every queued operation satisfies the invariant of its transfer extension. -/
def LengthInvariant (functions : List FunctionEntry) : Prop :=
  EveryOperation OperationEntry.lengthInRange functions

/-- Two operations that differ at most in their monitor slot. -/
def OperationEntry.sameButMonitor (o o' : OperationEntry) : Prop :=
  o' = { o with monitor := o'.monitor }

/-- Two function entries that differ at most in the monitor slots of their
operations. -/
def FunctionEntry.sameButMonitor (f f' : FunctionEntry) : Prop :=
  f'.fileDescriptor = f.fileDescriptor ∧ f'.methods = f.methods ∧
    List.Forall₂ OperationEntry.sameButMonitor f.operations f'.operations

/-- Two function queues that differ at most in monitor slots. -/
def SameButMonitors (q q' : List FunctionEntry) : Prop :=
  List.Forall₂ FunctionEntry.sameButMonitor q q'

/-- A `read` or `write` returns `-1` or a count of at most the bytes requested. -/
def SysBounded (sys : Nat → SysResult) : Prop :=
  ∀ n, -1 ≤ (sys n).result ∧ (sys n).result ≤ n

/-- The system calls of a request transfer at most what was requested, and the
sizes of new transfers are values of `size_t`. -/
def Transferring : Request → Prop
  | .asyncReadFile _ size _ _ _ _ => size < sizeModulus
  | .asyncWriteFile _ _ size _ _ _ _ => size < sizeModulus
  | .handleBegin _ sys => SysBounded sys
  | _ => True

/-- A request is admissible in a state when it is `Transferring` and, if it is
the return of an input callback, the count returned is at most the length the
callback was given. -/
def Admissible (reactor : Reactor) (request : Request) : Prop :=
  Transferring request ∧
    match request with
    | .handleEnd answer =>
      match reactor.frames with
      | [] => True
      | id :: _ =>
        ∀ parameters, invocation reactor.functionQueue id = some (.input parameters) →
          answer ≤ parameters.length
    | _ => True

/-- Every request of the sequence is admissible in the state it is served in. -/
def AdmissibleRun : Reactor → List Request → Prop
  | _, [] => True
  | reactor, request :: rest =>
    Admissible reactor request ∧ AdmissibleRun (step reactor request) rest

/-- An input operation under service: the operation (`none` once deleted), the
bytes its callback has consumed and the bytes its reads have delivered. -/
structure InputService where
  operation : Option OperationEntry
  consumed : List Nat
  delivered : List Nat

/-- One call of `asyncHandleOperation` serving the input operation: `round.1`
is what `read` does if it is called, `round.2` the count the callback returns.
The callback consumes the first `round.2` bytes of the buffer it is given. -/
def serveInput (service : InputService) (round : (Nat → SysResult) × Nat) : InputService :=
  match service.operation with
  | none => service
  | some operation =>
    { operation := handleOperation .transferInput round.1 round.2 operation,
      consumed :=
        service.consumed ++
          (match userCallback .transferInput
              (beforeCallback .transferInput round.1 operation) with
           | some (.input parameters) => parameters.buffer.take round.2
           | _ => []),
      delivered :=
        service.delivered ++
          (if operation.finished then [] else bytesRead operation round.1) }

/-- Successive calls of `asyncHandleOperation` serving the input operation. -/
def serveInputs (service : InputService) :
    List ((Nat → SysResult) × Nat) → InputService
  | [] => service
  | round :: rest => serveInputs (serveInput service round) rest

/-- A round without error and without end of file, in which the callback
returns at most the length it is given: a read, if one is made, returns a
positive count of at most the bytes requested and delivers that many bytes. -/
def CleanRound (operation : OperationEntry) (round : (Nat → SysResult) × Nat) : Prop :=
  (operation.finished = false →
    ∀ extension, operation.extension = .transfer extension →
      0 < (round.1 (wrap (extension.size - extension.length))).result ∧
      (round.1 (wrap (extension.size - extension.length))).result ≤
        wrap (extension.size - extension.length) ∧
      (round.1 (wrap (extension.size - extension.length))).result.toNat ≤
        (round.1 (wrap (extension.size - extension.length))).data.length) ∧
  ∀ parameters,
    userCallback .transferInput (beforeCallback .transferInput round.1 operation) =
      some (.input parameters) →
    round.2 ≤ parameters.length

/-- All rounds of a service are clean. -/
def CleanRounds : InputService → List ((Nat → SysResult) × Nat) → Prop
  | _, [] => True
  | service, round :: rest =>
    (match service.operation with
     | some operation => CleanRound operation round
     | none => False) ∧
    CleanRounds (serveInput service round) rest

/-- A stream: `read` returns as many of the bytes available as were asked for. -/
def readFrom (available : List Nat) (n : Nat) : SysResult :=
  { result := (available.take n).length, errno := 0, data := available.take n }

/-- Every allocation succeeds. -/
def allocated : Allocation := { operation := true, function := true, element := true }

/-- A `poll` that reports every monitored descriptor ready. -/
def allReady : PollResult := { result := 1, ready := fun _ => true }

/-- An input operation of size 4 on descriptor 3 whose first read delivers two
bytes and whose callback then returns the count 3. -/
def overcountRequests : List Request :=
  [.asyncReadFile 3 4 true 0 true allocated,
   .handleBegin allReady (readFrom [65, 66]),
   .handleEnd 3]

/-- The same operation with a callback that returns the count 1. -/
def undercountRequests : List Request :=
  [.asyncReadFile 3 4 true 0 true allocated,
   .handleBegin allReady (readFrom [65, 66]),
   .handleEnd 1]

/-- The state of an input operation under service that has met neither an
error nor the end of the input: it is still queued, with a callback, and the
bytes consumed so far followed by the bytes held in `buffer[0 .. length)` are
`base` followed by the bytes delivered so far. -/
def InputService.Conserving (base : List Nat) (service : InputService) : Prop :=
  ∃ operation extension,
    service.operation = some operation ∧ operation.extension = .transfer extension ∧
    extension.callback = true ∧ extension.end_ = false ∧ operation.error = 0 ∧
    operation.cancel = false ∧ extension.length ≤ extension.size ∧
    extension.buffer.length = extension.size ∧ extension.size < sizeModulus ∧
    service.consumed ++ extension.buffer.take extension.length = base ++ service.delivered

/-- The extension of an input operation of size 4 as `newInputOperation` makes
it. -/
def emptyExtension : TransferExtension :=
  { callback := true, end_ := false, size := 4, length := 0, buffer := [0, 0, 0, 0] }

/-- The operation that `newOperation` makes for it. -/
def emptyInput : OperationEntry :=
  { id := 0, extension := .transfer emptyExtension, data := 0, monitor := none, error := 0,
    active := false, cancel := false, finished := false }

/-- Two calls of `asyncHandleOperation` for it: the read of the first delivers
the bytes `A B C D` of a stream `A B C D E` and its callback returns 2, the
callback of the second returns 0. -/
def sampleRounds : List ((Nat → SysResult) × Nat) :=
  [(readFrom [65, 66, 67, 68, 69], 2), (readFrom [69], 0)]

/-- An input operation of size 4 on descriptor 3 reading the stream
`A B C D E`, at its first callback: the first read has delivered `A B C D`. -/
def residueFirst : Reactor :=
  run initial
    [.asyncReadFile 3 4 true 0 true allocated,
     .handleBegin allReady (readFrom [65, 66, 67, 68, 69])]

/-- The next call of `asyncHandleOperation`, after the first callback has
returned 2, at its callback. -/
def residueSecond (poll : PollResult) (sys : Nat → SysResult) : Reactor :=
  handleBegin (handleEnd residueFirst 2) poll sys

/-- The call after that, when the second callback has returned 0 and the read
delivers `E`, at its callback. -/
def residueThird : Reactor :=
  handleBegin (handleEnd (residueSecond allReady (readFrom [69])) 0) allReady (readFrom [69])

/-! ## Well-formed reactors -/

/-- The key of a function entry, as `testFunctionEntry` compares it. -/
def FunctionEntry.key (function : FunctionEntry) : Int × FunctionMethods :=
  (function.fileDescriptor, function.methods)

/-- The elements of the operation queue of a function entry, head first. -/
def elementIds (function : FunctionEntry) : List Nat :=
  function.operations.map (fun operation => operation.id)

/-- The elements of all operation queues. -/
def allIds (functions : List FunctionEntry) : List Nat :=
  functions.flatMap elementIds

/-- The operations with `active = 1`, over all function entries. -/
def activeOperations (functions : List FunctionEntry) : List OperationEntry :=
  functions.flatMap (fun function => function.operations.filter (fun o => o.active))

/-- A function entry of input or output transfers (its active operation is
the head of its queue). -/
def FunctionEntry.isTransfer (function : FunctionEntry) : Prop :=
  function.methods.invokeCallback ≠ .invokeMonitorCallback

/-- The structure of a function queue: no entry has an empty operation queue,
no two entries have the same key, no two elements are the same, each queue
holds its elements in the order they were made, and in a transfer entry only
the head may be active. -/
structure Structured (functions : List FunctionEntry) : Prop where
  nonEmpty : ∀ function ∈ functions, function.operations ≠ []
  keys : (functions.map FunctionEntry.key).Nodup
  ids : (allIds functions).Nodup
  sorted : ∀ function ∈ functions, (elementIds function).Pairwise (fun i j => i < j)
  heads : ∀ function ∈ functions, function.isTransfer →
    ∀ operation ∈ function.operations.tail, operation.active = false

/-- A well-formed reactor: its function queue is structured, every element is
older than the next one to be made, and every active operation is one whose
callback is running. -/
structure WellFormed (reactor : Reactor) : Prop where
  structured : Structured reactor.functionQueue
  fresh : EveryOperation (fun o => o.id < reactor.next) reactor.functionQueue
  running : EveryOperation (fun o => o.active = true → o.id ∈ reactor.frames)
    reactor.functionQueue

/-- The number of operations of a function entry with `active = 1`. -/
def activeCount (function : FunctionEntry) : Nat :=
  (function.operations.filter (fun o => o.active)).length

/-- A monitor callback on descriptor 3 that, while it runs, registers a second
monitor for the same descriptor and calls `asyncHandleOperation`, which finds
the descriptor ready. -/
def nestedMonitorRequests : List Request :=
  [.asyncMonitorFileInput 3 true 0 true allocated,
   .handleBegin allReady (readFrom []),
   .asyncMonitorFileInput 3 true 1 true allocated,
   .handleBegin allReady (readFrom [])]

/-- An input operation on descriptor 3 and a monitor on descriptor 5. -/
def twoFunctionsRequests : List Request :=
  [.asyncReadFile 3 4 true 0 true allocated,
   .asyncMonitorFileInput 5 true 7 true allocated]

/-- The function entry of the monitor on descriptor 5, with its operation. -/
def monitorFunction : FunctionEntry :=
  { fileDescriptor := 5, methods := .monitorFileInput,
    operations :=
      [{ id := 1, extension := .monitor { callback := true }, data := 7, monitor := none,
         error := 0, active := false, cancel := false, finished := false }] }

/-- A monitor on descriptor 5 whose callback is running. -/
def runningMonitorRequests : List Request :=
  [.asyncMonitorFileInput 5 true 7 true allocated,
   .handleBegin allReady (readFrom [])]

/-- The operation of that monitor while its callback runs. -/
def runningMonitor : OperationEntry :=
  { id := 0, extension := .monitor { callback := true }, data := 7, monitor := some 0,
    error := 0, active := true, cancel := false, finished := false }

/-- Two input operations on descriptor 3, of sizes 4 and 2. -/
def twoReadsRequests : List Request :=
  [.asyncReadFile 3 4 true 0 true allocated,
   .asyncReadFile 3 2 true 0 true allocated]

/-- The cancellation of the element `id` is pending: an operation still queued
under that element has its `cancel` bit set, and the element is older than the
next one to be made. -/
def CancelPending (id : Nat) (reactor : Reactor) : Prop :=
  EveryOperation (fun o => o.id = id → o.cancel = true) reactor.functionQueue ∧
    id < reactor.next

/-! ## The screen reader core (`Programs/core.c`)

Modelling conventions for this part.

* An `int` is an integer; an `unsigned int` is a natural number below
  `2 ^ 32`.  Where C converts a value to `unsigned int` the embedding writes
  `toUnsigned`, and where it converts an `unsigned int` result to `int` it
  writes `toInt`.  Sums, differences and products that C computes in
  `unsigned int` are written as the mathematical expression inside the
  conversion, which is the same residue modulo `2 ^ 32`; the operands of an
  unsigned division are converted first.  Arithmetic on two `int` operands is
  the mathematical one (C leaves its overflow undefined).
* An `int` that the code only tests for being non-zero is a `Bool`.
* The text of the screen is a function of row and column to character codes;
  `readScreenRow` reads a row of it.
* A pending alarm is recorded by its delay in milliseconds.
-/

/-- Conversion of an integer to `unsigned int` (32 bits). -/
@[irreducible]
def toUnsigned (i : Int) : Nat := (i % 4294967296).toNat

/-- Conversion of an integer to `int` (32 bits, two's complement). -/
@[irreducible]
def toInt (i : Int) : Int := (2147483648 + i) % 4294967296 - 2147483648

/-- The fields of `ScreenDescription` used by the core. -/
structure ScreenDescription where
  rows : Int
  cols : Int
  posx : Int
  posy : Int
  number : Int
  cursor : Bool
deriving DecidableEq

/-- The fields of `SessionEntry` used by the window functions. -/
structure SessionEntry where
  number : Int
  hideScreenCursor : Bool
  winx : Int
  winy : Int
  motx : Int
  moty : Int
  trkx : Int
  trky : Int
  dctx : Int
  dcty : Int
  spkx : Int
  spky : Int
deriving DecidableEq

/-- The preferences consulted by the window functions. -/
structure Preferences where
  showScreenCursor : Bool
  slidingBrailleWindow : Bool
  eagerSlidingBrailleWindow : Bool
  wordWrap : Bool
  cursorTrackingDelay : Nat
deriving DecidableEq

/-- The fields of `BrailleDisplay` used by the core. -/
structure BrailleDisplay where
  textRows : Nat
  hideCursor : Bool
  hasFailed : Bool
deriving DecidableEq

/-- The global state of `core.c` that the window functions read and write.
`sesNull` says that the pointer `ses` is still `NULL`; `isContractedBraille`
and `contractionTable` are the two operands of `isContracting`;
`getContractedLength` is the input length reported by `contractText`, which
is not part of these sources; `screen` is the text of the screen. -/
structure Core where
  brl : BrailleDisplay
  scr : ScreenDescription
  ses : SessionEntry
  sesNull : Bool
  prefs : Preferences
  textCount : Nat
  isContracted : Bool
  contractedTrack : Bool
  isContractedBraille : Bool
  contractionTable : Bool
  getContractedLength : Nat → Int
  delayedCursorTrackingAlarm : Option Int
  screen : Int → Int → Nat

/-- The C library classification of white space (in the C locale): space,
tab, line feed, vertical tab, form feed and carriage return. -/
def iswspace (character : Nat) : Bool :=
  character == 32 || (9 ≤ character && character ≤ 13)

/-- Modelled from the spec: the macro `SCR_CURSOR_OK` is not part of these
sources; the screen cursor is valid when its column and row lie on the
screen. -/
def SCR_CURSOR_OK (c : Core) : Bool :=
  decide (0 ≤ c.scr.posx ∧ c.scr.posx ≤ c.scr.cols - 1 ∧
    0 ≤ c.scr.posy ∧ c.scr.posy ≤ c.scr.rows - 1)

/-- The alarm handler of delayed cursor tracking. -/
def handleDelayedCursorTrackingAlarm (c : Core) : Core :=
  { c with
    delayedCursorTrackingAlarm := none
    ses := { c.ses with
      trkx := c.ses.dctx, trky := c.ses.dcty, dctx := -1, dcty := -1 } }

/-- Cancel the alarm of delayed cursor tracking, if one is pending. -/
def cancelDelayedCursorTrackingAlarm (c : Core) : Core :=
  if c.delayedCursorTrackingAlarm.isSome then
    { c with delayedCursorTrackingAlarm := none }
  else c

/-- What `setSessionEntry` obtains from outside `core.c`: the description of
the current screen, the virtual terminal of the user, and the table of
session entries. -/
structure SessionSource where
  describeScreen : ScreenDescription
  userVirtualTerminal : Int
  getSessionEntry : Int → SessionEntry

/-- Describe the screen and make `ses` the session entry of its number. -/
def setSessionEntry (source : SessionSource) (c : Core) : Core :=
  let scr := source.describeScreen
  let scr := if scr.number = -1 then { scr with number := source.userVirtualTerminal } else scr
  let c := { c with scr := scr }
  if !c.sesNull && scr.number = c.ses.number then c
  else
    { cancelDelayedCursorTrackingAlarm c with
      ses := source.getSessionEntry scr.number, sesNull := false }

/-- One step of the table loops of `updateSessionAttributes`: the value is
lowered to the maximum when it exceeds it. -/
def limitValue (maximum value : Int) : Int :=
  if value > maximum then maximum else value

/-- Bring the window and motion positions of the session below the limits of
the current screen. -/
def updateSessionAttributes (source : SessionSource) (c : Core) : Core :=
  let c := setSessionEntry source c
  let maximum := max (c.scr.rows - toInt c.brl.textRows) 0
  let c := { c with ses := { c.ses with
    winy := limitValue maximum c.ses.winy, moty := limitValue maximum c.ses.moty } }
  let maximum := max (c.scr.cols - 1) 0
  { c with ses := { c.ses with
    winx := limitValue maximum c.ses.winx, motx := limitValue maximum c.ses.motx } }

/-- Whether the screen cursor is to be shown. -/
def showScreenCursor (c : Core) : Bool :=
  c.scr.cursor && c.prefs.showScreenCursor &&
    !(c.ses.hideScreenCursor || c.brl.hideCursor)

/-- Whether column `x` of the window row holds the shown screen cursor. -/
def isCursorPosition (c : Core) (x : Int) : Bool :=
  decide (x = c.scr.posx) && decide (c.ses.winy = c.scr.posy) && showScreenCursor c

/-- The backward loop of `getWordWrapLength`: with `index = from_ + n`, look
for white space at the columns `index - 1` down to `from_`. -/
def findWordBreak (characters : Int → Nat) (from_ : Int) : Nat → Option Int
  | 0 => none
  | n + 1 =>
    if iswspace (characters (from_ + n)) then some (from_ + n)
    else findWordBreak characters from_ n

/-- The forward loop of `getWordWrapLength`, run for at most `n` columns:
skip white space from `to_`, stopping at the cursor once the window end is
reached. -/
def skipWordBreak (c : Core) (characters : Int → Nat) (end_ width : Int) : Nat → Int → Int
  | 0, to_ => to_
  | n + 1, to_ =>
    if to_ < width then
      if !iswspace (characters to_) then to_
      else if decide (to_ ≥ end_) && isCursorPosition c to_ then to_
      else skipWordBreak c characters end_ width n (to_ + 1)
    else to_

/-- The number of columns from `from_` that a window of `count` cells shows
when words are not split. -/
def getWordWrapLength (c : Core) (row from_ count : Int) : Int :=
  let width := c.scr.cols
  if from_ ≥ width then 0
  else
    let end_ := from_ + count
    if end_ ≥ width then width - from_
    else
      let characters := c.screen row
      let found : Option Int :=
        if iswspace (characters end_) then some end_
        else findWordBreak characters from_ (end_ - from_).toNat
      match found with
      | none => end_ - from_
      | some to_ => skipWordBreak c characters end_ width (width - to_).toNat to_ - from_

/-- Place the window so that it shows column `x`. -/
def placeBrailleWindowHorizontally (x : Int) (c : Core) : Core :=
  if c.prefs.slidingBrailleWindow then
    { c with ses := { c.ses with winx := max 0 (x - toInt (c.textCount / 2 : Nat)) } }
  else
    { c with ses := { c.ses with
      winx := toInt ((toUnsigned x / c.textCount * c.textCount : Nat)) } }

/-- Move the window right by `amount` columns if that stays on the screen. -/
def moveBrailleWindowRight (amount : Nat) (c : Core) : Core × Bool :=
  if amount < 1 then (c, false)
  else
    let newx := toInt (c.ses.winx + amount)
    if newx ≥ c.scr.cols then (c, false)
    else ({ c with ses := { c.ses with winx := newx } }, true)

/-- Whether braille is being contracted. -/
def isContracting (c : Core) : Bool :=
  c.isContractedBraille && c.contractionTable

/-- Shift the window right by the logical amount. -/
def shiftBrailleWindowRight (amount : Nat) (c : Core) : Core × Bool :=
  let amount :=
    if isContracting c then toUnsigned (c.getContractedLength amount)
    else if c.prefs.wordWrap then
      toUnsigned (getWordWrapLength c c.ses.winy c.ses.winx (toInt amount))
    else amount
  moveBrailleWindowRight amount c

/-- Slide the window up or down so that it shows row `y`. -/
def slideBrailleWindowVertically (y : Int) (c : Core) : Core :=
  if y < c.ses.winy then { c with ses := { c.ses with winy := y } }
  else if y ≥ toInt (c.ses.winy + c.brl.textRows) then
    { c with ses := { c.ses with winy := toInt (y - ((c.brl.textRows : Int) - 1)) } }
  else c

/-- Whether the point lies within the braille window. -/
def isWithinBrailleWindow (c : Core) (x y : Int) : Bool :=
  decide (x ≥ c.ses.winx) && decide (x < toInt (c.ses.winx + c.textCount)) &&
    decide (y ≥ c.ses.winy) && decide (y < toInt (c.ses.winy + c.brl.textRows))

/-- The backward scan of contracted tracking over the columns `n - 1` down
to `0`: the result is the column after the white space that ends the word
before the cursor word, or `0`. -/
def contractedTrackStart (characters : Int → Nat) : Nat → Bool → Nat
  | 0, _ => 0
  | n + 1, onspace =>
    if iswspace (characters n) != onspace then
      if onspace then contractedTrackStart characters n false
      else n + 1
    else contractedTrackStart characters n onspace

/-- The contracted branch of `trackScreenCursor`: the window row becomes the
cursor row, and a window that starts right of the cursor is moved back to
the start of the word before the cursor word. -/
def trackContracted (c : Core) : Core :=
  let c := { c with ses := { c.ses with winy := c.scr.posy } }
  let c :=
    if c.scr.posx < c.ses.winx then
      { c with ses := { c.ses with
        winx := contractedTrackStart (c.screen c.ses.winy) (c.scr.posx + 1).toNat true } }
    else c
  { c with contractedTrack := true }

/-- The horizontal step of `trackScreenCursor`: the window slides towards
the cursor (sliding window) or moves by whole windows (otherwise). -/
def trackHorizontally (c : Core) : Core :=
  if c.prefs.slidingBrailleWindow then
    let reset := toInt (toUnsigned (c.textCount * 3) / 10 : Nat)
    let trigger :=
      toInt (if c.prefs.eagerSlidingBrailleWindow then toUnsigned (c.textCount * 3) / 20 else 0 : Nat)
    if c.scr.posx < c.ses.winx + trigger then
      { c with ses := { c.ses with winx := max (c.scr.posx - reset) 0 } }
    else if c.scr.posx ≥ toInt (c.ses.winx + c.textCount - trigger) then
      { c with ses := { c.ses with
        winx := max (min (c.scr.posx + reset + 1) c.scr.cols - toInt c.textCount) 0 } }
    else c
  else if c.scr.posx < c.ses.winx then
    let winx := toInt (c.ses.winx -
      ((toUnsigned (c.ses.winx - c.scr.posx - 1) / c.textCount + 1) * c.textCount : Nat))
    { c with ses := { c.ses with winx := if winx < 0 then 0 else winx } }
  else
    { c with ses := { c.ses with
      winx := toInt (c.ses.winx +
        (toUnsigned (c.scr.posx - c.ses.winx) / c.textCount * c.textCount : Nat)) } }

/-- The word wrap step of `trackScreenCursor`: a cursor beyond the words
shown by the window moves the window to the next word. -/
def trackWordWrap (c : Core) : Core :=
  if c.prefs.wordWrap then
    let length := getWordWrapLength c c.ses.winy c.ses.winx (toInt c.textCount)
    let next := c.ses.winx + length
    if c.scr.posx ≥ next then { c with ses := { c.ses with winx := next } } else c
  else c

/-- The delayed tracking coordinates are set to anything but -1. -/
def leaveDelayedCursorTracking (c : Core) : Core :=
  { c with ses := { c.ses with dctx := 0, dcty := 0 } }

/-- The placement step of `trackScreenCursor`: on request, a window that
does not show the cursor is placed at the cursor column. -/
def placeScreenCursor (place : Bool) (c : Core) : Core :=
  if place && !isWithinBrailleWindow c c.scr.posx c.scr.posy then
    placeBrailleWindowHorizontally c.scr.posx c
  else c

/-- The part of `trackScreenCursor` that follows the decisions about delayed
tracking: the window is moved to the screen cursor. -/
def trackScreenCursorNow (place : Bool) (c : Core) : Core × Bool :=
  let c := leaveDelayedCursorTracking c
  if c.isContracted then (trackContracted c, true)
  else
    let c := placeScreenCursor place c
    (slideBrailleWindowVertically c.scr.posy (trackWordWrap (trackHorizontally c)), true)

/-- Bring the screen cursor into the braille window, at once or after the
cursor tracking delay. -/
def trackScreenCursor (place : Bool) (c : Core) : Core × Bool :=
  if !SCR_CURSOR_OK c then (c, false)
  else if place then trackScreenCursorNow place (cancelDelayedCursorTrackingAlarm c)
  else if c.delayedCursorTrackingAlarm.isSome then
    (if c.ses.dctx = c.scr.posx ∧ c.ses.dcty = c.scr.posy then
        cancelDelayedCursorTrackingAlarm c
      else c, true)
  else if decide (c.prefs.cursorTrackingDelay > 0) && decide (c.ses.dctx ≠ -1) &&
      !isWithinBrailleWindow c c.ses.trkx c.ses.trky then
    ({ c with
       ses := { c.ses with dctx := c.ses.trkx, dcty := c.ses.trky }
       delayedCursorTrackingAlarm := some (250 * 2 ^ (c.prefs.cursorTrackingDelay - 1)) }, true)
  else trackScreenCursorNow place c

/-- The call of `trackScreenCursor` tracks: the cursor is valid and the call
neither waits for a pending alarm nor starts a new delay. -/
def Tracks (place : Bool) (c : Core) : Prop :=
  SCR_CURSOR_OK c = true ∧
    (place = true ∨
      (c.delayedCursorTrackingAlarm = none ∧
        (decide (c.prefs.cursorTrackingDelay > 0) && decide (c.ses.dctx ≠ -1) &&
          !isWithinBrailleWindow c c.ses.trkx c.ses.trky) = false))

instance (place : Bool) (c : Core) : Decidable (Tracks place c) :=
  inferInstanceAs (Decidable (_ ∧ _))

/-- A coordinate or size small enough that the sums and differences formed
from two or three such values stay within `int`. -/
def Small (i : Int) : Prop := -268435456 < i ∧ i < 268435456

instance (i : Int) : Decidable (Small i) :=
  inferInstanceAs (Decidable (_ ∧ _))

/-- The sizes and positions of the state are small. -/
def Core.Small (c : Core) : Prop :=
  Brltty.Small c.scr.cols ∧ Brltty.Small c.scr.rows ∧
    Brltty.Small c.ses.winx ∧ Brltty.Small c.ses.winy ∧
    Brltty.Small c.textCount ∧ Brltty.Small c.brl.textRows

instance (c : Core) : Decidable c.Small :=
  inferInstanceAs (Decidable (_ ∧ _))

/-- The count and the time of the latest program termination requests. -/
structure TerminationRequests where
  programTerminationRequestCount : Nat
  programTerminationRequestTime : Int
deriving DecidableEq

/-- The handler of a program termination request that arrives at the time
`now` (in seconds).  The parameters are the constants
`PROGRAM_TERMINATION_REQUEST_RESET_SECONDS` and
`PROGRAM_TERMINATION_REQUEST_COUNT_THRESHOLD`, which are not part of these
sources; `difftime` of two times in seconds is their difference.  The second
component of the result is the status passed to `exit` when the handler ends
the program, and `none` when it returns. -/
def handleProgramTerminationRequest (resetSeconds : Int) (countThreshold : Nat)
    (now : Int) (t : TerminationRequests) : TerminationRequests × Option Nat :=
  let t :=
    if now - t.programTerminationRequestTime > resetSeconds then
      { t with programTerminationRequestCount := 0 }
    else t
  let t := { t with
    programTerminationRequestCount := toUnsigned (t.programTerminationRequestCount + 1) }
  if t.programTerminationRequestCount > countThreshold then (t, some 1)
  else ({ t with programTerminationRequestTime := now }, none)

/-- A session source that describes the screen as it is and keeps the
session entry. -/
def sameSession (c : Core) : SessionSource :=
  { describeScreen := c.scr, userVirtualTerminal := c.scr.number,
    getSessionEntry := fun _ => c.ses }

/-- A screen of 80 columns and 25 rows with the cursor at column 50 of row
10, shown on a display of one row of 40 cells with the window at the origin;
the window slides, not eagerly. -/
def sampleCore : Core :=
  { brl := { textRows := 1, hideCursor := false, hasFailed := false },
    scr := { rows := 25, cols := 80, posx := 50, posy := 10, number := 1, cursor := true },
    ses := { number := 1, hideScreenCursor := false, winx := 0, winy := 0, motx := 0, moty := 0,
             trkx := 0, trky := 0, dctx := 0, dcty := 0, spkx := 0, spky := 0 },
    sesNull := false,
    prefs := { showScreenCursor := true, slidingBrailleWindow := true,
               eagerSlidingBrailleWindow := false, wordWrap := false, cursorTrackingDelay := 0 },
    textCount := 40, isContracted := false, contractedTrack := false,
    isContractedBraille := false, contractionTable := false,
    getContractedLength := fun n => n, delayedCursorTrackingAlarm := none,
    screen := fun _ _ => 32 }

/-- The sample state with the window left of the screen. -/
def negativeWindow : Core :=
  { sampleCore with ses := { sampleCore.ses with winx := -1 } }

/-- The sample state with the speech cursor beyond the last column. -/
def farSpeechCursor : Core :=
  { sampleCore with ses := { sampleCore.ses with spkx := 100 } }

/-- The sample state without the sliding window. -/
def pagingCore : Core :=
  { sampleCore with prefs := { sampleCore.prefs with slidingBrailleWindow := false } }

/-- The character codes of `hello world`. -/
def helloWorld : List Nat := [104, 101, 108, 108, 111, 32, 119, 111, 114, 108, 100]

/-- A screen row that holds `hello world` in the columns 0 to 10 and spaces
elsewhere. -/
def helloRow (x : Int) : Nat :=
  if x < 0 then 32 else helloWorld.getD x.toNat 32

/-- The sample screen showing `hello world` on every row, on a display of 8
cells with word wrap. -/
def wordWrapCore : Core :=
  { sampleCore with
    textCount := 8, screen := fun _ => helloRow,
    prefs := { sampleCore.prefs with wordWrap := true, slidingBrailleWindow := false } }

/-- A display of 8 cells showing the columns 0 to 7 of row 0, the cursor at
column 40 of row 0, the tracked point at (5, 5), a cursor tracking delay of
2 and no alarm pending; `dctx` is as given. -/
def delayCore (dctx : Int) : Core :=
  { sampleCore with
    textCount := 8
    scr := { sampleCore.scr with posx := 40, posy := 0 }
    ses := { sampleCore.ses with trkx := 5, trky := 5, dctx := dctx, dcty := dctx }
    prefs := { sampleCore.prefs with cursorTrackingDelay := 2, slidingBrailleWindow := false } }

/-! ### Waiting (`brlttyWait`) -/

/-- Modelled from the spec: the enumeration `WaitResult` is declared in a
header that is not part of these sources; `WAIT_STOP` is its first
constant. -/
def WAIT_STOP : Int := 0

/-- Modelled from the spec: the second constant of `WaitResult`, the value
`1` that `brlttyWait` returns when no interrupt or termination request ends
the wait. -/
def WAIT_CONTINUE : Int := 1

/-- The two handlers of unmonitored conditions. -/
inductive UnmonitoredConditionHandler
  | handleRoutingDone
  | handleBrailleDriverFailed
deriving DecidableEq

/-- The descriptor filled in by `checkUnmonitoredConditions`; `data` is the
value that the pointer `data` points to, `none` for `NULL`. -/
structure UnmonitoredConditionDescriptor where
  handler : Option UnmonitoredConditionHandler
  data : Option Int
deriving DecidableEq

/-- The state that `brlttyWait` reads and writes.  `getRoutingStatus` is the
result of `getRoutingStatus(0)`, with `none` for `ROUTING_NONE` (the routing
module is not part of these sources); `alerts` lists the routing statuses for
which `handleRoutingDone` has raised its alert, `restarts` counts the calls
of `restartBrailleDriver`. -/
structure Waiting where
  core : Core
  interruptPending : Bool
  waitResult : Int
  requests : TerminationRequests
  getRoutingStatus : Option Int
  alerts : List Int
  restarts : Nat

/-- The condition tester of `brlttyWait`. -/
def checkUnmonitoredConditions (w : Waiting) (ucd : UnmonitoredConditionDescriptor) :
    Waiting × UnmonitoredConditionDescriptor × Bool :=
  if w.interruptPending then
    ({ w with interruptPending := false }, { ucd with data := some w.waitResult }, true)
  else if w.requests.programTerminationRequestCount ≠ 0 then
    (w, { ucd with data := some WAIT_STOP }, true)
  else
    match w.getRoutingStatus with
    | some status =>
      (w, { ucd with handler := some .handleRoutingDone, data := some status }, true)
    | none =>
      if w.core.brl.hasFailed then
        (w, { ucd with handler := some .handleBrailleDriverFailed }, true)
      else (w, ucd, false)

/-- The handler of a finished routing: it raises the alert for the status and
moves the speech cursor to the screen cursor. -/
def handleRoutingDone (data : Option Int) (w : Waiting) : Waiting :=
  { w with
    alerts := w.alerts ++ data.toList
    core := { w.core with ses := { w.core.ses with
      spkx := w.core.scr.posx, spky := w.core.scr.posy } } }

/-- The handler of a failed braille driver: it restarts the driver. -/
def handleBrailleDriverFailed (w : Waiting) : Waiting :=
  { w with restarts := w.restarts + 1 }

/-- Modelled from the spec: `asyncAwaitCondition` is not part of these
sources.  It evaluates the tester, and while the tester reports nothing it
lets the reactor run; `ticks` lists what the reactor runs do to the state
before the duration has elapsed.  The result says whether the tester reported
a condition. -/
def asyncAwaitCondition (ticks : List (Waiting → Waiting)) (w : Waiting)
    (ucd : UnmonitoredConditionDescriptor) :
    Waiting × UnmonitoredConditionDescriptor × Bool :=
  match checkUnmonitoredConditions w ucd with
  | (w, ucd, true) => (w, ucd, true)
  | (w, ucd, false) =>
    match ticks with
    | [] => (w, ucd, false)
    | tick :: ticks => asyncAwaitCondition ticks (tick w) ucd

/-- Wait for the duration or until an unmonitored condition arises.  The
result is `none` if the function were to read through a `NULL` pointer. -/
def brlttyWait (ticks : List (Waiting → Waiting)) (w : Waiting) : Waiting × Option Int :=
  match asyncAwaitCondition ticks w { handler := none, data := none } with
  | (w, ucd, true) =>
    match ucd.handler with
    | none => (w, ucd.data)
    | some .handleRoutingDone => (handleRoutingDone ucd.data w, some 1)
    | some .handleBrailleDriverFailed => (handleBrailleDriverFailed w, some 1)
  | (w, _, false) => (w, some 1)

/-- Whether one of the unmonitored conditions holds. -/
def Waiting.condition (w : Waiting) : Bool :=
  w.interruptPending || decide (w.requests.programTerminationRequestCount ≠ 0) ||
    w.getRoutingStatus.isSome || w.core.brl.hasFailed

/-- A waiting state around the sample state. -/
def sampleWaiting : Waiting :=
  { core := sampleCore, interruptPending := false, waitResult := 0,
    requests := { programTerminationRequestCount := 0, programTerminationRequestTime := 0 },
    getRoutingStatus := none, alerts := [], restarts := 0 }

/-! ### Moving and shifting the window to the left -/

/-- Whether column `x` of the row is a word break: white space that is not
the cursor position. -/
def isWordBreak (c : Core) (characters : Int → Nat) (x : Int) : Bool :=
  if !iswspace (characters x) then false
  else !isCursorPosition c x

/-- The first loop of `setWordWrapStart`: drop the word breaks that end the
columns below `n`; the result is the column after the last column that is
not a word break, or `0`. -/
def dropWordBreaks (c : Core) (characters : Int → Nat) : Nat → Nat
  | 0 => 0
  | n + 1 => if !isWordBreak c characters n then n + 1 else dropWordBreaks c characters n

/-- The forward loops of `setWordWrapStart`, run for at most `n` columns:
advance `start` below `end_` until the column is a word break
(`stopAtBreak`) or until it is not. -/
def skipColumns (c : Core) (characters : Int → Nat) (stopAtBreak : Bool) (end_ : Int) :
    Nat → Int → Int
  | 0, start => start
  | n + 1, start =>
    if start < end_ then
      if isWordBreak c characters start = stopAtBreak then start
      else skipColumns c characters stopAtBreak end_ n (start + 1)
    else start

/-- The end of the window in `setWordWrapStart`: the column `start +
textCount`, limited to the screen width, moved back over the word breaks
before it. -/
def wordWrapEnd (c : Core) (start : Int) : Int :=
  let end_ := toInt (start + c.textCount)
  let end_ := if end_ > c.scr.cols then c.scr.cols else end_
  if end_ > 0 then dropWordBreaks c (c.screen c.ses.winy) end_.toNat else end_

/-- The start of the window in `setWordWrapStart`, for the window end
`end_`: `textCount` columns before the end, not before column 0, and then
moved forward over what is left of a word that begins earlier and over the
word breaks that follow. -/
def wordWrapStart (c : Core) (end_ : Int) : Int :=
  let characters := c.screen c.ses.winy
  let start := toInt (end_ - c.textCount)
  let start := if start < 0 then 0 else start
  if start > 0 then
    let start :=
      if !isWordBreak c characters (start - 1) then
        skipColumns c characters true end_ (end_ - start).toNat start
      else start
    skipColumns c characters false end_ (end_ - start).toNat start
  else start

/-- Put the window at column `start`, moved to the start of a word so that
the window ends with a whole word. -/
def setWordWrapStart (start : Int) (c : Core) : Core :=
  let start := if start < 0 then 0 else start
  let c := { c with ses := { c.ses with winx := start } }
  if start > 0 then
    let end_ := wordWrapEnd c start
    let start := wordWrapStart c end_
    if start < end_ then { c with ses := { c.ses with winx := start } } else c
  else c

/-- Move the window left by `amount` columns, not beyond column 0. -/
def moveBrailleWindowLeft (amount : Nat) (c : Core) : Core × Bool :=
  if c.ses.winx < 1 then (c, false)
  else if amount < 1 then (c, false)
  else
    ({ c with ses := { c.ses with
        winx := toInt (c.ses.winx -
          ((if toUnsigned c.ses.winx < amount then toUnsigned c.ses.winx else amount : Nat) : Int)) } },
      true)

/-- Shift the window left by the logical amount.  The branch that the
function takes while braille is being contracted is not embedded: the result
is `none` for it. -/
def shiftBrailleWindowLeft (amount : Nat) (c : Core) : Option (Core × Bool) :=
  if isContracting c then none
  else if c.prefs.wordWrap then
    if c.ses.winx < 1 then some (c, false)
    else some (setWordWrapStart (toInt (c.ses.winx - amount)) c, true)
  else some (moveBrailleWindowLeft amount c)

/-- The character codes of `abcdef gh`. -/
def twoWords : List Nat := [97, 98, 99, 100, 101, 102, 32, 103, 104]

/-- A screen row that holds `abcdef gh` in the columns 0 to 8 and spaces
elsewhere. -/
def twoWordsRow (x : Int) : Nat :=
  if x < 0 then 32 else twoWords.getD x.toNat 32

/-- The sample screen showing `abcdef gh` on every row, on a display of 8
cells with word wrap and the window at column 2 of row 0; the cursor is on
row 10. -/
def shiftLeftCore : Core :=
  { wordWrapCore with
    screen := fun _ => twoWordsRow
    ses := { wordWrapCore.ses with winx := 2 } }

/-- The sample screen showing `ab` followed by spaces on every row, on a
display of 8 cells with word wrap. -/
def trailingSpaceCore : Core :=
  { wordWrapCore with
    screen := fun _ x => if x = 0 then 97 else if x = 1 then 98 else 32 }

/-- The session invariant of the window position: the window starts on the
screen, and not below the row from which the display reaches the last row. -/
def WindowInvariant (c : Core) : Prop :=
  0 ≤ c.ses.winx ∧ c.ses.winx ≤ max (c.scr.cols - 1) 0 ∧
    0 ≤ c.ses.winy ∧ c.ses.winy ≤ max (c.scr.rows - c.brl.textRows) 0

instance (c : Core) : Decidable (WindowInvariant c) :=
  inferInstanceAs (Decidable (_ ∧ _))

/-- A screen row that holds `ab`, three spaces and `cd` in the columns 0 to
6 and spaces elsewhere. -/
def gapRow (x : Int) : Nat :=
  if x < 0 then 32 else [97, 98, 32, 32, 32, 99, 100].getD x.toNat 32

/-- The sample screen showing `gapRow` on every row, on a display of 8 cells
with word wrap; the cursor is on another row than the window. -/
def gapCore : Core :=
  { wordWrapCore with screen := fun _ => gapRow }

/-! ### After a command (`postprocessCommand`) -/

/-- The window position that the command preprocessor has saved. -/
structure PrecommandState where
  motionColumn : Int
  motionRow : Int
deriving DecidableEq

/-- The alerts that `postprocessCommand` raises; a routing result carries
the routing status. -/
inductive Alert
  | cursorUnlinked
  | routingStarted
  | routingResult (status : Int)
deriving DecidableEq

/-- The state that `postprocessCommand` reads and writes besides the core
state: `trackScreenCursor` is the field of the session entry, `speechTrack`
says that speech tracking is active on the screen of that number, `moves`
counts the reports of a moved window, and `routes` lists the targets (column,
row, screen) handed to `routeScreenCursor`. -/
structure Commands where
  core : Core
  trackScreenCursor : Bool
  speechTrackActive : Bool
  speechTrackScreen : Int
  updates : Nat
  moves : Nat
  alerts : List Alert
  routes : List (Int × Int × Int)

/-- What `postprocessCommand` takes from outside `core.c`: the command masks
`BRL_MSK_BLK` and `BRL_FLG_MOTION_ROUTE`, whether `routeScreenCursor` starts
the routing, the status that `getRoutingStatus(1)` reports (`none` for
`ROUTING_NONE`), and the description of the screen after the routing. -/
structure CommandSource where
  BRL_MSK_BLK : Nat
  BRL_FLG_MOTION_ROUTE : Nat
  routeScreenCursor : Bool
  getRoutingStatus : Option Int
  describeScreen : ScreenDescription

/-- Report the result of a finished routing and move the speech cursor to
the screen cursor. -/
def checkRoutingStatus (status : Option Int) (s : Commands) : Commands :=
  match status with
  | none => s
  | some status =>
    { s with
      alerts := s.alerts ++ [.routingResult status]
      core := { s.core with ses := { s.core.ses with
        spkx := s.core.scr.posx, spky := s.core.scr.posy } } }

/-- The rectangle of the screen that the braille window shows, as
`postprocessCommand` computes it: left, right, top, bottom.  The minimum is
taken in `unsigned int`, as is the subtraction of 1. -/
def motionRectangle (c : Core) : Int × Int × Int × Int :=
  let left := c.ses.winx
  let right := toInt (((if toUnsigned (left + c.textCount) < toUnsigned c.scr.cols then
    toUnsigned (left + c.textCount) else toUnsigned c.scr.cols : Nat) : Int) - 1)
  let top := c.ses.winy
  let bottom := toInt (((if toUnsigned (top + c.brl.textRows) < toUnsigned c.scr.rows then
    toUnsigned (top + c.brl.textRows) else toUnsigned c.scr.rows : Nat) : Int) - 1)
  (left, right, top, bottom)

/-- The routing part of `postprocessCommand`: a cursor outside the window
rectangle is routed to the nearest point of the rectangle, and when the
routing starts the window follows the cursor of the screen described
afterwards. -/
def routeIntoWindow (source : CommandSource) (s : Commands) : Commands :=
  let (left, right, top, bottom) := motionRectangle s.core
  let scr := s.core.scr
  if scr.posx < left ∨ scr.posx > right ∨ scr.posy < top ∨ scr.posy > bottom then
    let s := { s with
      routes := s.routes ++
        [(min (max scr.posx left) right, min (max scr.posy top) bottom, scr.number)] }
    if source.routeScreenCursor then
      let s := { s with alerts := s.alerts ++ [.routingStarted] }
      let s := checkRoutingStatus source.getRoutingStatus s
      let description := source.describeScreen
      if description.number = s.core.scr.number then
        { s with core := (placeBrailleWindowHorizontally description.posx
            (slideBrailleWindowVertically description.posy s.core)) }
      else s
    else s
  else s

/-- The part of `postprocessCommand` for a window that the command has
moved: the move is reported, the motion position follows the window,
contracted tracking ends, and the cursor is unlinked from speech tracking. -/
def windowMoved (pre : PrecommandState) (s : Commands) : Commands :=
  if s.core.ses.winx ≠ pre.motionColumn ∨ s.core.ses.winy ≠ pre.motionRow then
    let s := { s with
      moves := s.moves + 1
      core := { s.core with
        isContracted := false
        ses := { s.core.ses with motx := s.core.ses.winx, moty := s.core.ses.winy } } }
    if s.trackScreenCursor && s.speechTrackActive &&
        decide (s.core.scr.number = s.speechTrackScreen) then
      { s with trackScreenCursor := false, alerts := s.alerts ++ [.cursorUnlinked] }
    else s
  else s

/-- What follows the execution of a command. -/
def postprocessCommand (source : CommandSource) (pre : Option PrecommandState)
    (command : Nat) (handled : Bool) (s : Commands) : Commands :=
  match pre with
  | none => s
  | some pre =>
    let s := if handled then { s with updates := s.updates + 1 } else s
    let s := windowMoved pre s
    if command &&& source.BRL_MSK_BLK = 0 then
      if command &&& source.BRL_FLG_MOTION_ROUTE ≠ 0 then routeIntoWindow source s
      else s
    else s

/-- The commands state around a core state, with nothing recorded. -/
def sampleCommands (c : Core) : Commands :=
  { core := c, trackScreenCursor := false, speechTrackActive := false, speechTrackScreen := 0,
    updates := 0, moves := 0, alerts := [], routes := [] }

/-- A command source with the block mask `0xFF00` and the routing flag
`0x20000`, whose routing requests do not start a routing. -/
def sampleSource : CommandSource :=
  { BRL_MSK_BLK := 65280, BRL_FLG_MOTION_ROUTE := 131072, routeScreenCursor := false,
    getRoutingStatus := none, describeScreen := sampleCore.scr }

/-! ### Spelling (`speakCharacters`) -/

/-- The stores into the local array `string` of the spell branch of
`speakCharacters`, as pairs of index and value, from the index `length` on:
every character is followed by a space.  The result also gives the final
value of `length`. -/
def spellLoop : List Nat → Nat → List (Nat × Nat) × Nat
  | [], length => ([], length)
  | character :: characters, length =>
    (((length, character) :: (length + 1, 32) :: (spellLoop characters (length + 2)).1),
      (spellLoop characters (length + 2)).2)

/-- The spell branch of `speakCharacters` for the texts of `count` screen
characters: the number of elements of the array `string`, the stores into it
in order (the last one is the terminator), and the length handed to
`sayWideCharacters`. -/
structure Spelling where
  size : Nat
  stores : List (Nat × Nat)
  length : Nat
deriving DecidableEq

/-- The spell branch of `speakCharacters`. -/
def spellCharacters (characters : List Nat) : Spelling :=
  { size := characters.length * 2
    stores := (spellLoop characters 0).1 ++ [((spellLoop characters 0).2, 0)]
    length := (spellLoop characters 0).2 }

/-- The element of the array at `index` after the stores, if one was
stored. -/
def Spelling.element (s : Spelling) (index : Nat) : Option Nat :=
  (s.stores.reverse.find? (fun store => store.1 == index)).map (fun store => store.2)

/-- The text handed to the synthesizer: the first `length` elements of the
array. -/
def Spelling.text (s : Spelling) : List (Option Nat) :=
  (List.range s.length).map s.element

/-- What `speakCharacters` hands to the synthesizer, by branch. -/
inductive Speech
  | whitespace
  | character (text : Nat)
  | spelled (spelling : Spelling)
  | characters (texts : List Nat)
deriving DecidableEq

/-- The index of the first character that is not a space, if there is one;
`isSpace` stands for the test `getScreenCharacterType(...) == SCT_SPACE`,
which is not part of these sources. -/
def findFirstNonSpaceCharacter (isSpace : Nat → Bool) (characters : List Nat) : Option Nat :=
  let index := characters.findIdx (fun character => !isSpace character)
  if index < characters.length then some index else none

/-- Whether all characters are spaces. -/
def isAllSpaceCharacters (isSpace : Nat → Bool) (characters : List Nat) : Bool :=
  (findFirstNonSpaceCharacter isSpace characters).isNone

/-- The branches of `speakCharacters`. -/
def speakCharacters (isSpace : Nat → Bool) (characters : List Nat) (spell : Bool) : Speech :=
  if isAllSpaceCharacters isSpace characters then .whitespace
  else if characters.length = 1 then .character (characters.headD 0)
  else if spell then .spelled (spellCharacters characters)
  else .characters characters

/-! ## The ViaVoice speech driver (`Drivers/Speech/ViaVoice/speech.c`)

Text is handed to the synthesizer in segments.  A buffer is a list of bytes;
the text that `eciAddText` receives is a C string, the bytes before the first
zero byte.  The macro `USE_SSML` is `0` in the source, so the markup branch
of `addSegment` is not compiled in. -/

/-- What the driver asks of the synthesizer, in order. -/
inductive EciRequest
  | addText (text : List Nat)
  | insertIndex (index : Nat)
deriving DecidableEq

/-- The state of the driver: the say buffer and its size, the requests made
so far, and whether `malloc`, `eciAddText` and `eciInsertIndex` succeed. -/
structure Speaker where
  sayBuffer : List Nat
  saySize : Nat
  requests : List EciRequest
  malloc : Nat → Bool
  eciAddText : List Nat → Bool
  eciInsertIndex : Nat → Bool

/-- The C library classification of white space for a byte. -/
def isspace (byte : Nat) : Bool :=
  byte == 32 || (9 ≤ byte && byte ≤ 13)

/-- The C string that starts the bytes: the bytes before the first zero
byte. -/
def cString (bytes : List Nat) : List Nat :=
  bytes.takeWhile (fun byte => byte != 0)

/-- Hand a text to the synthesizer. -/
def addText (text : List Nat) (s : Speaker) : Speaker × Bool :=
  if s.eciAddText (cString text) then
    ({ s with requests := s.requests ++ [.addText (cString text)] }, true)
  else (s, false)

/-- Make the say buffer hold at least `size` bytes. -/
def ensureSayBuffer (size : Nat) (s : Speaker) : Speaker × Bool :=
  if size > s.saySize then
    let size := (size ||| 255) + 1
    if s.malloc size then
      ({ s with sayBuffer := List.replicate size 0, saySize := size }, true)
    else (s, false)
  else (s, true)

/-- Hand the bytes `from_` up to `to_` of the buffer to the synthesizer. -/
def addCharacters (buffer : List Nat) (from_ to_ : Nat) (s : Speaker) : Speaker × Bool :=
  let length := to_ - from_
  if length = 0 then (s, true)
  else
    match ensureSayBuffer (length + 1) s with
    | (s, false) => (s, false)
    | (s, true) =>
      let copied := (buffer.drop from_).take length ++ [0] ++ s.sayBuffer.drop (length + 1)
      addText copied { s with sayBuffer := copied }

/-- Hand a segment to the synthesizer and insert the index of its end. -/
def addSegment (buffer : List Nat) (from_ to_ : Nat) (s : Speaker) : Speaker × Bool :=
  match addCharacters buffer from_ to_ s with
  | (s, false) => (s, false)
  | (s, true) =>
    if s.eciInsertIndex to_ then
      ({ s with requests := s.requests ++ [.insertIndex to_] }, true)
    else (s, false)

/-- The loop of `addSegments` for the `n` bytes from `to_` on; `onSpace` is
`none` before the first byte.  The result gives the start of the last
segment, or `none` when a request failed. -/
def addSegmentsLoop (buffer : List Nat) :
    Nat → Nat → Option Bool → Nat → Speaker → Speaker × Option Nat
  | 0, _, _, from_, s => (s, some from_)
  | n + 1, to_, onSpace, from_, s =>
    let isSpace := isspace (buffer.getD to_ 0)
    if some isSpace ≠ onSpace then
      if to_ > from_ then
        match addSegment buffer from_ to_ s with
        | (s, false) => (s, none)
        | (s, true) => addSegmentsLoop buffer n (to_ + 1) (some isSpace) to_ s
      else addSegmentsLoop buffer n (to_ + 1) (some isSpace) from_ s
    else addSegmentsLoop buffer n (to_ + 1) onSpace from_ s

/-- Hand the buffer to the synthesizer in segments of white space and of
other bytes. -/
def addSegments (buffer : List Nat) (s : Speaker) : Speaker × Bool :=
  match addSegmentsLoop buffer buffer.length 0 none 0 s with
  | (s, none) => (s, false)
  | (s, some from_) => addSegment buffer from_ buffer.length s

/-- The maximal runs of white space and of other bytes of a buffer. -/
def runs : List Nat → List (List Nat)
  | [] => []
  | byte :: bytes =>
    match runs bytes with
    | [] => [[byte]]
    | run :: rest =>
      if isspace byte = isspace (run.headD 0) then (byte :: run) :: rest
      else [byte] :: run :: rest

/-- The requests for a list of segments that starts at the index `from_`:
for every segment its text and then the index of its end. -/
def segmentRequests : Nat → List (List Nat) → List EciRequest
  | _, [] => []
  | from_, run :: rest =>
    .addText (cString run) :: .insertIndex (from_ + run.length) ::
      segmentRequests (from_ + run.length) rest

/-- All requests to the synthesizer and all allocations succeed. -/
def Speaker.Succeeds (s : Speaker) : Prop :=
  (∀ size, s.malloc size = true) ∧ (∀ text, s.eciAddText text = true) ∧
    (∀ index, s.eciInsertIndex index = true)

/-- A driver whose requests and allocations all succeed. -/
def sampleSpeaker : Speaker :=
  { sayBuffer := [], saySize := 0, requests := [],
    malloc := fun _ => true, eciAddText := fun _ => true, eciInsertIndex := fun _ => true }

/-! # Theorems -/

/-! ## Lists and queues -/

theorem locate_some {p : FunctionEntry → Bool} {functions before after : List FunctionEntry}
    {found : FunctionEntry} (h : locate p functions = some (before, found, after)) :
    functions = before ++ found :: after ∧ p found = true ∧ ∀ g ∈ before, p g = false := by
  induction functions generalizing before with
  | nil => simp [locate] at h
  | cons f rest ih =>
    unfold locate at h
    by_cases hp : p f = true
    · rw [if_pos hp] at h
      simp only [Option.some.injEq, Prod.mk.injEq] at h
      obtain ⟨rfl, rfl, rfl⟩ := h
      simp [hp]
    · rw [if_neg hp] at h
      cases hl : locate p rest with
      | none => simp [hl] at h
      | some r =>
        obtain ⟨b, g, a⟩ := r
        simp only [hl, Option.some.injEq, Prod.mk.injEq] at h
        obtain ⟨rfl, rfl, rfl⟩ := h
        obtain ⟨h1, h2, h3⟩ := ih hl
        refine ⟨by simp [h1], h2, ?_⟩
        intro x hx
        rcases List.mem_cons.1 hx with rfl | hx
        · simpa using hp
        · exact h3 x hx

theorem locate_none {p : FunctionEntry → Bool} {functions : List FunctionEntry}
    (h : locate p functions = none) : ∀ g ∈ functions, p g = false := by
  induction functions with
  | nil => simp
  | cons f rest ih =>
    unfold locate at h
    by_cases hp : p f = true
    · rw [if_pos hp] at h; simp at h
    · rw [if_neg hp] at h
      cases hl : locate p rest with
      | none =>
        intro g hg
        rcases List.mem_cons.1 hg with rfl | hg
        · simpa using hp
        · exact ih hl g hg
      | some r =>
        obtain ⟨b, g, a⟩ := r
        simp [hl] at h

theorem modifyLast_mem {α : Type} (g : α → α) (l : List α) (x : α)
    (h : x ∈ modifyLast g l) : x ∈ l ∨ ∃ y ∈ l, x = g y := by
  induction l using modifyLast.induct g with
  | case1 => simp [modifyLast] at h
  | case2 a =>
    simp only [modifyLast, List.mem_singleton] at h
    exact Or.inr ⟨a, by simp, h⟩
  | case3 a b l ih =>
    simp only [modifyLast, List.mem_cons] at h
    rcases h with rfl | h
    · simp
    · rcases ih (by simpa [List.mem_cons] using h) with h | ⟨y, hy, rfl⟩
      · exact Or.inl (List.mem_cons_of_mem _ h)
      · exact Or.inr ⟨y, List.mem_cons_of_mem _ hy, rfl⟩

theorem modifyActive_mem (function : FunctionEntry) (g : OperationEntry → OperationEntry)
    (x : OperationEntry) (h : x ∈ (modifyActive function g).operations) :
    x ∈ function.operations ∨ ∃ y ∈ function.operations, x = g y := by
  unfold modifyActive at h
  split at h
  · exact modifyLast_mem g _ x h
  · cases hops : function.operations with
    | nil => simp [hops] at h
    | cons a l =>
      simp only [hops, List.modifyHead, List.mem_cons] at h
      rcases h with rfl | h
      · exact Or.inr ⟨a, by simp, rfl⟩
      · exact Or.inl (List.mem_cons_of_mem _ h)

theorem replaceOperation_mem (id : Nat) (g : OperationEntry → Option OperationEntry)
    (operations : List OperationEntry) (x : OperationEntry)
    (h : x ∈ replaceOperation id g operations) :
    x ∈ operations ∨
      ∃ y, operations.find? (fun o => o.id == id) = some y ∧ g y = some x := by
  induction operations with
  | nil => simp [replaceOperation] at h
  | cons a l ih =>
    unfold replaceOperation at h
    by_cases ha : a.id = id
    · rw [if_pos ha] at h
      cases hg : g a with
      | none =>
        simp only [hg] at h
        exact Or.inl (List.mem_cons_of_mem _ h)
      | some c =>
        simp only [hg, List.mem_cons] at h
        rcases h with rfl | h
        · exact Or.inr ⟨a, by simp [List.find?, ha], hg⟩
        · exact Or.inl (List.mem_cons_of_mem _ h)
    · rw [if_neg ha] at h
      rcases List.mem_cons.1 h with rfl | h
      · simp
      · rcases ih h with h | ⟨y, hy, hgy⟩
        · exact Or.inl (List.mem_cons_of_mem _ h)
        · refine Or.inr ⟨y, ?_, hgy⟩
          have hb : (a.id == id) = false := by simpa using ha
          simp [List.find?, hb, hy]


/-! ## Monitor slots -/

theorem operation_sameButMonitor_refl (o : OperationEntry) : o.sameButMonitor o := by
  cases o; rfl

theorem operation_sameButMonitor_set (o : OperationEntry) (m : Option Nat) :
    o.sameButMonitor { o with monitor := m } := by
  cases o; rfl

theorem forall₂_sameButMonitor_refl (l : List OperationEntry) :
    List.Forall₂ OperationEntry.sameButMonitor l l := by
  induction l with
  | nil => exact List.Forall₂.nil
  | cons a l ih => exact List.Forall₂.cons (operation_sameButMonitor_refl a) ih

theorem forall₂_modifyLast (m : Option Nat) (l : List OperationEntry) :
    List.Forall₂ OperationEntry.sameButMonitor l
      (modifyLast (fun o => { o with monitor := m }) l) := by
  induction l using modifyLast.induct (fun o : OperationEntry => { o with monitor := m }) with
  | case1 => exact List.Forall₂.nil
  | case2 a =>
    exact List.Forall₂.cons (operation_sameButMonitor_set a m) List.Forall₂.nil
  | case3 a b l ih =>
    simp only [modifyLast]
    exact List.Forall₂.cons (operation_sameButMonitor_refl a) ih

theorem function_sameButMonitor_refl (f : FunctionEntry) : f.sameButMonitor f :=
  ⟨rfl, rfl, forall₂_sameButMonitor_refl _⟩

theorem sameButMonitors_refl (q : List FunctionEntry) : SameButMonitors q q := by
  induction q with
  | nil => exact List.Forall₂.nil
  | cons a l ih => exact List.Forall₂.cons (function_sameButMonitor_refl a) ih

theorem modifyActive_sameButMonitor (f : FunctionEntry) (m : Option Nat) :
    f.sameButMonitor (modifyActive f (fun o => { o with monitor := m })) := by
  unfold modifyActive
  split
  · exact ⟨rfl, rfl, forall₂_modifyLast m _⟩
  · refine ⟨rfl, rfl, ?_⟩
    cases hops : f.operations with
    | nil => exact List.Forall₂.nil
    | cons a l =>
      exact List.Forall₂.cons (operation_sameButMonitor_set a m) (forall₂_sameButMonitor_refl _)

theorem addFunctionMonitor_sameButMonitor (f : FunctionEntry) (count : Nat) :
    f.sameButMonitor (addFunctionMonitor f count).1 := by
  unfold addFunctionMonitor
  split
  · exact function_sameButMonitor_refl f
  · split
    · split
      · exact modifyActive_sameButMonitor f _
      · exact modifyActive_sameButMonitor f _
    · exact modifyActive_sameButMonitor f _

/-- The function queue that `processAddFunctionMonitor` leaves behind. -/
theorem processAddFunctionMonitor_sameButMonitors (q : List FunctionEntry) (count : Nat) :
    SameButMonitors q
      ((processAddFunctionMonitor q count).1 ++
        (match (processAddFunctionMonitor q count).2.1 with
         | some (f, rest) => f :: rest
         | none => [])) := by
  induction q generalizing count with
  | nil => exact List.Forall₂.nil
  | cons f rest ih =>
    have hf := addFunctionMonitor_sameButMonitor f count
    unfold processAddFunctionMonitor
    rcases hadd : addFunctionMonitor f count with ⟨changed, count1, stop⟩
    rw [hadd] at hf
    cases stop with
    | true =>
      simp only [List.nil_append]
      exact List.Forall₂.cons hf (sameButMonitors_refl rest)
    | false =>
      simp only
      have := ih count1
      rcases hp : processAddFunctionMonitor rest count1 with ⟨visited, found, count2⟩
      rw [hp] at this
      simp only [List.cons_append]
      exact List.Forall₂.cons hf this


/-! ## Selection and dispatch -/

theorem modifyLast_length {α : Type} (g : α → α) (l : List α) :
    (modifyLast g l).length = l.length := by
  induction l using modifyLast.induct g with
  | case1 => rfl
  | case2 a => rfl
  | case3 a b l ih => simp only [modifyLast, List.length_cons, ih]

theorem getLast?_modifyLast {α : Type} (g : α → α) (l : List α) :
    (modifyLast g l).getLast? = l.getLast?.map g := by
  induction l using modifyLast.induct g with
  | case1 => rfl
  | case2 a => rfl
  | case3 a b l ih =>
    simp only [modifyLast]
    cases hm : modifyLast g (b :: l) with
    | nil =>
      have := modifyLast_length g (b :: l)
      rw [hm] at this
      simp at this
    | cons c l' =>
      rw [List.getLast?_cons_cons, List.getLast?_cons_cons, ← hm, ih]

theorem getActiveOperationElement_modifyActive (f : FunctionEntry)
    (g : OperationEntry → OperationEntry) :
    getActiveOperationElement (modifyActive f g) = (getActiveOperationElement f).map g := by
  unfold getActiveOperationElement modifyActive
  by_cases h : f.methods.invokeCallback = .invokeMonitorCallback
  · simp only [h, if_true]
    exact getLast?_modifyLast g _
  · simp only [h, if_false]
    cases f.operations <;> rfl

/-- What `addFunctionMonitor` leaves: when it stops the walk the active
operation is idle, and when it does not an active operation that was given a
monitor slot is idle. -/
theorem addFunctionMonitor_idle (f : FunctionEntry) (count : Nat) :
    ∀ o, getActiveOperationElement (addFunctionMonitor f count).1 = some o →
      ((addFunctionMonitor f count).2.2 = true ∨ o.monitor ≠ none) → o.active = false := by
  intro o ho hc
  unfold addFunctionMonitor at ho hc
  cases hact : getActiveOperationElement f with
  | none =>
    simp only [hact] at ho hc
    simp at ho
  | some a =>
    simp only [hact] at ho hc
    cases ha : a.active <;> cases hfin : a.finished <;>
      simp only [ha, hfin, Bool.not_true, Bool.not_false, Bool.false_eq_true, if_true,
        if_false, getActiveOperationElement_modifyActive, hact, Option.map_some',
        Option.some.injEq] at ho hc <;>
      subst ho <;> simp_all

theorem processAddFunctionMonitor_idle (q : List FunctionEntry) (count : Nat) :
    (∀ f ∈ (processAddFunctionMonitor q count).1, ∀ o,
      getActiveOperationElement f = some o → o.monitor ≠ none → o.active = false) ∧
    (∀ f rest, (processAddFunctionMonitor q count).2.1 = some (f, rest) → ∀ o,
      getActiveOperationElement f = some o → o.active = false) := by
  induction q generalizing count with
  | nil => simp [processAddFunctionMonitor]
  | cons f rest ih =>
    have hf := addFunctionMonitor_idle f count
    unfold processAddFunctionMonitor
    rcases hadd : addFunctionMonitor f count with ⟨changed, count1, stop⟩
    rw [hadd] at hf
    cases stop with
    | true =>
      simp only
      refine ⟨by simp, ?_⟩
      intro g rest' hg o ho
      simp only [Option.some.injEq, Prod.mk.injEq] at hg
      obtain ⟨rfl, rfl⟩ := hg
      exact hf o ho (Or.inl rfl)
    | false =>
      simp only
      have := ih count1
      rcases hp : processAddFunctionMonitor rest count1 with ⟨visited, found, count2⟩
      rw [hp] at this
      simp only at this ⊢
      refine ⟨?_, this.2⟩
      intro g hg o ho hm
      rcases List.mem_cons.1 hg with rfl | hg
      · exact hf o ho (Or.inr hm)
      · exact this.1 g hg o ho hm

/-- The entry at which the walk of `processAddFunctionMonitor` stops has an
active operation. -/
theorem processAddFunctionMonitor_found (l : List FunctionEntry) (c : Nat)
    (v : List FunctionEntry) (g : FunctionEntry) (r : List FunctionEntry) (c' : Nat)
    (h : processAddFunctionMonitor l c = (v, some (g, r), c')) :
    getActiveOperationElement g ≠ none := by
  induction l generalizing c v with
  | nil => simp [processAddFunctionMonitor] at h
  | cons x l ihl =>
    unfold processAddFunctionMonitor at h
    rcases hadd : addFunctionMonitor x c with ⟨changed, count1, stop⟩
    rw [hadd] at h
    cases stop with
    | true =>
      simp only [Prod.mk.injEq, Option.some.injEq] at h
      obtain ⟨_, ⟨rfl, _⟩, _⟩ := h
      unfold addFunctionMonitor at hadd
      cases hx : getActiveOperationElement x with
      | none => simp [hx] at hadd
      | some y =>
        simp only [hx] at hadd
        split at hadd
        · split at hadd
          · simp only [Prod.mk.injEq] at hadd
            rw [← hadd.1, getActiveOperationElement_modifyActive, hx]
            simp
          · simp at hadd
        · simp at hadd
    | false =>
      simp only at h
      rcases hp2 : processAddFunctionMonitor l count1 with ⟨v2, f2, c2⟩
      rw [hp2] at h
      simp only [Prod.mk.injEq] at h
      obtain ⟨_, rfl, rfl⟩ := h
      exact ihl count1 v2 hp2

theorem testFunctionMonitor_monitor {ready : Nat → Bool} {f : FunctionEntry}
    (h : testFunctionMonitor ready f = true) :
    ∃ o, getActiveOperationElement f = some o ∧ o.monitor ≠ none := by
  unfold testFunctionMonitor at h
  cases hact : getActiveOperationElement f with
  | none => simp [hact] at h
  | some o =>
    refine ⟨o, rfl, ?_⟩
    intro hm
    simp [hact, hm] at h

/-- The function queue and the selection that `selectFunction` produces. -/
theorem selectFunction_spec (q : List FunctionEntry) (poll : PollResult) :
    SameButMonitors q (selectFunction q poll).1 ∧
    ∀ b f a, (selectFunction q poll).2 = some (b, f, a) →
      (selectFunction q poll).1 = b ++ f :: a ∧
      ∃ o, getActiveOperationElement f = some o ∧ o.active = false := by
  have hs := processAddFunctionMonitor_sameButMonitors q 0
  have hi := processAddFunctionMonitor_idle q 0
  unfold selectFunction
  by_cases hlen : q.length = 0
  · simp only [hlen, if_true]
    exact ⟨sameButMonitors_refl q, by simp⟩
  · simp only [hlen, if_false]
    rcases hp : processAddFunctionMonitor q 0 with ⟨visited, found, count⟩
    rw [hp] at hs hi
    cases found with
    | some fr =>
      obtain ⟨f, rest⟩ := fr
      simp only at hs ⊢
      refine ⟨hs, ?_⟩
      intro b g a hsel
      simp only [Option.some.injEq, Prod.mk.injEq] at hsel
      obtain ⟨hb, hg, ha⟩ := hsel
      subst hb hg ha
      refine ⟨rfl, ?_⟩
      cases hact : getActiveOperationElement f with
      | none =>
        exfalso
        exact processAddFunctionMonitor_found q 0 visited f rest count hp hact
      | some o => exact ⟨o, rfl, hi.2 f rest rfl o hact⟩
    | none =>
      simp only [List.append_nil] at hs
      by_cases hc : count = 0
      · simp only [hc, if_true]
        exact ⟨hs, by simp⟩
      · simp only [hc, if_false]
        by_cases hr : 0 < poll.result
        · simp only [hr, if_true]
          refine ⟨hs, ?_⟩
          intro b f a hsel
          obtain ⟨h1, h2, _⟩ := locate_some hsel
          refine ⟨h1, ?_⟩
          obtain ⟨o, ho, hm⟩ := testFunctionMonitor_monitor h2
          refine ⟨o, ho, hi.1 f ?_ o ho hm⟩
          rw [h1]; simp
        · simp only [hr, if_false]
          exact ⟨hs, by simp⟩

/-- What `dispatch` does: monitor slots are assigned, and an idle active
operation, if one is selected, is finished and made active. -/
theorem dispatch_spec (q : List FunctionEntry) (poll : PollResult) (sys : Nat → SysResult) :
    ∃ q1, SameButMonitors q q1 ∧
      (((dispatch q poll sys).2 = none ∧ (dispatch q poll sys).1 = q1) ∨
       ∃ b f a o, q1 = b ++ f :: a ∧ getActiveOperationElement f = some o ∧
         o.active = false ∧ (dispatch q poll sys).2 = some o.id ∧
         (dispatch q poll sys).1 =
           b ++ modifyActive f (beforeCallback f.methods sys) :: a) := by
  obtain ⟨hs, hsel⟩ := selectFunction_spec q poll
  refine ⟨(selectFunction q poll).1, hs, ?_⟩
  unfold dispatch
  rcases hp : selectFunction q poll with ⟨q1, sel⟩
  rw [hp] at hsel
  cases sel with
  | none => exact Or.inl ⟨rfl, rfl⟩
  | some r =>
    obtain ⟨b, f, a⟩ := r
    obtain ⟨h1, o, ho, hact⟩ := hsel b f a rfl
    simp only at h1
    simp only [ho]
    exact Or.inr ⟨b, f, a, o, h1, ho, hact, rfl, rfl⟩


/-! ## Completion, cancellation and creation -/

theorem modifyLast_self {α : Type} (l : List α) : modifyLast (fun x => x) l = l := by
  induction l using modifyLast.induct (fun x : α => x) with
  | case1 => rfl
  | case2 a => rfl
  | case3 a b l ih => simp only [modifyLast, ih]

/-- Restarting the active operation changes nothing, as the Unix back end has
no `startOperation` method. -/
theorem modifyActive_restart (f : FunctionEntry) (m : FunctionMethods) :
    modifyActive f (fun o => if !o.finished then startOperation m o else o) = f := by
  have hfun : (fun o : OperationEntry => if !o.finished then startOperation m o else o) =
      fun o => o := by
    funext o
    simp [startOperation]
  rw [hfun]
  unfold modifyActive
  split
  · rw [modifyLast_self]
  · cases hops : f.operations with
    | nil => cases f; simp_all [List.modifyHead]
    | cons a l => cases f; simp_all [List.modifyHead]

theorem getActiveOperationElement_eq_none (f : FunctionEntry) :
    getActiveOperationElement f = none ↔ f.operations = [] := by
  unfold getActiveOperationElement
  split
  · exact List.getLast?_eq_none_iff
  · cases f.operations <;> simp

/-- The function queue that the second part of `asyncHandleOperation` leaves. -/
theorem complete_eq (q : List FunctionEntry) (id answer : Nat) :
    complete q id answer =
      match locate (fun function => function.owns id) q with
      | none => q
      | some (b, f, a) =>
        if replaceOperation id (afterCallback f.methods answer) f.operations = [] then b ++ a
        else b ++ a ++
          [{ f with
             operations :=
               replaceOperation id (afterCallback f.methods answer) f.operations }] := by
  unfold complete
  cases hl : locate (fun function => function.owns id) q with
  | none => rfl
  | some r =>
    obtain ⟨b, f, a⟩ := r
    simp only
    cases hact : getActiveOperationElement
        { f with
          operations := replaceOperation id (afterCallback f.methods answer) f.operations } with
    | none =>
      rw [getActiveOperationElement_eq_none] at hact
      simp only at hact
      simp [hact]
    | some o =>
      have hne : replaceOperation id (afterCallback f.methods answer) f.operations ≠ [] := by
        intro h
        have := (getActiveOperationElement_eq_none
          { f with
            operations :=
              replaceOperation id (afterCallback f.methods answer) f.operations }).2 h
        rw [this] at hact
        simp at hact
      simp only [modifyActive_restart, if_neg hne]

/-- The function queue that `cancelOperation` leaves. -/
theorem cancelOperation_eq (q : List FunctionEntry) (id : Nat) :
    cancelOperation q id =
      match locate (fun function => function.owns id) q with
      | none => q
      | some (b, f, a) =>
        match f.operation id with
        | none => q
        | some o =>
          if o.active then
            b ++ { f with
                   operations :=
                     replaceOperation id (fun o => some { o with cancel := true })
                       f.operations } :: a
          else if f.operations.length = 1 then b ++ a
          else
            b ++ { f with
                   operations := replaceOperation id (fun _ => none) f.operations } :: a := by
  unfold cancelOperation
  cases hl : locate (fun function => function.owns id) q with
  | none => rfl
  | some r =>
    obtain ⟨b, f, a⟩ := r
    simp only
    cases ho : f.operation id with
    | none => rfl
    | some o =>
      simp only [modifyActive_restart]
      split
      · rfl
      · split
        · rfl
        · split <;> rfl


/-! ## The length invariant of transfer extensions -/

theorem wrap_add_of_le {length size : Nat} {count : Int} (h0 : 0 ≤ count)
    (hc : count ≤ wrap (size - length)) (hl : length ≤ size) (hs : size < sizeModulus) :
    wrap (length + count) ≤ size := by
  unfold wrap sizeModulus at *
  omega

theorem wrap_sub_of_le {length count : Nat} (hc : count ≤ length)
    (hs : length < sizeModulus) : wrap (length - count) = length - count := by
  unfold wrap sizeModulus at *
  omega

theorem lengthInRange_of_extension_eq {o o' : OperationEntry}
    (h : o'.extension = o.extension) (ho : o.lengthInRange) : o'.lengthInRange := by
  intro e he
  exact ho e (h ▸ he)

theorem lengthInRange_of_sameButMonitor {o o' : OperationEntry}
    (h : o.sameButMonitor o') (ho : o.lengthInRange) : o'.lengthInRange := by
  refine lengthInRange_of_extension_eq ?_ ho
  unfold OperationEntry.sameButMonitor at h
  rw [h]

theorem setUnixTransferResult_lengthInRange (o : OperationEntry) (count errno : Int)
    (h1 : -1 ≤ count)
    (h2 : ∀ e, o.extension = .transfer e → count ≤ wrap (e.size - e.length))
    (ho : o.lengthInRange) : (setUnixTransferResult o count errno).lengthInRange := by
  unfold setUnixTransferResult
  cases hext : o.extension with
  | monitor m => simpa [hext] using ho
  | transfer e =>
    obtain ⟨hl, hs⟩ := ho e hext
    have hc := h2 e hext
    simp only
    split
    · exact lengthInRange_of_extension_eq (by simp [hext]) (fun e' he' => ho e' he')
    · split
      · intro e' he'
        simp only [Extension.transfer.injEq] at he'
        subst he'
        exact ⟨hl, hs⟩
      · intro e' he'
        simp only [Extension.transfer.injEq] at he'
        subst he'
        refine ⟨?_, hs⟩
        simp only
        exact wrap_add_of_le (by omega) hc hl hs

theorem finishOperation_lengthInRange (m : FunctionMethods) (o : OperationEntry)
    (sys : Nat → SysResult) (hsys : SysBounded sys) (ho : o.lengthInRange) :
    (finishOperation m o sys).lengthInRange := by
  unfold finishOperation
  split
  · unfold finishUnixRead
    cases hext : o.extension with
    | monitor _ => simpa using ho
    | transfer e =>
      simp only
      apply setUnixTransferResult_lengthInRange
      · exact (hsys _).1
      · intro e' he'
        simp only [Extension.transfer.injEq] at he'
        subst he'
        exact (hsys _).2
      · intro e' he'
        simp only [Extension.transfer.injEq] at he'
        subst he'
        exact ho e hext
  · unfold finishUnixWrite
    cases hext : o.extension with
    | monitor _ => simpa using ho
    | transfer e =>
      simp only
      apply setUnixTransferResult_lengthInRange
      · exact (hsys _).1
      · intro e' he'
        rw [hext] at he'
        simp only [Extension.transfer.injEq] at he'
        subst he'
        exact (hsys _).2
      · exact ho
  · exact ho

theorem beforeCallback_lengthInRange (m : FunctionMethods) (o : OperationEntry)
    (sys : Nat → SysResult) (hsys : SysBounded sys) (ho : o.lengthInRange) :
    (beforeCallback m sys o).lengthInRange := by
  unfold beforeCallback
  split
  · exact lengthInRange_of_extension_eq rfl (finishOperation_lengthInRange m o sys hsys ho)
  · exact lengthInRange_of_extension_eq rfl ho

/-- The call that `invokeInputCallback` makes: the callback is given the
buffer and the length of the extension. -/
theorem userCallback_input (m : FunctionMethods) (o : OperationEntry)
    (e : TransferExtension) (hm : m.invokeCallback = .invokeInputCallback)
    (hext : o.extension = .transfer e) :
    userCallback m o =
      if e.callback then
        some (.input
          { data := o.data, buffer := e.buffer, size := e.size, length := e.length,
            error := o.error, end_ := e.end_ })
      else none := by
  unfold userCallback invokeCallback
  simp only [hm]
  unfold invokeInputCallback
  simp only [hext]
  split_ifs <;> simp_all

theorem invokeCallback_lengthInRange (m : FunctionMethods) (answer : Nat)
    (o : OperationEntry) (ho : o.lengthInRange)
    (hans : ∀ p, userCallback m o = some (.input p) → answer ≤ p.length) :
    (invokeCallback m o answer).1.lengthInRange := by
  unfold invokeCallback
  cases hm : m.invokeCallback with
  | invokeMonitorCallback =>
    simp only
    unfold invokeMonitorCallback
    split
    · split
      · split <;> exact ho
      · exact ho
    · exact ho
  | invokeOutputCallback =>
    simp only
    unfold invokeOutputCallback
    split
    · split
      · exact lengthInRange_of_extension_eq rfl ho
      · split <;> exact ho
    · exact ho
  | invokeInputCallback =>
    simp only
    cases hext : o.extension with
    | monitor _ =>
      unfold invokeInputCallback
      simpa [hext] using ho
    | transfer e =>
      obtain ⟨hl, hs⟩ := ho e hext
      have hu := userCallback_input m o e hm hext
      unfold invokeInputCallback
      simp only [hext]
      split_ifs with hcb herr hend hcount
      · exact ho
      · exact ho
      · exact ho
      · have hcb' : e.callback = true := by simpa using hcb
        rw [if_pos hcb'] at hu
        have hle : answer ≤ e.length := hans _ hu
        intro e' he'
        simp only [Extension.transfer.injEq] at he'
        subst he'
        simp only
        rw [wrap_sub_of_le hle (by omega)]
        exact ⟨by omega, hs⟩
      · exact lengthInRange_of_extension_eq hext.symm ho

theorem afterCallback_lengthInRange (m : FunctionMethods) (answer : Nat)
    (o o' : OperationEntry) (ho : o.lengthInRange)
    (hans : ∀ p, userCallback m o = some (.input p) → answer ≤ p.length)
    (h : afterCallback m answer o = some o') : o'.lengthInRange := by
  have hi := invokeCallback_lengthInRange m answer o ho hans
  unfold afterCallback at h
  rcases hinv : invokeCallback m o answer with ⟨changed, verdict, called⟩
  rw [hinv] at h hi
  simp only at h hi
  split_ifs at h <;>
  · simp only [Option.some.injEq] at h
    subst h
    exact lengthInRange_of_extension_eq rfl hi


/-! ## Properties of every queued operation -/

theorem everyOperation_append (P : OperationEntry → Prop) (q1 q2 : List FunctionEntry) :
    EveryOperation P (q1 ++ q2) ↔ EveryOperation P q1 ∧ EveryOperation P q2 := by
  unfold EveryOperation
  constructor
  · intro h
    exact ⟨fun f hf => h f (List.mem_append_left _ hf),
      fun f hf => h f (List.mem_append_right _ hf)⟩
  · rintro ⟨h1, h2⟩ f hf
    rcases List.mem_append.1 hf with hf | hf
    · exact h1 f hf
    · exact h2 f hf

theorem everyOperation_cons (P : OperationEntry → Prop) (f : FunctionEntry)
    (q : List FunctionEntry) :
    EveryOperation P (f :: q) ↔ (∀ o ∈ f.operations, P o) ∧ EveryOperation P q := by
  unfold EveryOperation
  constructor
  · intro h
    exact ⟨h f (List.mem_cons_self _ _), fun g hg => h g (List.mem_cons_of_mem _ hg)⟩
  · rintro ⟨h1, h2⟩ g hg
    rcases List.mem_cons.1 hg with rfl | hg
    · exact h1
    · exact h2 g hg

theorem everyOperation_nil (P : OperationEntry → Prop) : EveryOperation P [] := by
  intro f hf
  simp at hf

theorem forall₂_sameButMonitor_every (P : OperationEntry → Prop)
    (hP : ∀ o o', o.sameButMonitor o' → P o → P o') {l l' : List OperationEntry}
    (h : List.Forall₂ OperationEntry.sameButMonitor l l') (hl : ∀ o ∈ l, P o) :
    ∀ o ∈ l', P o := by
  induction h with
  | nil => simp
  | cons hab _ ih =>
    intro o ho
    rcases List.mem_cons.1 ho with rfl | ho
    · exact hP _ _ hab (hl _ (List.mem_cons_self _ _))
    · exact ih (fun x hx => hl x (List.mem_cons_of_mem _ hx)) o ho

theorem everyOperation_sameButMonitors (P : OperationEntry → Prop)
    (hP : ∀ o o', o.sameButMonitor o' → P o → P o') {q q' : List FunctionEntry}
    (h : SameButMonitors q q') (hq : EveryOperation P q) : EveryOperation P q' := by
  induction h with
  | nil => exact everyOperation_nil P
  | cons hab _ ih =>
    rw [everyOperation_cons] at hq ⊢
    exact ⟨forall₂_sameButMonitor_every P hP hab.2.2 hq.1, ih hq.2⟩

theorem everyOperation_dispatch (P : OperationEntry → Prop)
    (hP : ∀ o o', o.sameButMonitor o' → P o → P o') (q : List FunctionEntry)
    (poll : PollResult) (sys : Nat → SysResult)
    (hB : ∀ m o, P o → P (beforeCallback m sys o)) (hq : EveryOperation P q) :
    EveryOperation P (dispatch q poll sys).1 := by
  obtain ⟨q1, hs, h⟩ := dispatch_spec q poll sys
  have hq1 := everyOperation_sameButMonitors P hP hs hq
  rcases h with ⟨_, h⟩ | ⟨b, f, a, o, h1, _, _, _, h⟩
  · rw [h]; exact hq1
  · rw [h]
    rw [h1, everyOperation_append, everyOperation_cons] at hq1
    rw [everyOperation_append, everyOperation_cons]
    refine ⟨hq1.1, ?_, hq1.2.2⟩
    intro x hx
    rcases modifyActive_mem f _ x hx with hx | ⟨y, hy, rfl⟩
    · exact hq1.2.1 x hx
    · exact hB _ y (hq1.2.1 y hy)

theorem everyOperation_complete (P : OperationEntry → Prop) (q : List FunctionEntry)
    (id answer : Nat) (hq : EveryOperation P q)
    (hA : ∀ b f a o o', locate (fun function => function.owns id) q = some (b, f, a) →
      f.operation id = some o → P o → afterCallback f.methods answer o = some o' → P o') :
    EveryOperation P (complete q id answer) := by
  rw [complete_eq]
  cases hl : locate (fun function => function.owns id) q with
  | none => exact hq
  | some r =>
    obtain ⟨b, f, a⟩ := r
    obtain ⟨h1, _, _⟩ := locate_some hl
    rw [h1, everyOperation_append, everyOperation_cons] at hq
    simp only
    split_ifs
    · rw [everyOperation_append]
      exact ⟨hq.1, hq.2.2⟩
    · rw [everyOperation_append, everyOperation_append, everyOperation_cons]
      refine ⟨⟨hq.1, hq.2.2⟩, ?_, everyOperation_nil P⟩
      intro x hx
      rcases replaceOperation_mem id _ _ x hx with hx | ⟨y, hy, hg⟩
      · exact hq.2.1 x hx
      · exact hA b f a y x hl hy (hq.2.1 y (List.mem_of_find?_eq_some hy)) hg

theorem everyOperation_cancelOperation (P : OperationEntry → Prop) (q : List FunctionEntry)
    (id : Nat) (hq : EveryOperation P q) (hC : ∀ o, P o → P { o with cancel := true }) :
    EveryOperation P (cancelOperation q id) := by
  rw [cancelOperation_eq]
  cases hl : locate (fun function => function.owns id) q with
  | none => exact hq
  | some r =>
    obtain ⟨b, f, a⟩ := r
    obtain ⟨h1, _, _⟩ := locate_some hl
    have hq' := hq
    rw [h1, everyOperation_append, everyOperation_cons] at hq'
    simp only
    cases ho : f.operation id with
    | none => exact hq
    | some o =>
      simp only
      split_ifs
      · rw [everyOperation_append, everyOperation_cons]
        refine ⟨hq'.1, ?_, hq'.2.2⟩
        intro x hx
        rcases replaceOperation_mem id _ _ x hx with hx | ⟨y, hy, hg⟩
        · exact hq'.2.1 x hx
        · simp only [Option.some.injEq] at hg
          subst hg
          exact hC y (hq'.2.1 y (List.mem_of_find?_eq_some hy))
      · rw [everyOperation_append]
        exact ⟨hq'.1, hq'.2.2⟩
      · rw [everyOperation_append, everyOperation_cons]
        refine ⟨hq'.1, ?_, hq'.2.2⟩
        intro x hx
        rcases replaceOperation_mem id _ _ x hx with hx | ⟨y, hy, hg⟩
        · exact hq'.2.1 x hx
        · simp at hg

theorem getFunctionElement_some {q : List FunctionEntry} {fd : Int} {m : FunctionMethods}
    {allocated : Bool} {b a : List FunctionEntry} {f : FunctionEntry}
    (h : getFunctionElement q fd m allocated = some (b, f, a)) :
    (q = b ++ f :: a ∧ testFunctionEntry fd m f = true) ∨
    (locate (testFunctionEntry fd m) q = none ∧ b = q ∧ a = [] ∧
      f = { fileDescriptor := fd, methods := m, operations := [] }) := by
  unfold getFunctionElement at h
  cases hl : locate (testFunctionEntry fd m) q with
  | some r =>
    simp only [hl, Option.some.injEq] at h
    subst h
    obtain ⟨h1, h2, _⟩ := locate_some hl
    exact Or.inl ⟨h1, h2⟩
  | none =>
    simp only [hl] at h
    split_ifs at h
    simp only [Option.some.injEq, Prod.mk.injEq] at h
    obtain ⟨rfl, rfl, rfl⟩ := h
    exact Or.inr ⟨rfl, rfl, rfl, rfl⟩

/-- The function queue that `newOperation` leaves. -/
theorem newOperation_functionQueue (r : Reactor) (fd : Int) (m : FunctionMethods)
    (extension : Extension) (data : Nat) (allocation : Allocation) :
    (newOperation r fd m extension data allocation).1.functionQueue =
      if allocation.operation then
        match getFunctionElement r.functionQueue fd m allocation.function with
        | none => r.functionQueue
        | some (b, f, a) =>
          if allocation.element then
            b ++ { f with
                   operations :=
                     f.operations ++
                       [{ id := r.next, extension := extension, data := data,
                          monitor := none, error := 0, active := false, cancel := false,
                          finished := false }] } :: a
          else if f.operations.length = 0 then b ++ a
          else b ++ f :: a
      else r.functionQueue := by
  unfold newOperation
  cases hop : allocation.operation with
  | false => simp
  | true =>
    simp only [Bool.not_true, Bool.false_eq_true, if_false, if_true]
    cases hg : getFunctionElement r.functionQueue fd m allocation.function with
    | none => rfl
    | some x =>
      obtain ⟨b, f, a⟩ := x
      simp only
      cases hel : allocation.element with
      | true => simp [startOperation]
      | false =>
        simp only [Bool.false_eq_true, if_false]
        by_cases hlen : f.operations.length = 0
        · simp [hlen]
        · simp [hlen]

theorem everyOperation_newOperation (P : OperationEntry → Prop) (r : Reactor) (fd : Int)
    (m : FunctionMethods) (extension : Extension) (data : Nat) (allocation : Allocation)
    (hq : EveryOperation P r.functionQueue)
    (hN : P { id := r.next, extension := extension, data := data, monitor := none,
              error := 0, active := false, cancel := false, finished := false }) :
    EveryOperation P (newOperation r fd m extension data allocation).1.functionQueue := by
  rw [newOperation_functionQueue]
  by_cases hop : allocation.operation = true
  · rw [if_pos hop]
    cases hg : getFunctionElement r.functionQueue fd m allocation.function with
    | none => exact hq
    | some x =>
      obtain ⟨b, f, a⟩ := x
      have hq' : EveryOperation P (b ++ f :: a) := by
        rcases getFunctionElement_some hg with ⟨h1, _⟩ | ⟨_, rfl, rfl, rfl⟩
        · rw [← h1]; exact hq
        · rw [everyOperation_append, everyOperation_cons]
          exact ⟨hq, by simp, everyOperation_nil P⟩
      rw [everyOperation_append, everyOperation_cons] at hq'
      simp only
      by_cases hel : allocation.element = true
      · rw [if_pos hel, everyOperation_append, everyOperation_cons]
        refine ⟨hq'.1, ?_, hq'.2.2⟩
        intro x hx
        rcases List.mem_append.1 hx with hx | hx
        · exact hq'.2.1 x hx
        · rw [List.mem_singleton] at hx
          subst hx
          exact hN
      · rw [if_neg hel]
        by_cases hlen : f.operations.length = 0
        · rw [if_pos hlen, everyOperation_append]
          exact ⟨hq'.1, hq'.2.2⟩
        · rw [if_neg hlen, everyOperation_append, everyOperation_cons]
          exact hq'
  · rw [if_neg hop]; exact hq


theorem readFrom_bounded (available : List Nat) : SysBounded (readFrom available) := by
  intro n
  simp only [readFrom, List.length_take]
  omega

theorem invocation_eq {q : List FunctionEntry} {id : Nat} {b a : List FunctionEntry}
    {f : FunctionEntry} {o : OperationEntry}
    (hl : locate (fun function => function.owns id) q = some (b, f, a))
    (ho : f.operation id = some o) : invocation q id = userCallback f.methods o := by
  unfold invocation
  simp only [hl, ho]

theorem lengthInvariant_newTransferOperation (r : Reactor) (fd : Int) (m : FunctionMethods)
    (callback : Bool) (size : Nat) (buffer : Option (List Nat)) (data : Nat)
    (extensionAllocated : Bool) (allocation : Allocation) (hsize : size < sizeModulus)
    (h : LengthInvariant r.functionQueue) :
    LengthInvariant
      (newTransferOperation r fd m callback size buffer data extensionAllocated
        allocation).1.functionQueue := by
  unfold newTransferOperation
  split_ifs
  · apply everyOperation_newOperation _ _ _ _ _ _ _ h
    intro e he
    simp only [Extension.transfer.injEq] at he
    subst he
    exact ⟨Nat.zero_le _, hsize⟩
  · exact h

theorem lengthInvariant_newFileMonitorOperation (r : Reactor) (fd : Int)
    (m : FunctionMethods) (callback : Bool) (data : Nat) (extensionAllocated : Bool)
    (allocation : Allocation) (h : LengthInvariant r.functionQueue) :
    LengthInvariant
      (newFileMonitorOperation r fd m callback data extensionAllocated
        allocation).1.functionQueue := by
  unfold newFileMonitorOperation
  split_ifs
  · apply everyOperation_newOperation _ _ _ _ _ _ _ h
    intro e he
    simp at he
  · exact h

theorem lengthInvariant_dispatch (q : List FunctionEntry) (poll : PollResult)
    (sys : Nat → SysResult) (hsys : SysBounded sys) (h : LengthInvariant q) :
    LengthInvariant (dispatch q poll sys).1 :=
  everyOperation_dispatch _ (fun _ _ => lengthInRange_of_sameButMonitor) q poll sys
    (fun m o => beforeCallback_lengthInRange m o sys hsys) h

theorem lengthInvariant_complete (q : List FunctionEntry) (id answer : Nat)
    (hans : ∀ p, invocation q id = some (.input p) → answer ≤ p.length)
    (h : LengthInvariant q) : LengthInvariant (complete q id answer) := by
  apply everyOperation_complete _ q id answer h
  intro b f a o o' hl ho hP hafter
  rw [invocation_eq hl ho] at hans
  exact afterCallback_lengthInRange f.methods answer o o' hP hans hafter

/-- One admissible request preserves the length invariant. -/
theorem lengthInvariant_step (r : Reactor) (request : Request) (hadm : Admissible r request)
    (h : LengthInvariant r.functionQueue) : LengthInvariant (step r request).functionQueue := by
  obtain ⟨htr, hret⟩ := hadm
  cases request with
  | asyncMonitorFileInput fd callback data ea al =>
    exact lengthInvariant_newFileMonitorOperation r fd _ callback data ea al h
  | asyncMonitorFileOutput fd callback data ea al =>
    exact lengthInvariant_newFileMonitorOperation r fd _ callback data ea al h
  | asyncMonitorFileAlert fd callback data ea al =>
    exact lengthInvariant_newFileMonitorOperation r fd _ callback data ea al h
  | asyncReadFile fd size callback data ea al =>
    exact lengthInvariant_newTransferOperation r fd _ callback size none data ea al htr h
  | asyncWriteFile fd buffer size callback data ea al =>
    exact lengthInvariant_newTransferOperation r fd _ callback size (some buffer) data ea al
      htr h
  | cancelOperation id =>
    exact everyOperation_cancelOperation _ _ id h
      (fun o ho => lengthInRange_of_extension_eq rfl ho)
  | handleBegin poll sys =>
    have hd := lengthInvariant_dispatch r.functionQueue poll sys htr h
    simp only [step, handleBegin]
    rcases hdis : dispatch r.functionQueue poll sys with ⟨q', sel⟩
    rw [hdis] at hd
    cases sel with
    | none => exact hd
    | some id =>
      simp only
      cases hinv : invocation q' id with
      | some c => exact hd
      | none =>
        simp only
        exact lengthInvariant_complete q' id 0 (fun _ _ => Nat.zero_le _) hd
  | handleEnd answer =>
    simp only [step, handleEnd]
    cases hfr : r.frames with
    | nil => exact h
    | cons id frames =>
      simp only
      simp only [hfr] at hret
      exact lengthInvariant_complete r.functionQueue id answer hret h

theorem lengthInvariant_run (r : Reactor) (requests : List Request)
    (hadm : AdmissibleRun r requests) (h : LengthInvariant r.functionQueue) :
    LengthInvariant (run r requests).functionQueue := by
  induction requests generalizing r with
  | nil => exact h
  | cons request rest ih =>
    exact ih (step r request) hadm.2 (lengthInvariant_step r request hadm.1 h)

/-- C1 (as amended): in every state reached from the initial reactor by
creating operations, cancelling them and handling them, where every `read` and
`write` transfers at most the `size - length` bytes it was asked for and every
input callback returns a count of at most the `length` it was given, every
queued transfer operation satisfies `length ≤ size`. -/
theorem length_le_size_of_admissible (requests : List Request)
    (hadm : AdmissibleRun initial requests) :
    ∀ function ∈ (run initial requests).functionQueue,
      ∀ operation ∈ function.operations, ∀ extension,
        operation.extension = .transfer extension → extension.length ≤ extension.size :=
  fun function hf operation ho extension he =>
    (lengthInvariant_run initial requests hadm (everyOperation_nil _) function hf operation ho
      extension he).1

theorem undercountRequests_state :
    run initial undercountRequests =
      { functionQueue :=
          [{ fileDescriptor := 3, methods := .transferInput,
             operations :=
               [{ id := 0,
                  extension := .transfer
                    { callback := true, end_ := false, size := 4, length := 1,
                      buffer := [66, 66, 0, 0] },
                  data := 0, monitor := some 0, error := 0, active := false, cancel := false,
                  finished := true }] }],
        frames := [], next := 1 } := by
  decide

theorem overcountRequests_state :
    run initial overcountRequests =
      { functionQueue :=
          [{ fileDescriptor := 3, methods := .transferInput,
             operations :=
               [{ id := 0,
                  extension := .transfer
                    { callback := true, end_ := false, size := 4,
                      length := 18446744073709551615, buffer := [0, 66, 0, 0] },
                  data := 0, monitor := some 0, error := 0, active := false, cancel := false,
                  finished := true }] }],
        frames := [], next := 1 } := by
  decide


theorem undercountRequests_admissible : AdmissibleRun initial undercountRequests := by
  have hsize : (4 : Nat) < sizeModulus := by decide
  refine ⟨⟨hsize, trivial⟩, ⟨readFrom_bounded _, trivial⟩, ⟨trivial, ?_⟩, trivial⟩
  have hfr : (step (step initial (.asyncReadFile 3 4 true 0 true allocated))
      (.handleBegin allReady (readFrom [65, 66]))).frames = [0] := by decide
  have hinv : invocation (step (step initial (.asyncReadFile 3 4 true 0 true allocated))
      (.handleBegin allReady (readFrom [65, 66]))).functionQueue 0 =
        some (.input { data := 0, buffer := [65, 66, 0, 0], size := 4, length := 2,
                       error := 0, end_ := false }) := by decide
  simp only [hfr]
  intro p hp
  rw [hinv] at hp
  simp only [Option.some.injEq, Invocation.input.injEq] at hp
  subst hp
  decide

/-- C1, an admissible run: the callback is given two bytes and returns 1. -/
theorem length_le_size_of_admissible_witness :
    AdmissibleRun initial undercountRequests ∧
    ∀ function ∈ (run initial undercountRequests).functionQueue,
      ∀ operation ∈ function.operations, ∀ extension,
        operation.extension = .transfer extension → extension.length ≤ extension.size :=
  ⟨undercountRequests_admissible,
    length_le_size_of_admissible undercountRequests undercountRequests_admissible⟩

/-- C1 as stated fails: an input operation of size 4 whose read delivered two
bytes and whose callback returned the count 3 is left queued with
`length = 2 ^ 64 - 1 > size`, although every transfer moved at most the bytes it
was asked for. -/
theorem length_exceeds_size_after_overcount :
    (∀ request ∈ overcountRequests, Transferring request) ∧
    ∃ function ∈ (run initial overcountRequests).functionQueue,
      ∃ operation ∈ function.operations, ∃ extension,
        operation.extension = .transfer extension ∧ extension.size < extension.length := by
  constructor
  · intro request hr
    simp only [overcountRequests, List.mem_cons, List.mem_singleton, List.not_mem_nil,
      or_false] at hr
    rcases hr with rfl | rfl | rfl
    · show (4 : Nat) < sizeModulus
      decide
    · exact readFrom_bounded _
    · trivial
  · rw [overcountRequests_state]
    exact ⟨_, List.mem_singleton.2 rfl, _, List.mem_singleton.2 rfl, _, rfl, by decide⟩


/-! ## Output completion and the value of `asyncHandleOperation` -/

theorem invokeOutputCallback_complete (operation : OperationEntry)
    (extension : TransferExtension) (h : operation.extension = .transfer extension)
    (hn : ¬ (operation.error = 0 ∧ extension.length < extension.size)) :
    invokeOutputCallback operation =
      (operation, false,
        if extension.callback then
          some (.output
            { data := operation.data, buffer := extension.buffer, size := extension.size,
              error := operation.error })
        else none) := by
  unfold invokeOutputCallback
  rw [h]
  simp only [if_neg hn]
  split <;> rfl

/-- C9: `invokeOutputCallback` re-arms an output operation (clears `finished`,
returns true, calls no user callback) while no error is recorded and
`length < size`.  Once an error is recorded or `length = size` it leaves the
operation as it is, calls the user callback (when the operation has one) once
with `(data, buffer, size, error)` and returns false, so that
`asyncHandleOperation` deletes the operation whatever the callback answers. -/
theorem invokeOutputCallback_rearms_or_completes (operation : OperationEntry)
    (extension : TransferExtension) (h : operation.extension = .transfer extension) :
    (operation.error = 0 ∧ extension.length < extension.size →
      invokeOutputCallback operation = ({ operation with finished := false }, true, none)) ∧
    (operation.error ≠ 0 ∨ extension.length = extension.size →
      invokeOutputCallback operation =
        (operation, false,
          if extension.callback then
            some (.output
              { data := operation.data, buffer := extension.buffer, size := extension.size,
                error := operation.error })
          else none) ∧
      ∀ answer, afterCallback .transferOutput answer operation = none) := by
  constructor
  · intro hc
    simp [invokeOutputCallback, h, hc]
  · intro hc
    have hn : ¬ (operation.error = 0 ∧ extension.length < extension.size) := by
      rintro ⟨h0, hl⟩
      rcases hc with hc | hc
      · exact hc h0
      · omega
    have hx := invokeOutputCallback_complete operation extension h hn
    refine ⟨hx, ?_⟩
    intro answer
    simp [afterCallback, invokeCallback, FunctionMethods.invokeCallback, hx]

/-- C9 at a fully written two-byte output operation. -/
theorem invokeOutputCallback_rearms_or_completes_witness :
    invokeOutputCallback
        { id := 0, extension := .transfer ⟨true, false, 2, 2, [7, 8]⟩, data := 5,
          monitor := none, error := 0, active := true, cancel := false,
          finished := true } =
      ({ id := 0, extension := .transfer ⟨true, false, 2, 2, [7, 8]⟩, data := 5,
          monitor := none, error := 0, active := true, cancel := false,
          finished := true }, false,
        some (.output { data := 5, buffer := [7, 8], size := 2, error := 0 })) :=
  ((invokeOutputCallback_rearms_or_completes
      { id := 0, extension := .transfer ⟨true, false, 2, 2, [7, 8]⟩, data := 5,
        monitor := none, error := 0, active := true, cancel := false, finished := true }
      ⟨true, false, 2, 2, [7, 8]⟩ rfl).2 (Or.inr rfl)).1

/-- C10: with no function entries `asyncHandleOperation` changes nothing,
invokes no callback and returns false.  Every call invokes the callback method
(`invokeCallback`) of at most one operation and returns true exactly when it
invoked one; a user callback is called only in a call that returns true. -/
theorem asyncHandleOperation_handled_iff_invoked (reactor : Reactor) (poll : PollResult)
    (sys : Nat → SysResult) (answer : Nat) :
    (reactor.functionQueue = [] →
      (asyncHandleOperation reactor poll sys answer).reactor = reactor ∧
      (asyncHandleOperation reactor poll sys answer).handled = false ∧
      (asyncHandleOperation reactor poll sys answer).invoked = [] ∧
      (asyncHandleOperation reactor poll sys answer).called = none) ∧
    (asyncHandleOperation reactor poll sys answer).invoked.length ≤ 1 ∧
    ((asyncHandleOperation reactor poll sys answer).handled = true ↔
      (asyncHandleOperation reactor poll sys answer).invoked ≠ []) ∧
    ((asyncHandleOperation reactor poll sys answer).called ≠ none →
      (asyncHandleOperation reactor poll sys answer).handled = true) := by
  refine ⟨?_, ?_, ?_, ?_⟩
  · intro h
    cases reactor
    simp_all [asyncHandleOperation, dispatch, selectFunction]
  · unfold asyncHandleOperation
    split <;> simp
  · unfold asyncHandleOperation
    split <;> simp
  · unfold asyncHandleOperation
    split <;> simp

/-! ## Conservation of the bytes of an input operation -/

theorem storeBytes_take (buffer bytes : List Nat) (offset : Nat)
    (h : offset ≤ buffer.length) :
    (storeBytes buffer offset bytes).take (offset + bytes.length) =
      buffer.take offset ++ bytes := by
  unfold storeBytes
  have h1 : (buffer.take offset ++ bytes).length = offset + bytes.length := by
    simp [List.length_take, Nat.min_eq_left h]
  rw [List.take_append_of_le_length (by omega), ← h1, List.take_length]

theorem storeBytes_length (buffer bytes : List Nat) (offset : Nat)
    (h : offset + bytes.length ≤ buffer.length) :
    (storeBytes buffer offset bytes).length = buffer.length := by
  unfold storeBytes
  simp only [List.length_append, List.length_take, List.length_drop]
  omega

theorem memmove_take (buffer : List Nat) (count length : Nat) (hc : count ≤ length)
    (hl : length ≤ buffer.length) :
    buffer.take count ++ (memmove buffer count (length - count)).take (length - count) =
      buffer.take length := by
  unfold memmove
  have h1 : ((buffer.drop count).take (length - count)).length = length - count := by
    simp only [List.length_take, List.length_drop]
    omega
  rw [List.take_append_of_le_length (by rw [h1]), List.take_take, Nat.min_self]
  have h2 : length = count + (length - count) := by omega
  conv_rhs => rw [h2, List.take_add]

theorem memmove_length (buffer : List Nat) (count n : Nat)
    (h : count + n ≤ buffer.length) : (memmove buffer count n).length = buffer.length := by
  unfold memmove
  simp only [List.length_append, List.length_take, List.length_drop]
  omega


theorem beforeCallback_input_finished (sys : Nat → SysResult) (o : OperationEntry)
    (hfin : o.finished = true) :
    beforeCallback .transferInput sys o = { o with active := true } := by
  simp [beforeCallback, hfin]

theorem beforeCallback_input_read (sys : Nat → SysResult) (o : OperationEntry)
    (e : TransferExtension) (hext : o.extension = .transfer e) (hfin : o.finished = false)
    (hpos : 0 < (sys (wrap (e.size - e.length))).result) :
    beforeCallback .transferInput sys o =
      { o with
        extension := .transfer
          { e with
            buffer := storeBytes e.buffer e.length (bytesRead o sys),
            length := wrap (e.length + (sys (wrap (e.size - e.length))).result) },
        finished := true, active := true } := by
  have h1 : (sys (wrap (e.size - e.length))).result ≠ -1 := by omega
  have h0 : (sys (wrap (e.size - e.length))).result ≠ 0 := by omega
  simp [beforeCallback, hfin, finishOperation, FunctionMethods.finishOperation, finishUnixRead,
    hext, setUnixTransferResult, h1, h0]

theorem afterCallback_input (o : OperationEntry) (e : TransferExtension) (count : Nat)
    (hext : o.extension = .transfer e) (hcb : e.callback = true) (hend : e.end_ = false)
    (herr : o.error = 0) (hcancel : o.cancel = false) :
    afterCallback .transferInput count o =
      some (if count ≠ 0 then
        { o with
          extension := .transfer
            { e with
              buffer := memmove e.buffer count (wrap (e.length - count)),
              length := wrap (e.length - count) },
          finished := decide (0 < wrap (e.length - count)), active := false, error := 0 }
      else { o with finished := false, active := false, error := 0 }) := by
  unfold afterCallback invokeCallback
  simp only [FunctionMethods.invokeCallback]
  unfold invokeInputCallback
  simp only [hext, hcb, hend, herr]
  by_cases hc : count = 0
  · simp [hc, hcancel]
  · simp [hc, hcancel]


theorem bytesRead_length (sys : Nat → SysResult) (o : OperationEntry)
    (e : TransferExtension) (hext : o.extension = .transfer e)
    (hpos : 0 < (sys (wrap (e.size - e.length))).result)
    (hdata : (sys (wrap (e.size - e.length))).result.toNat ≤
      (sys (wrap (e.size - e.length))).data.length) :
    (bytesRead o sys).length = (sys (wrap (e.size - e.length))).result.toNat := by
  unfold bytesRead
  simp only [hext, hpos, if_true, List.length_take]
  omega

/-- The callback of a served input operation consumes from the head of what
it is given, and what it leaves stays at the head of the buffer. -/
theorem conserving_callback (base consumed delivered : List Nat) (o : OperationEntry)
    (e : TransferExtension) (count : Nat)
    (hext : o.extension = .transfer e) (hcb : e.callback = true) (hend : e.end_ = false)
    (herr : o.error = 0) (hcancel : o.cancel = false) (hlen : e.length ≤ e.size)
    (hbuf : e.buffer.length = e.size) (hsize : e.size < sizeModulus)
    (hcount : count ≤ e.length)
    (heq : consumed ++ e.buffer.take e.length = base ++ delivered) :
    InputService.Conserving base
      { operation := afterCallback .transferInput count o,
        consumed := consumed ++
          (match userCallback .transferInput o with
           | some (.input parameters) => parameters.buffer.take count
           | _ => []),
        delivered := delivered } := by
  rw [afterCallback_input o e count hext hcb hend herr hcancel,
    userCallback_input .transferInput o e rfl hext, if_pos hcb]
  simp only
  by_cases hc : count = 0
  · subst hc
    rw [if_neg (by simp)]
    refine ⟨_, e, rfl, hext, hcb, hend, rfl, hcancel, hlen, hbuf, hsize, ?_⟩
    simpa using heq
  · rw [if_pos hc]
    have hw : wrap (e.length - count) = e.length - count :=
      wrap_sub_of_le hcount (by omega)
    refine ⟨_, _, rfl, rfl, hcb, hend, rfl, hcancel, ?_, ?_, hsize, ?_⟩
    · simp only [hw]; omega
    · simp only [hw]
      rw [memmove_length _ _ _ (by omega)]
      exact hbuf
    · simp only [hw]
      rw [List.append_assoc, memmove_take e.buffer count e.length hcount (by omega)]
      exact heq

/-- One clean round preserves the conservation of bytes. -/
theorem conserving_serveInput (base : List Nat) (service : InputService)
    (round : (Nat → SysResult) × Nat) (h : service.Conserving base)
    (hclean : ∀ o, service.operation = some o → CleanRound o round) :
    (serveInput service round).Conserving base := by
  obtain ⟨o, e, hop, hext, hcb, hend, herr, hcancel, hlen, hbuf, hsize, heq⟩ := h
  obtain ⟨hread, hcount⟩ := hclean o hop
  unfold serveInput handleOperation
  simp only [hop]
  cases hfin : o.finished with
  | true =>
    rw [beforeCallback_input_finished round.1 o hfin] at hcount ⊢
    simp only [if_true, List.append_nil]
    have hle : round.2 ≤ e.length := by
      have hu := userCallback_input .transferInput { o with active := true } e rfl hext
      rw [if_pos hcb] at hu
      exact hcount _ hu
    exact conserving_callback base service.consumed service.delivered _ e round.2
      hext hcb hend herr hcancel hlen hbuf hsize hle heq
  | false =>
    obtain ⟨hpos, hreq, hdata⟩ := hread hfin e hext
    have hbl := bytesRead_length round.1 o e hext hpos hdata
    have hws : wrap (e.size - e.length) = e.size - e.length :=
      wrap_sub_of_le hlen hsize
    rw [hws] at hpos hreq hdata hbl
    have hwl : wrap (e.length + (round.1 (e.size - e.length)).result) =
        e.length + (bytesRead o round.1).length := by
      rw [hbl]
      unfold wrap sizeModulus at *
      omega
    have hent := beforeCallback_input_read round.1 o e hext hfin (by rw [hws]; exact hpos)
    rw [hws, hwl] at hent
    rw [hent] at hcount ⊢
    simp only [Bool.false_eq_true, if_false]
    have hle : round.2 ≤ e.length + (bytesRead o round.1).length := by
      have hu := userCallback_input .transferInput _ _ rfl
        (show ({ o with
          extension := .transfer
            { e with
              buffer := storeBytes e.buffer e.length (bytesRead o round.1),
              length := e.length + (bytesRead o round.1).length },
          finished := true, active := true } : OperationEntry).extension = _ from rfl)
      rw [if_pos hcb] at hu
      exact hcount _ hu
    refine conserving_callback base service.consumed
      (service.delivered ++ bytesRead o round.1) _ _ round.2 rfl hcb hend herr
      hcancel ?_ ?_ hsize hle ?_
    · simp only [hbl]; omega
    · simp only
      rw [storeBytes_length _ _ _ (by rw [hbl]; omega)]
      exact hbuf
    · simp only
      rw [storeBytes_take _ _ _ (by omega), ← List.append_assoc, heq, List.append_assoc]

theorem conserving_serveInputs (base : List Nat) (service : InputService)
    (rounds : List ((Nat → SysResult) × Nat)) (h : service.Conserving base)
    (hclean : CleanRounds service rounds) : (serveInputs service rounds).Conserving base := by
  induction rounds generalizing service with
  | nil => exact h
  | cons round rest ih =>
    obtain ⟨o, e, hop, _⟩ := id h
    have hc := hclean.1
    rw [hop] at hc
    simp only at hc
    refine ih (serveInput service round) (conserving_serveInput base service round h ?_)
      hclean.2
    intro o' ho'
    rw [hop] at ho'
    simp only [Option.some.injEq] at ho'
    exact ho' ▸ hc

/-- C2: an input operation that starts with an empty buffer is served through
any number of calls of `asyncHandleOperation` in which no read fails or meets
the end of the input and the callback returns a count of at most the length it
is given.  The operation is then still queued, and the bytes its callback
consumed, in order of invocation, followed by the bytes held in
`buffer[0 .. length)` are the bytes the reads delivered, in order. -/
theorem input_bytes_conserved (operation : OperationEntry) (extension : TransferExtension)
    (rounds : List ((Nat → SysResult) × Nat))
    (hext : operation.extension = .transfer extension)
    (hcb : extension.callback = true) (hend : extension.end_ = false)
    (herr : operation.error = 0) (hcancel : operation.cancel = false)
    (hlen : extension.length = 0) (hbuf : extension.buffer.length = extension.size)
    (hsize : extension.size < sizeModulus)
    (hclean : CleanRounds { operation := some operation, consumed := [], delivered := [] }
      rounds) :
    ∃ final held,
      (serveInputs { operation := some operation, consumed := [], delivered := [] }
        rounds).operation = some final ∧
      final.extension = .transfer held ∧
      (serveInputs { operation := some operation, consumed := [], delivered := [] }
          rounds).consumed ++ held.buffer.take held.length =
        (serveInputs { operation := some operation, consumed := [], delivered := [] }
          rounds).delivered := by
  have h0 : InputService.Conserving []
      { operation := some operation, consumed := [], delivered := [] } :=
    ⟨operation, extension, rfl, hext, hcb, hend, herr, hcancel, by omega, hbuf, hsize,
      by simp [hlen]⟩
  obtain ⟨final, held, h1, h2, _, _, _, _, _, _, _, h3⟩ :=
    conserving_serveInputs [] _ rounds h0 hclean
  exact ⟨final, held, h1, h2, by simpa using h3⟩


theorem cleanRound_of_checks (o : OperationEntry) (e : TransferExtension)
    (round : (Nat → SysResult) × Nat) (hext : o.extension = .transfer e)
    (hread : o.finished = false →
      0 < (round.1 (wrap (e.size - e.length))).result ∧
      (round.1 (wrap (e.size - e.length))).result ≤ wrap (e.size - e.length) ∧
      (round.1 (wrap (e.size - e.length))).result.toNat ≤
        (round.1 (wrap (e.size - e.length))).data.length)
    (called : AsyncInputCallbackParameters)
    (hcalled : userCallback .transferInput (beforeCallback .transferInput round.1 o) =
      some (.input called))
    (hcount : round.2 ≤ called.length) :
    CleanRound o round := by
  constructor
  · intro hfin e' he'
    rw [hext] at he'
    simp only [Extension.transfer.injEq] at he'
    subst he'
    exact hread hfin
  · intro p hp
    rw [hcalled] at hp
    simp only [Option.some.injEq, Invocation.input.injEq] at hp
    exact hp ▸ hcount

theorem sampleRounds_clean :
    CleanRounds { operation := some emptyInput, consumed := [], delivered := [] }
      sampleRounds := by
  refine ⟨cleanRound_of_checks emptyInput emptyExtension _ rfl (by decide)
    { data := 0, buffer := [65, 66, 67, 68], size := 4, length := 4, error := 0,
      end_ := false } (by decide) (by decide), ?_, trivial⟩
  have h1 : (serveInput { operation := some emptyInput, consumed := [], delivered := [] }
      (readFrom [65, 66, 67, 68, 69], 2)).operation =
      some { emptyInput with
        extension := .transfer { emptyExtension with length := 2, buffer := [67, 68, 67, 68] },
        finished := true } := by decide
  rw [h1]
  exact cleanRound_of_checks _ _ _ rfl (by decide)
    { data := 0, buffer := [67, 68, 67, 68], size := 4, length := 2, error := 0,
      end_ := false } (by decide) (by decide)

/-- C2 on the stream `A B C D E`: after the two sample rounds the callback has
consumed `A B`, and `C D` is held in the buffer. -/
theorem input_bytes_conserved_witness :
    ∃ final held,
      (serveInputs { operation := some emptyInput, consumed := [], delivered := [] }
        sampleRounds).operation = some final ∧
      final.extension = .transfer held ∧
      (serveInputs { operation := some emptyInput, consumed := [], delivered := [] }
          sampleRounds).consumed ++ held.buffer.take held.length =
        (serveInputs { operation := some emptyInput, consumed := [], delivered := [] }
          sampleRounds).delivered :=
  input_bytes_conserved emptyInput emptyExtension sampleRounds rfl rfl rfl rfl rfl rfl rfl
    (by decide) sampleRounds_clean


/-! ## The residue of an input callback -/

theorem residueFirst_end :
    handleEnd residueFirst 2 =
      { functionQueue :=
          [{ fileDescriptor := 3, methods := .transferInput,
             operations :=
               [{ id := 0,
                  extension := .transfer
                    { callback := true, end_ := false, size := 4, length := 2,
                      buffer := [67, 68, 67, 68] },
                  data := 0, monitor := some 0, error := 0, active := false, cancel := false,
                  finished := true }] }],
        frames := [], next := 1 } := by
  decide

theorem residueSecond_invocation (poll : PollResult) (sys : Nat → SysResult) :
    invocation (residueSecond poll sys).functionQueue 0 =
      some (.input
        { data := 0, buffer := [67, 68, 67, 68], size := 4, length := 2, error := 0,
          end_ := false }) := by
  unfold residueSecond
  rw [residueFirst_end]
  rfl

/-- C3 (as amended): an input operation of size 4 on a stream yielding
`A B C D E` first has its callback invoked with `length = 4`, buffer `ABCD`;
when that returns 2 the residue `CD` is moved to the front of the buffer and
the operation stays finished, so the next invocation, made without a read
whatever `poll` reports, receives `length = 2`, buffer `CD`; when that returns 0
the operation reads again and the invocation after it receives `length = 3`,
buffer `CDE`. -/
theorem residue_is_offered_before_reading :
    invocation residueFirst.functionQueue 0 =
      some (.input
        { data := 0, buffer := [65, 66, 67, 68], size := 4, length := 4, error := 0,
          end_ := false }) ∧
    (∀ poll sys, invocation (residueSecond poll sys).functionQueue 0 =
      some (.input
        { data := 0, buffer := [67, 68, 67, 68], size := 4, length := 2, error := 0,
          end_ := false })) ∧
    invocation residueThird.functionQueue 0 =
      some (.input
        { data := 0, buffer := [67, 68, 69, 68], size := 4, length := 3, error := 0,
          end_ := false }) :=
  ⟨by decide, residueSecond_invocation, by decide⟩

/-- C3 as stated fails: the invocation that follows the callback's return of 2
does not receive `length = 3` and buffer `CDE`, even when `E` is ready to be
read. -/
theorem next_invocation_is_not_CDE :
    ¬ ∃ parameters,
      invocation (residueSecond allReady (readFrom [69])).functionQueue 0 =
        some (.input parameters) ∧
      parameters.length = 3 ∧ parameters.buffer.take 3 = [67, 68, 69] := by
  rintro ⟨p, hp, hlen, _⟩
  rw [residueSecond_invocation] at hp
  simp only [Option.some.injEq, Invocation.input.injEq] at hp
  subst hp
  simp at hlen


/-! ## The structure of the function queue -/

theorem owns_iff (f : FunctionEntry) (id : Nat) : f.owns id = true ↔ id ∈ elementIds f := by
  unfold FunctionEntry.owns elementIds
  simp only [List.any_eq_true, beq_iff_eq, List.mem_map]

theorem replaceOperation_split (id : Nat) (g : OperationEntry → Option OperationEntry)
    (ops : List OperationEntry) :
    ((∀ o ∈ ops, o.id ≠ id) ∧ replaceOperation id g ops = ops) ∨
    ∃ l1 o l2, ops = l1 ++ o :: l2 ∧ o.id = id ∧ (∀ x ∈ l1, x.id ≠ id) ∧
      ops.find? (fun o => o.id == id) = some o ∧
      replaceOperation id g ops = l1 ++ (g o).toList ++ l2 := by
  induction ops with
  | nil => exact Or.inl ⟨by simp, rfl⟩
  | cons a l ih =>
    by_cases ha : a.id = id
    · refine Or.inr ⟨[], a, l, rfl, ha, by simp, by simp [List.find?, ha], ?_⟩
      unfold replaceOperation
      rw [if_pos ha]
      cases g a <;> simp
    · have hb : (a.id == id) = false := by simpa using ha
      rcases ih with ⟨h1, h2⟩ | ⟨l1, o, l2, h1, h2, h3, h4, h5⟩
      · refine Or.inl ⟨?_, ?_⟩
        · intro o ho
          rcases List.mem_cons.1 ho with rfl | ho
          · exact ha
          · exact h1 o ho
        · unfold replaceOperation
          rw [if_neg ha, h2]
      · refine Or.inr ⟨a :: l1, o, l2, by simp [h1], h2, ?_, ?_, ?_⟩
        · intro x hx
          rcases List.mem_cons.1 hx with rfl | hx
          · exact ha
          · exact h3 x hx
        · simp [List.find?, hb, h4]
        · unfold replaceOperation
          rw [if_neg ha, h5]
          simp

theorem modifyLast_split {α : Type} (g : α → α) (l : List α) (x : α)
    (h : l.getLast? = some x) :
    ∃ l1, l = l1 ++ [x] ∧ modifyLast g l = l1 ++ [g x] := by
  induction l using modifyLast.induct g with
  | case1 => simp at h
  | case2 a =>
    simp only [List.getLast?_singleton, Option.some.injEq] at h
    subst h
    exact ⟨[], rfl, rfl⟩
  | case3 a b l ih =>
    rw [List.getLast?_cons_cons] at h
    obtain ⟨l1, h1, h2⟩ := ih h
    refine ⟨a :: l1, by simp [h1], ?_⟩
    simp only [modifyLast, h2, List.cons_append]

theorem modifyActive_key (f : FunctionEntry) (g : OperationEntry → OperationEntry) :
    (modifyActive f g).fileDescriptor = f.fileDescriptor ∧
    (modifyActive f g).methods = f.methods := by
  unfold modifyActive
  split <;> exact ⟨rfl, rfl⟩

theorem modifyActive_split (f : FunctionEntry) (g : OperationEntry → OperationEntry)
    (o : OperationEntry) (h : getActiveOperationElement f = some o) :
    ∃ l1 l2, f.operations = l1 ++ o :: l2 ∧
      (modifyActive f g).operations = l1 ++ g o :: l2 ∧ (f.isTransfer → l1 = []) := by
  unfold getActiveOperationElement at h
  unfold modifyActive FunctionEntry.isTransfer
  by_cases hm : f.methods.invokeCallback = .invokeMonitorCallback
  · simp only [hm, if_true] at h ⊢
    obtain ⟨l1, h1, h2⟩ := modifyLast_split g _ o h
    exact ⟨l1, [], h1, h2, fun hc => absurd rfl hc⟩
  · simp only [hm, if_false] at h ⊢
    cases hops : f.operations with
    | nil => simp [hops] at h
    | cons a l =>
      simp only [hops, List.head?_cons, Option.some.injEq] at h
      subst h
      exact ⟨[], l, rfl, rfl, fun _ => rfl⟩

theorem allIds_append (q1 q2 : List FunctionEntry) :
    allIds (q1 ++ q2) = allIds q1 ++ allIds q2 := by
  unfold allIds
  exact List.flatMap_append _ _ _

theorem allIds_cons (f : FunctionEntry) (q : List FunctionEntry) :
    allIds (f :: q) = elementIds f ++ allIds q := by
  unfold allIds
  exact List.flatMap_cons _ _ _

theorem allIds_middle (b a : List FunctionEntry) (f : FunctionEntry) :
    allIds (b ++ f :: a) = allIds b ++ (elementIds f ++ allIds a) := by
  rw [allIds_append, allIds_cons]

theorem mem_allIds {q : List FunctionEntry} {id : Nat} :
    id ∈ allIds q ↔ ∃ f ∈ q, ∃ o ∈ f.operations, o.id = id := by
  unfold allIds elementIds
  simp only [List.mem_flatMap, List.mem_map]

theorem structured_perm {q q' : List FunctionEntry} (hp : q.Perm q') (h : Structured q) :
    Structured q' where
  nonEmpty := fun f hf => h.nonEmpty f (hp.mem_iff.2 hf)
  keys := (hp.map FunctionEntry.key).nodup_iff.1 h.keys
  ids := (List.Perm.flatMap_right elementIds hp).nodup_iff.1 h.ids
  sorted := fun f hf => h.sorted f (hp.mem_iff.2 hf)
  heads := fun f hf => h.heads f (hp.mem_iff.2 hf)

theorem structured_remove {b a : List FunctionEntry} {f : FunctionEntry}
    (h : Structured (b ++ f :: a)) : Structured (b ++ a) where
  nonEmpty := fun g hg => h.nonEmpty g (by
    rcases List.mem_append.1 hg with hg | hg
    · exact List.mem_append_left _ hg
    · exact List.mem_append_right _ (List.mem_cons_of_mem _ hg))
  keys := by
    have := h.keys
    rw [List.map_append, List.map_cons] at this
    rw [List.map_append]
    exact this.sublist (List.Sublist.append (List.Sublist.refl _) (List.sublist_cons_self _ _))
  ids := by
    have := h.ids
    rw [allIds_middle] at this
    rw [allIds_append]
    exact this.sublist
      (List.Sublist.append (List.Sublist.refl _) (List.sublist_append_right _ _))
  sorted := fun g hg => h.sorted g (by
    rcases List.mem_append.1 hg with hg | hg
    · exact List.mem_append_left _ hg
    · exact List.mem_append_right _ (List.mem_cons_of_mem _ hg))
  heads := fun g hg => h.heads g (by
    rcases List.mem_append.1 hg with hg | hg
    · exact List.mem_append_left _ hg
    · exact List.mem_append_right _ (List.mem_cons_of_mem _ hg))

/-- An entry may be replaced by one with the same key whose queue is not empty,
holds some of the same elements in the same order, and has no active operation
behind the head if it is a transfer entry. -/
theorem structured_replace {b a : List FunctionEntry} {f f' : FunctionEntry}
    (h : Structured (b ++ f :: a)) (hkey : f'.key = f.key) (hne : f'.operations ≠ [])
    (hsub : (elementIds f').Sublist (elementIds f))
    (hheads : f'.isTransfer → ∀ o ∈ f'.operations.tail, o.active = false) :
    Structured (b ++ f' :: a) where
  nonEmpty := by
    intro g hg
    rcases List.mem_append.1 hg with hg | hg
    · exact h.nonEmpty g (List.mem_append_left _ hg)
    · rcases List.mem_cons.1 hg with rfl | hg
      · exact hne
      · exact h.nonEmpty g (List.mem_append_right _ (List.mem_cons_of_mem _ hg))
  keys := by
    have := h.keys
    rw [List.map_append, List.map_cons] at this ⊢
    rw [hkey]
    exact this
  ids := by
    have := h.ids
    rw [allIds_middle] at this ⊢
    exact this.sublist
      (List.Sublist.append (List.Sublist.refl _)
        (List.Sublist.append hsub (List.Sublist.refl _)))
  sorted := by
    intro g hg
    rcases List.mem_append.1 hg with hg | hg
    · exact h.sorted g (List.mem_append_left _ hg)
    · rcases List.mem_cons.1 hg with rfl | hg
      · exact (h.sorted f (by simp)).sublist hsub
      · exact h.sorted g (List.mem_append_right _ (List.mem_cons_of_mem _ hg))
  heads := by
    intro g hg
    rcases List.mem_append.1 hg with hg | hg
    · exact h.heads g (List.mem_append_left _ hg)
    · rcases List.mem_cons.1 hg with rfl | hg
      · exact hheads
      · exact h.heads g (List.mem_append_right _ (List.mem_cons_of_mem _ hg))


theorem forall₂_mem_right {α β : Type} {R : α → β → Prop} {l : List α} {l' : List β}
    (h : List.Forall₂ R l l') : ∀ y ∈ l', ∃ x ∈ l, R x y := by
  induction h with
  | nil => simp
  | cons hab _ ih =>
    intro y hy
    rcases List.mem_cons.1 hy with rfl | hy
    · exact ⟨_, List.mem_cons_self _ _, hab⟩
    · obtain ⟨x, hx, hr⟩ := ih y hy
      exact ⟨x, List.mem_cons_of_mem _ hx, hr⟩

theorem sameButMonitor_id {o o' : OperationEntry} (h : o.sameButMonitor o') :
    o'.id = o.id ∧ o'.active = o.active := by
  unfold OperationEntry.sameButMonitor at h
  rw [h]
  exact ⟨rfl, rfl⟩

theorem forall₂_sameButMonitor_ids {l l' : List OperationEntry}
    (h : List.Forall₂ OperationEntry.sameButMonitor l l') :
    l'.map (fun o => o.id) = l.map (fun o => o.id) := by
  induction h with
  | nil => rfl
  | cons hab _ ih =>
    simp only [List.map_cons, (sameButMonitor_id hab).1, ih]

theorem forall₂_tail {α β : Type} {R : α → β → Prop} {l : List α} {l' : List β}
    (h : List.Forall₂ R l l') : List.Forall₂ R l.tail l'.tail := by
  cases h with
  | nil => exact List.Forall₂.nil
  | cons _ ht => exact ht

theorem sameButMonitor_elementIds {f f' : FunctionEntry} (h : f.sameButMonitor f') :
    elementIds f' = elementIds f :=
  forall₂_sameButMonitor_ids h.2.2

theorem sameButMonitor_tail {f f' : FunctionEntry} (h : f.sameButMonitor f') :
    List.Forall₂ OperationEntry.sameButMonitor f.operations.tail f'.operations.tail :=
  forall₂_tail h.2.2

theorem sameButMonitors_keys {q q' : List FunctionEntry} (h : SameButMonitors q q') :
    q'.map FunctionEntry.key = q.map FunctionEntry.key := by
  induction h with
  | nil => rfl
  | cons hab _ ih =>
    simp only [List.map_cons, ih, FunctionEntry.key, hab.1, hab.2.1]

theorem sameButMonitors_allIds {q q' : List FunctionEntry} (h : SameButMonitors q q') :
    allIds q' = allIds q := by
  induction h with
  | nil => rfl
  | cons hab _ ih =>
    simp only [allIds_cons, ih, sameButMonitor_elementIds hab]

theorem structured_sameButMonitors {q q' : List FunctionEntry} (hs : SameButMonitors q q')
    (h : Structured q) : Structured q' where
  nonEmpty := by
    intro f' hf'
    obtain ⟨f, hf, hr⟩ := forall₂_mem_right hs f' hf'
    have hlen := List.Forall₂.length_eq hr.2.2
    have := h.nonEmpty f hf
    intro hnil
    rw [hnil] at hlen
    exact this (List.length_eq_zero.1 hlen)
  keys := by rw [sameButMonitors_keys hs]; exact h.keys
  ids := by rw [sameButMonitors_allIds hs]; exact h.ids
  sorted := by
    intro f' hf'
    obtain ⟨f, hf, hr⟩ := forall₂_mem_right hs f' hf'
    rw [sameButMonitor_elementIds hr]
    exact h.sorted f hf
  heads := by
    intro f' hf' ht o' ho'
    obtain ⟨f, hf, hr⟩ := forall₂_mem_right hs f' hf'
    obtain ⟨o, ho, hoo⟩ := forall₂_mem_right (sameButMonitor_tail hr) o' ho'
    rw [(sameButMonitor_id hoo).2]
    refine h.heads f hf ?_ o ho
    unfold FunctionEntry.isTransfer at ht ⊢
    rw [← hr.2.1]
    exact ht

/-- A new operation at the tail of an entry. -/
theorem structured_append {b a : List FunctionEntry} {f : FunctionEntry}
    {new : OperationEntry} {next : Nat} (h : Structured (b ++ f :: a))
    (hfresh : EveryOperation (fun o => o.id < next) (b ++ f :: a))
    (hid : new.id = next) (hact : new.active = false) :
    Structured (b ++ { f with operations := f.operations ++ [new] } :: a) where
  nonEmpty := by
    intro g hg
    rcases List.mem_append.1 hg with hg | hg
    · exact h.nonEmpty g (List.mem_append_left _ hg)
    · rcases List.mem_cons.1 hg with rfl | hg
      · simp
      · exact h.nonEmpty g (List.mem_append_right _ (List.mem_cons_of_mem _ hg))
  keys := by
    have := h.keys
    rw [List.map_append, List.map_cons] at this ⊢
    exact this
  ids := by
    have hn := h.ids
    have hnew : next ∉ allIds (b ++ f :: a) := by
      intro hmem
      obtain ⟨g, hg, o, ho, hoid⟩ := mem_allIds.1 hmem
      have := hfresh g hg o ho
      simp only at this
      omega
    rw [allIds_middle] at hn hnew ⊢
    simp only [elementIds, List.map_append, List.map_cons, List.map_nil, hid] at hn hnew ⊢
    have hperm : (allIds b ++ ((List.map (fun o => o.id) f.operations ++ [next]) ++ allIds a)).Perm
        (next :: (allIds b ++ (List.map (fun o => o.id) f.operations ++ allIds a))) := by
      have := @List.perm_middle _ next (allIds b ++ List.map (fun o => o.id) f.operations)
        (allIds a)
      simpa [List.append_assoc] using this
    rw [hperm.nodup_iff, List.nodup_cons]
    exact ⟨hnew, hn⟩
  sorted := by
    intro g hg
    rcases List.mem_append.1 hg with hg | hg
    · exact h.sorted g (List.mem_append_left _ hg)
    · rcases List.mem_cons.1 hg with rfl | hg
      · simp only [elementIds, List.map_append, List.map_cons, List.map_nil, hid]
        rw [List.pairwise_append]
        refine ⟨h.sorted f (by simp), List.pairwise_singleton _ _, ?_⟩
        intro i hi j hj
        rw [List.mem_singleton] at hj
        subst hj
        obtain ⟨o, ho, rfl⟩ := List.mem_map.1 hi
        exact hfresh f (by simp) o ho
      · exact h.sorted g (List.mem_append_right _ (List.mem_cons_of_mem _ hg))
  heads := by
    intro g hg
    rcases List.mem_append.1 hg with hg | hg
    · exact h.heads g (List.mem_append_left _ hg)
    · rcases List.mem_cons.1 hg with rfl | hg
      · intro ht o ho
        have hf := h.heads f (by simp) ht
        cases hops : f.operations with
        | nil =>
          simp [hops] at ho
        | cons x l =>
          simp only [hops, List.cons_append, List.tail_cons, List.mem_append,
            List.mem_singleton] at ho
          rcases ho with ho | rfl
          · exact hf o (by simp [hops, ho])
          · exact hact
      · exact h.heads g (List.mem_append_right _ (List.mem_cons_of_mem _ hg))

/-- A new entry at the tail of the function queue, with a new operation. -/
theorem structured_new {q : List FunctionEntry} {fd : Int} {m : FunctionMethods}
    {new : OperationEntry} {next : Nat} (h : Structured q)
    (hfresh : EveryOperation (fun o => o.id < next) q)
    (hkey : ∀ g ∈ q, testFunctionEntry fd m g = false)
    (hid : new.id = next) :
    Structured (q ++ [{ fileDescriptor := fd, methods := m, operations := [new] }]) where
  nonEmpty := by
    intro g hg
    rcases List.mem_append.1 hg with hg | hg
    · exact h.nonEmpty g hg
    · rw [List.mem_singleton] at hg
      subst hg
      simp
  keys := by
    rw [List.map_append, List.nodup_append]
    refine ⟨h.keys, by simp, ?_⟩
    intro k hk hk'
    simp only [List.map_cons, List.map_nil, List.mem_singleton] at hk'
    obtain ⟨g, hg, hgk⟩ := List.mem_map.1 hk
    have := hkey g hg
    rw [hk'] at hgk
    simp only [FunctionEntry.key, Prod.mk.injEq] at hgk
    simp [testFunctionEntry, hgk.1, hgk.2] at this
  ids := by
    rw [allIds_append, List.nodup_append]
    refine ⟨h.ids, by simp [allIds, elementIds], ?_⟩
    intro i hi hi'
    simp only [allIds, elementIds, List.flatMap_cons, List.map_cons, List.map_nil,
      List.flatMap_nil, List.append_nil, List.mem_singleton] at hi'
    obtain ⟨g, hg, o, ho, hoid⟩ := mem_allIds.1 hi
    have := hfresh g hg o ho
    simp only at this
    omega
  sorted := by
    intro g hg
    rcases List.mem_append.1 hg with hg | hg
    · exact h.sorted g hg
    · rw [List.mem_singleton] at hg
      subst hg
      simp [elementIds]
  heads := by
    intro g hg
    rcases List.mem_append.1 hg with hg | hg
    · exact h.heads g hg
    · rw [List.mem_singleton] at hg
      subst hg
      simp


/-! ## What handling leaves untouched in an operation -/

theorem setUnixTransferResult_fields (o : OperationEntry) (count errno : Int) :
    (setUnixTransferResult o count errno).id = o.id ∧
    (setUnixTransferResult o count errno).active = o.active ∧
    (setUnixTransferResult o count errno).cancel = o.cancel := by
  unfold setUnixTransferResult
  split
  · split
    · exact ⟨rfl, rfl, rfl⟩
    · split <;> exact ⟨rfl, rfl, rfl⟩
  · exact ⟨rfl, rfl, rfl⟩

theorem finishOperation_fields (m : FunctionMethods) (o : OperationEntry)
    (sys : Nat → SysResult) :
    (finishOperation m o sys).id = o.id ∧ (finishOperation m o sys).active = o.active ∧
    (finishOperation m o sys).cancel = o.cancel := by
  unfold finishOperation
  split
  · unfold finishUnixRead
    split
    · exact setUnixTransferResult_fields _ _ _
    · exact ⟨rfl, rfl, rfl⟩
  · unfold finishUnixWrite
    split
    · exact setUnixTransferResult_fields _ _ _
    · exact ⟨rfl, rfl, rfl⟩
  · exact ⟨rfl, rfl, rfl⟩

theorem beforeCallback_fields (m : FunctionMethods) (sys : Nat → SysResult)
    (o : OperationEntry) :
    (beforeCallback m sys o).id = o.id ∧ (beforeCallback m sys o).active = true ∧
    (beforeCallback m sys o).cancel = o.cancel := by
  unfold beforeCallback
  split
  · exact ⟨(finishOperation_fields m o sys).1, rfl, (finishOperation_fields m o sys).2.2⟩
  · exact ⟨rfl, rfl, rfl⟩

theorem invokeCallback_fields (m : FunctionMethods) (o : OperationEntry) (answer : Nat) :
    (invokeCallback m o answer).1.id = o.id ∧
    (invokeCallback m o answer).1.cancel = o.cancel := by
  unfold invokeCallback
  split
  · unfold invokeMonitorCallback
    split
    · split
      · split <;> exact ⟨rfl, rfl⟩
      · exact ⟨rfl, rfl⟩
    · exact ⟨rfl, rfl⟩
  · unfold invokeInputCallback
    split
    · split_ifs <;> exact ⟨rfl, rfl⟩
    · exact ⟨rfl, rfl⟩
  · unfold invokeOutputCallback
    split
    · split_ifs <;> exact ⟨rfl, rfl⟩
    · exact ⟨rfl, rfl⟩

/-- An operation that `asyncHandleOperation` keeps has the same element, is no
longer active and had no cancellation pending. -/
theorem afterCallback_some {m : FunctionMethods} {answer : Nat} {o o' : OperationEntry}
    (h : afterCallback m answer o = some o') :
    o'.id = o.id ∧ o'.active = false ∧ o.cancel = false := by
  have hf := invokeCallback_fields m o answer
  unfold afterCallback at h
  rcases hinv : invokeCallback m o answer with ⟨changed, verdict, called⟩
  rw [hinv] at h hf
  simp only at h hf
  cases verdict <;> cases hc : changed.cancel <;> simp [hc] at h
  subst h
  exact ⟨hf.1, rfl, hf.2 ▸ hc⟩

/-- An operation whose `cancel` bit is set is deleted when its callback
returns, whatever the callback answers. -/
theorem afterCallback_cancel (m : FunctionMethods) (answer : Nat) (o : OperationEntry)
    (h : o.cancel = true) : afterCallback m answer o = none := by
  cases hafter : afterCallback m answer o with
  | none => rfl
  | some o' =>
    have := (afterCallback_some hafter).2.2
    rw [h] at this
    simp at this

theorem tail_update {α : Type} (l1 l2 : List α) (o o' x : α)
    (h : x ∈ (l1 ++ o' :: l2).tail) :
    x ∈ (l1 ++ o :: l2).tail ∨ (x = o' ∧ l1 ≠ [] ∧ o ∈ (l1 ++ o :: l2).tail) := by
  cases l1 with
  | nil =>
    simp only [List.nil_append, List.tail_cons] at h ⊢
    exact Or.inl h
  | cons y l1' =>
    simp only [List.cons_append, List.tail_cons] at h ⊢
    rcases List.mem_append.1 h with h | h
    · exact Or.inl (List.mem_append_left _ h)
    · rcases List.mem_cons.1 h with rfl | h
      · exact Or.inr ⟨rfl, List.cons_ne_nil _ _,
          List.mem_append_right _ (List.mem_cons_self _ _)⟩
      · exact Or.inl (List.mem_append_right _ (List.mem_cons_of_mem _ h))

theorem tail_delete {α : Type} (l1 l2 : List α) (o x : α) (h : x ∈ (l1 ++ l2).tail) :
    x ∈ (l1 ++ o :: l2).tail := by
  cases l1 with
  | nil =>
    simp only [List.nil_append, List.tail_cons] at h ⊢
    exact List.mem_of_mem_tail h
  | cons y l1' =>
    simp only [List.cons_append, List.tail_cons, List.mem_append, List.mem_cons] at h ⊢
    rcases h with h | h
    · exact Or.inl h
    · exact Or.inr (Or.inr h)


/-! ## Handling, cancelling and creating keep the function queue structured -/

theorem structured_dispatch (q : List FunctionEntry) (poll : PollResult)
    (sys : Nat → SysResult) (h : Structured q) : Structured (dispatch q poll sys).1 := by
  obtain ⟨q1, hs, hd⟩ := dispatch_spec q poll sys
  have h1 := structured_sameButMonitors hs h
  rcases hd with ⟨_, hd⟩ | ⟨b, f, a, o, hq1, hact, _, _, hd⟩
  · rw [hd]; exact h1
  · rw [hd]
    rw [hq1] at h1
    obtain ⟨l1, l2, hops, hmod, hl1⟩ := modifyActive_split f (beforeCallback f.methods sys) o hact
    have hkey := modifyActive_key f (beforeCallback f.methods sys)
    refine structured_replace h1 ?_ ?_ ?_ ?_
    · simp only [FunctionEntry.key, hkey.1, hkey.2]
    · rw [hmod]; simp
    · simp only [elementIds, hmod, hops, List.map_append, List.map_cons,
        (beforeCallback_fields f.methods sys o).1]
      exact List.Sublist.refl _
    · intro ht x hx
      have ht' : f.isTransfer := by
        unfold FunctionEntry.isTransfer at ht ⊢
        rw [← hkey.2]; exact ht
      rw [hmod, hl1 ht'] at hx
      simp only [List.nil_append, List.tail_cons] at hx
      refine h1.heads f (by simp) ht' x ?_
      rw [hops, hl1 ht']
      simpa using hx

theorem structured_complete (q : List FunctionEntry) (id answer : Nat) (h : Structured q) :
    Structured (complete q id answer) := by
  rw [complete_eq]
  cases hl : locate (fun function => function.owns id) q with
  | none => exact h
  | some r =>
    obtain ⟨b, f, a⟩ := r
    obtain ⟨hq, _, _⟩ := locate_some hl
    rw [hq] at h
    simp only
    by_cases hnil : replaceOperation id (afterCallback f.methods answer) f.operations = []
    · rw [if_pos hnil]
      exact structured_remove h
    · rw [if_neg hnil]
      have hperm : (b ++
          { f with
            operations :=
              replaceOperation id (afterCallback f.methods answer) f.operations } :: a).Perm
          (b ++ a ++
            [{ f with
               operations :=
                 replaceOperation id (afterCallback f.methods answer) f.operations }]) := by
        rw [List.append_assoc]
        exact List.Perm.append_left b (List.perm_append_singleton _ _).symm
      refine structured_perm hperm (structured_replace h rfl hnil ?_ ?_)
      · rcases replaceOperation_split id (afterCallback f.methods answer) f.operations with
          ⟨_, h2⟩ | ⟨l1, o, l2, h1, _, _, _, h5⟩
        · simp only [elementIds, h2]
          exact List.Sublist.refl _
        · simp only [elementIds, h5]
          rw [h1]
          simp only [List.map_append, List.map_cons, List.append_assoc]
          refine List.Sublist.append (List.Sublist.refl _) ?_
          cases hg : afterCallback f.methods answer o with
          | none => simp
          | some o' =>
            simp only [Option.toList, List.map_cons, List.map_nil, List.singleton_append,
              (afterCallback_some hg).1]
            exact List.Sublist.refl _
      · intro ht x hx
        have hheads := h.heads f (by simp) ht
        simp only at hx
        rcases replaceOperation_split id (afterCallback f.methods answer) f.operations with
          ⟨_, h2⟩ | ⟨l1, o, l2, h1, _, _, _, h5⟩
        · rw [h2] at hx
          exact hheads x hx
        · rw [h5] at hx
          rw [h1] at hheads
          cases hg : afterCallback f.methods answer o with
          | none =>
            rw [hg] at hx
            simp only [Option.toList, List.append_nil] at hx
            exact hheads x (tail_delete l1 l2 o x hx)
          | some o' =>
            rw [hg] at hx
            simp only [Option.toList, List.append_assoc, List.singleton_append] at hx
            rcases tail_update l1 l2 o o' x hx with hx | ⟨rfl, _, _⟩
            · exact hheads x hx
            · exact (afterCallback_some hg).2.1

theorem structured_cancelOperation (q : List FunctionEntry) (id : Nat) (h : Structured q) :
    Structured (cancelOperation q id) := by
  rw [cancelOperation_eq]
  cases hl : locate (fun function => function.owns id) q with
  | none => exact h
  | some r =>
    obtain ⟨b, f, a⟩ := r
    obtain ⟨hq, _, _⟩ := locate_some hl
    have h' := h
    rw [hq] at h'
    simp only
    cases hop : f.operation id with
    | none => exact h
    | some o =>
      simp only
      have hheads := h'.heads f (by simp)
      by_cases hactive : o.active = true
      · rw [if_pos hactive]
        rcases replaceOperation_split id (fun o => some { o with cancel := true })
            f.operations with ⟨_, h2⟩ | ⟨l1, o1, l2, h1, _, _, _, h5⟩
        · rw [h2]; exact h'
        · refine structured_replace h' rfl ?_ ?_ ?_
          · simp only [h5]; simp
          · simp only [elementIds, h5]
            rw [h1]
            simp
          · intro ht x hx
            simp only [h5, Option.toList, List.append_assoc, List.singleton_append] at hx
            rw [h1] at hheads
            rcases tail_update l1 l2 o1 _ x hx with hx | ⟨rfl, _, ho1⟩
            · exact hheads ht x hx
            · exact hheads ht o1 ho1
      · rw [if_neg hactive]
        by_cases hlen : f.operations.length = 1
        · rw [if_pos hlen]
          exact structured_remove h'
        · rw [if_neg hlen]
          rcases replaceOperation_split id (fun _ => none) f.operations with
            ⟨_, h2⟩ | ⟨l1, o1, l2, h1, _, _, _, h5⟩
          · rw [h2]; exact h'
          · refine structured_replace h' rfl ?_ ?_ ?_
            · simp only [h5, Option.toList, List.append_nil]
              intro hnil
              rw [h1] at hlen
              rw [List.append_eq_nil] at hnil
              simp [hnil.1, hnil.2] at hlen
            · simp only [elementIds, h5, Option.toList, List.append_nil]
              rw [h1]
              simp only [List.map_append, List.map_cons]
              exact List.Sublist.append (List.Sublist.refl _) (List.sublist_cons_self _ _)
            · intro ht x hx
              simp only [h5, Option.toList, List.append_nil] at hx
              rw [h1] at hheads
              exact hheads ht x (tail_delete l1 l2 o1 x hx)

theorem structured_newOperation (r : Reactor) (fd : Int) (m : FunctionMethods)
    (extension : Extension) (data : Nat) (allocation : Allocation)
    (h : Structured r.functionQueue)
    (hfresh : EveryOperation (fun o => o.id < r.next) r.functionQueue) :
    Structured (newOperation r fd m extension data allocation).1.functionQueue := by
  rw [newOperation_functionQueue]
  by_cases hop : allocation.operation = true
  · rw [if_pos hop]
    cases hg : getFunctionElement r.functionQueue fd m allocation.function with
    | none => exact h
    | some x =>
      obtain ⟨b, f, a⟩ := x
      simp only
      rcases getFunctionElement_some hg with ⟨h1, _⟩ | ⟨hnone, rfl, rfl, rfl⟩
      · rw [h1] at h hfresh
        by_cases hel : allocation.element = true
        · rw [if_pos hel]
          exact structured_append h hfresh rfl rfl
        · rw [if_neg hel]
          by_cases hlen : f.operations.length = 0
          · rw [if_pos hlen]; exact structured_remove h
          · rw [if_neg hlen]; exact h
      · by_cases hel : allocation.element = true
        · rw [if_pos hel]
          simp only [List.nil_append]
          exact structured_new h hfresh (locate_none hnone) rfl
        · rw [if_neg hel]
          simp only [List.length_nil, if_true, List.append_nil]
          exact h
  · rw [if_neg hop]; exact h


/-! ## Fresh elements and running callbacks -/

theorem everyOperation_mono {P P' : OperationEntry → Prop} (hPP : ∀ o, P o → P' o)
    {q : List FunctionEntry} (h : EveryOperation P q) : EveryOperation P' q :=
  fun f hf o ho => hPP o (h f hf o ho)

/-- `dispatch` changes monitor slots and puts the selected operation through
`beforeCallback`; nothing else. -/
theorem everyOperation_dispatch_selected (P P' : OperationEntry → Prop)
    (hP : ∀ o o', o.sameButMonitor o' → P o → P o') (q : List FunctionEntry)
    (poll : PollResult) (sys : Nat → SysResult) (hW : ∀ o, P o → P' o)
    (hB : ∀ m o, (dispatch q poll sys).2 = some o.id → P o → P' (beforeCallback m sys o))
    (hq : EveryOperation P q) : EveryOperation P' (dispatch q poll sys).1 := by
  obtain ⟨q1, hs, h⟩ := dispatch_spec q poll sys
  have hq1 := everyOperation_sameButMonitors P hP hs hq
  rcases h with ⟨_, h⟩ | ⟨b, f, a, o, h1, hact, _, hsel, h⟩
  · rw [h]; exact everyOperation_mono hW hq1
  · rw [h]
    rw [h1, everyOperation_append, everyOperation_cons] at hq1
    rw [everyOperation_append, everyOperation_cons]
    refine ⟨everyOperation_mono hW hq1.1, ?_, everyOperation_mono hW hq1.2.2⟩
    obtain ⟨l1, l2, hops, hmod, _⟩ :=
      modifyActive_split f (beforeCallback f.methods sys) o hact
    intro x hx
    rw [hmod] at hx
    rcases List.mem_append.1 hx with hx | hx
    · exact hW x (hq1.2.1 x (by rw [hops]; exact List.mem_append_left _ hx))
    · rcases List.mem_cons.1 hx with rfl | hx
      · exact hB _ o hsel (hq1.2.1 o (by rw [hops]; simp))
      · exact hW x (hq1.2.1 x (by rw [hops]; simp [hx]))

theorem nodup_middle_ids {b a : List FunctionEntry} {f : FunctionEntry}
    {l1 l2 : List OperationEntry} {o : OperationEntry}
    (h : (allIds (b ++ f :: a)).Nodup) (hops : f.operations = l1 ++ o :: l2) :
    (∀ g ∈ b ++ a, ∀ x ∈ g.operations, x.id ≠ o.id) ∧ ∀ x ∈ l1 ++ l2, x.id ≠ o.id := by
  rw [allIds_middle, elementIds, hops] at h
  simp only [List.map_append, List.map_cons] at h
  have hperm : (allIds b ++ ((List.map (fun o => o.id) l1 ++
      o.id :: List.map (fun o => o.id) l2) ++ allIds a)).Perm
      (o.id :: (allIds b ++ ((List.map (fun o => o.id) l1 ++
        List.map (fun o => o.id) l2) ++ allIds a))) := by
    have := @List.perm_middle _ o.id (allIds b ++ List.map (fun o => o.id) l1)
      (List.map (fun o => o.id) l2 ++ allIds a)
    simpa [List.append_assoc] using this
  rw [hperm.nodup_iff, List.nodup_cons] at h
  have hnot := h.1
  simp only [List.mem_append, not_or] at hnot
  constructor
  · intro g hg x hx hid
    rcases List.mem_append.1 hg with hg | hg
    · exact hnot.1 (mem_allIds.2 ⟨g, hg, x, hx, hid⟩)
    · exact hnot.2.2 (mem_allIds.2 ⟨g, hg, x, hx, hid⟩)
  · intro x hx hid
    rcases List.mem_append.1 hx with hx | hx
    · exact hnot.2.1.1 (List.mem_map.2 ⟨x, hx, hid⟩)
    · exact hnot.2.1.2 (List.mem_map.2 ⟨x, hx, hid⟩)

/-- When the callback of the operation `id` has returned, the active
operations are those of the remaining frames. -/
theorem running_complete (q : List FunctionEntry) (id answer : Nat) (frames : List Nat)
    (hs : Structured q)
    (h : EveryOperation (fun o => o.active = true → o.id ∈ id :: frames) q) :
    EveryOperation (fun o => o.active = true → o.id ∈ frames) (complete q id answer) := by
  have hweak : ∀ o : OperationEntry, o.id ≠ id → (o.active = true → o.id ∈ id :: frames) →
      o.active = true → o.id ∈ frames := by
    intro o hne ho hact
    rcases List.mem_cons.1 (ho hact) with h | h
    · exact absurd h hne
    · exact h
  rw [complete_eq]
  cases hl : locate (fun function => function.owns id) q with
  | none =>
    intro f hf o ho
    refine hweak o ?_ (h f hf o ho)
    intro hid
    have := locate_none hl f hf
    simp only at this
    have hown : f.owns id = true := (owns_iff f id).2 (List.mem_map.2 ⟨o, ho, hid⟩)
    rw [hown] at this
    simp at this
  | some r =>
    obtain ⟨b, f, a⟩ := r
    obtain ⟨hq, hown, _⟩ := locate_some hl
    rw [hq] at h hs
    have hids := hs.ids
    obtain ⟨o0, ho0, hid0⟩ := List.mem_map.1 ((owns_iff f id).1 hown)
    rcases replaceOperation_split id (afterCallback f.methods answer) f.operations with
      ⟨hno, _⟩ | ⟨l1, o, l2, h1, hoid, _, _, h5⟩
    · exact absurd hid0 (hno o0 ho0)
    · obtain ⟨hothers, hsiblings⟩ := nodup_middle_ids hids h1
      rw [hoid] at hothers hsiblings
      rw [everyOperation_append, everyOperation_cons] at h
      have hba : EveryOperation (fun o => o.active = true → o.id ∈ frames) (b ++ a) := by
        intro g hg x hx
        refine hweak x (hothers g hg x hx) ?_
        rcases List.mem_append.1 hg with hg | hg
        · exact h.1 g hg x hx
        · exact h.2.2 g hg x hx
      simp only
      split_ifs
      · exact hba
      · rw [everyOperation_append, everyOperation_cons]
        refine ⟨hba, ?_, everyOperation_nil _⟩
        intro x hx
        simp only [h5] at hx
        rcases List.mem_append.1 hx with hx | hx
        · rcases List.mem_append.1 hx with hx | hx
          · refine hweak x (hsiblings x (List.mem_append_left _ hx)) (h.2.1 x ?_)
            rw [h1]; exact List.mem_append_left _ hx
          · intro hact
            cases hg : afterCallback f.methods answer o with
            | none => simp [hg] at hx
            | some o' =>
              simp only [hg, Option.toList, List.mem_singleton] at hx
              subst hx
              rw [(afterCallback_some hg).2.1] at hact
              simp at hact
        · refine hweak x (hsiblings x (List.mem_append_right _ hx)) (h.2.1 x ?_)
          rw [h1]; simp [hx]


/-! ## Every reachable reactor is well formed -/

theorem newOperation_frames_next (r : Reactor) (fd : Int) (m : FunctionMethods)
    (extension : Extension) (data : Nat) (allocation : Allocation) :
    (newOperation r fd m extension data allocation).1.frames = r.frames ∧
    r.next ≤ (newOperation r fd m extension data allocation).1.next ∧
    ((newOperation r fd m extension data allocation).1.next = r.next + 1 ∨
     (newOperation r fd m extension data allocation).1.functionQueue.Sublist
       r.functionQueue) := by
  unfold newOperation
  cases hop : allocation.operation with
  | false => simp
  | true =>
    simp only [Bool.not_true, Bool.false_eq_true, if_false]
    cases hg : getFunctionElement r.functionQueue fd m allocation.function with
    | none => simp
    | some x =>
      obtain ⟨b, f, a⟩ := x
      simp only
      cases hel : allocation.element with
      | true => simp
      | false =>
        simp only [Bool.false_eq_true, if_false]
        rcases getFunctionElement_some hg with ⟨h1, _⟩ | ⟨_, rfl, rfl, rfl⟩
        · by_cases hlen : f.operations.length = 0
          · simp only [hlen, beq_self_eq_true, if_true, le_refl, true_and]
            right
            rw [h1]
            exact List.Sublist.append (List.Sublist.refl _) (List.sublist_cons_self _ _)
          · have hb : (f.operations.length == 0) = false := by simpa using hlen
            simp only [hb, Bool.false_eq_true, if_false, le_refl, true_and]
            right
            rw [h1]
        · simp

theorem everyOperation_sublist {P : OperationEntry → Prop} {q q' : List FunctionEntry}
    (hsub : q'.Sublist q) (h : EveryOperation P q) : EveryOperation P q' :=
  fun f hf o ho => h f (hsub.subset hf) o ho

theorem wellFormed_newOperation (r : Reactor) (fd : Int) (m : FunctionMethods)
    (extension : Extension) (data : Nat) (allocation : Allocation) (h : WellFormed r) :
    WellFormed (newOperation r fd m extension data allocation).1 where
  structured := structured_newOperation r fd m extension data allocation h.structured h.fresh
  fresh := by
    obtain ⟨_, hle, hnext | hsub⟩ := newOperation_frames_next r fd m extension data allocation
    · rw [hnext]
      exact everyOperation_newOperation _ r fd m extension data allocation
        (everyOperation_mono (fun o ho => Nat.lt_succ_of_lt ho) h.fresh) (Nat.lt_succ_self _)
    · exact everyOperation_sublist hsub
        (everyOperation_mono (fun o ho => Nat.lt_of_lt_of_le ho hle) h.fresh)
  running := by
    rw [(newOperation_frames_next r fd m extension data allocation).1]
    exact everyOperation_newOperation _ r fd m extension data allocation h.running
      (by simp)

theorem wellFormed_complete (q : List FunctionEntry) (id answer : Nat) (frames : List Nat)
    (next : Nat) (h : WellFormed { functionQueue := q, frames := id :: frames, next := next }) :
    WellFormed { functionQueue := complete q id answer, frames := frames, next := next } where
  structured := structured_complete q id answer h.structured
  fresh := by
    apply everyOperation_complete _ q id answer h.fresh
    intro b f a o o' _ _ hP hafter
    simp only at hP ⊢
    rw [(afterCallback_some hafter).1]
    exact hP
  running := running_complete q id answer frames h.structured h.running

theorem wellFormed_step (r : Reactor) (request : Request) (h : WellFormed r) :
    WellFormed (step r request) := by
  cases request with
  | asyncMonitorFileInput fd callback data ea al =>
    simp only [step, newFileMonitorOperation]
    split_ifs
    · exact wellFormed_newOperation r fd _ _ data al h
    · exact h
  | asyncMonitorFileOutput fd callback data ea al =>
    simp only [step, newFileMonitorOperation]
    split_ifs
    · exact wellFormed_newOperation r fd _ _ data al h
    · exact h
  | asyncMonitorFileAlert fd callback data ea al =>
    simp only [step, newFileMonitorOperation]
    split_ifs
    · exact wellFormed_newOperation r fd _ _ data al h
    · exact h
  | asyncReadFile fd size callback data ea al =>
    simp only [step, newInputOperation, newTransferOperation]
    split_ifs
    · exact wellFormed_newOperation r fd _ _ data al h
    · exact h
  | asyncWriteFile fd buffer size callback data ea al =>
    simp only [step, newOutputOperation, newTransferOperation]
    split_ifs
    · exact wellFormed_newOperation r fd _ _ data al h
    · exact h
  | cancelOperation id =>
    exact
      { structured := structured_cancelOperation _ id h.structured
        fresh := everyOperation_cancelOperation _ _ id h.fresh (fun o ho => ho)
        running := everyOperation_cancelOperation _ _ id h.running (fun o ho => ho) }
  | handleBegin poll sys =>
    have hst := structured_dispatch r.functionQueue poll sys h.structured
    have hfr : EveryOperation (fun o => o.id < r.next) (dispatch r.functionQueue poll sys).1 :=
      everyOperation_dispatch_selected _ _
        (fun o o' hoo ho => by rw [(sameButMonitor_id hoo).1]; exact ho)
        r.functionQueue poll sys (fun o ho => ho)
        (fun m o _ ho => by
          show (beforeCallback m sys o).id < r.next
          rw [(beforeCallback_fields m sys o).1]; exact ho)
        h.fresh
    simp only [step, handleBegin]
    rcases hdis : dispatch r.functionQueue poll sys with ⟨q', sel⟩
    rw [hdis] at hst hfr
    simp only at hst hfr
    cases sel with
    | none =>
      refine { structured := hst, fresh := hfr, running := ?_ }
      have := everyOperation_dispatch_selected _ _
        (fun o o' hoo (ho : o.active = true → o.id ∈ r.frames) => by
          show o'.active = true → o'.id ∈ r.frames
          rw [(sameButMonitor_id hoo).1, (sameButMonitor_id hoo).2]; exact ho)
        r.functionQueue poll sys (fun o ho => ho)
        (fun m o hsel _ => by rw [hdis] at hsel; simp at hsel)
        h.running
      rw [hdis] at this
      exact this
    | some id =>
      have hrun : EveryOperation (fun o => o.active = true → o.id ∈ id :: r.frames) q' := by
        have := everyOperation_dispatch_selected
          (fun o => o.active = true → o.id ∈ r.frames)
          (fun o => o.active = true → o.id ∈ id :: r.frames)
          (fun o o' hoo ho => by
            show o'.active = true → o'.id ∈ r.frames
            rw [(sameButMonitor_id hoo).1, (sameButMonitor_id hoo).2]; exact ho)
          r.functionQueue poll sys (fun o ho hact => List.mem_cons_of_mem _ (ho hact))
          (fun m o hsel _ _ => by
            rw [hdis] at hsel
            simp only [Option.some.injEq] at hsel
            show (beforeCallback m sys o).id ∈ id :: r.frames
            rw [(beforeCallback_fields m sys o).1, ← hsel]
            exact List.mem_cons_self _ _)
          h.running
        rw [hdis] at this
        exact this
      have hwf : WellFormed { functionQueue := q', frames := id :: r.frames, next := r.next } :=
        { structured := hst, fresh := hfr, running := hrun }
      simp only
      cases hinv : invocation q' id with
      | some c => exact hwf
      | none => exact wellFormed_complete q' id 0 r.frames r.next hwf
  | handleEnd answer =>
    simp only [step, handleEnd]
    cases hfr : r.frames with
    | nil => exact h
    | cons id frames =>
      simp only
      apply wellFormed_complete
      have : r = { functionQueue := r.functionQueue, frames := id :: frames, next := r.next } := by
        cases r; simp_all
      rw [← this]
      exact h

theorem wellFormed_initial : WellFormed initial where
  structured :=
    { nonEmpty := by simp [initial]
      keys := by simp [initial]
      ids := by simp [initial, allIds]
      sorted := by simp [initial]
      heads := by simp [initial] }
  fresh := everyOperation_nil _
  running := everyOperation_nil _

theorem wellFormed_run (r : Reactor) (requests : List Request) (h : WellFormed r) :
    WellFormed (run r requests) := by
  induction requests generalizing r with
  | nil => exact h
  | cons request rest ih => exact ih (step r request) (wellFormed_step r request h)

theorem wellFormed_of_reachable {r : Reactor} (h : Reachable r) : WellFormed r := by
  obtain ⟨requests, rfl⟩ := h
  exact wellFormed_run initial requests wellFormed_initial


/-! ## Function entries and their operations -/

/-- C4: in every state the reactor can reach through `newOperation`,
`cancelOperation` and `asyncHandleOperation`, every function entry of the
function queue has a non-empty operation queue: an entry whose last operation
is deleted is deleted with it. -/
theorem function_entries_have_operations (requests : List Request) :
    ∀ function ∈ (run initial requests).functionQueue, function.operations ≠ [] :=
  (wellFormed_run initial requests wellFormed_initial).structured.nonEmpty

/-- C4 on a reactor with an input operation on descriptor 3 and a monitor on
descriptor 5: the entry of the monitor has an operation. -/
theorem function_entries_have_operations_witness :
    monitorFunction ∈ (run initial twoFunctionsRequests).functionQueue ∧
    monitorFunction.operations ≠ [] :=
  ⟨by decide, function_entries_have_operations twoFunctionsRequests monitorFunction (by decide)⟩

theorem activeCount_le_one_of_tail (f : FunctionEntry)
    (h : ∀ o ∈ f.operations.tail, o.active = false) : activeCount f ≤ 1 := by
  unfold activeCount
  cases hops : f.operations with
  | nil => simp
  | cons x l =>
    rw [hops] at h
    simp only [List.tail_cons] at h
    have hl : l.filter (fun o => o.active) = [] := by
      rw [List.filter_eq_nil_iff]
      intro o ho
      simp [h o ho]
    rw [List.filter_cons]
    split
    · simp [hl]
    · simp [hl]

theorem activeOperations_ids_sublist (q : List FunctionEntry) :
    ((activeOperations q).map (fun o => o.id)).Sublist (allIds q) := by
  induction q with
  | nil => exact List.Sublist.refl _
  | cons f rest ih =>
    unfold activeOperations allIds at *
    rw [List.flatMap_cons, List.flatMap_cons, List.map_append]
    exact List.Sublist.append ((List.filter_sublist _).map _) ih

theorem activeCount_le_activeOperations {q : List FunctionEntry} {f : FunctionEntry}
    (hf : f ∈ q) : activeCount f ≤ (activeOperations q).length := by
  induction q with
  | nil => simp at hf
  | cons g rest ih =>
    unfold activeOperations
    rw [List.flatMap_cons, List.length_append]
    rcases List.mem_cons.1 hf with rfl | hf
    · unfold activeCount
      omega
    · have := ih hf
      unfold activeOperations at this
      omega

theorem activeOperations_length_le_frames {r : Reactor} (h : WellFormed r) :
    (activeOperations r.functionQueue).length ≤ r.frames.length := by
  have hnodup : ((activeOperations r.functionQueue).map (fun o => o.id)).Nodup :=
    h.structured.ids.sublist (activeOperations_ids_sublist _)
  have hsub : (activeOperations r.functionQueue).map (fun o => o.id) ⊆ r.frames := by
    intro i hi
    obtain ⟨o, ho, rfl⟩ := List.mem_map.1 hi
    unfold activeOperations at ho
    obtain ⟨f, hf, hof⟩ := List.mem_flatMap.1 ho
    rw [List.mem_filter] at hof
    exact h.running f hf o hof.1 hof.2
  have := (List.subperm_of_subset hnodup hsub).length_le
  simpa using this

/-- C5 (as amended): in every reachable reactor state, also while callbacks
are running, add operations or call `asyncHandleOperation` themselves, at most
one operation of a transfer (input or output) function entry has `active = 1`;
and the operations with `active = 1`, over all function entries, are no more
than the callbacks that are running, so that no function entry has more than
one while no callback has called `asyncHandleOperation` again. -/
theorem active_operations_bounded (requests : List Request) :
    (∀ function ∈ (run initial requests).functionQueue, function.isTransfer →
      activeCount function ≤ 1) ∧
    (activeOperations (run initial requests).functionQueue).length ≤
      (run initial requests).frames.length ∧
    ∀ function ∈ (run initial requests).functionQueue,
      activeCount function ≤ (run initial requests).frames.length := by
  have h := wellFormed_run initial requests wellFormed_initial
  refine ⟨?_, activeOperations_length_le_frames h, ?_⟩
  · intro f hf ht
    exact activeCount_le_one_of_tail f (h.structured.heads f hf ht)
  · intro f hf
    exact Nat.le_trans (activeCount_le_activeOperations hf)
      (activeOperations_length_le_frames h)

/-- C5 as stated fails: when the callback of a monitor registers another
monitor for its descriptor and calls `asyncHandleOperation`, the tail of the
queue is served while the first operation is still active, and the function
entry holds two operations with `active = 1`. -/
theorem two_active_monitors :
    ∃ function ∈ (run initial nestedMonitorRequests).functionQueue,
      activeCount function = 2 := by
  have hstate : (run initial nestedMonitorRequests).functionQueue =
      [{ fileDescriptor := 3, methods := .monitorFileInput,
         operations :=
           [{ id := 0, extension := .monitor { callback := true }, data := 0,
              monitor := some 0, error := 0, active := true, cancel := false,
              finished := false },
            { id := 1, extension := .monitor { callback := true }, data := 1,
              monitor := some 0, error := 0, active := true, cancel := false,
              finished := false }] }] := by
    decide
  rw [hstate]
  exact ⟨_, List.mem_singleton.2 rfl, by decide⟩


/-! ## Elements and their owners -/

theorem locate_middle (p : FunctionEntry → Bool) (b a : List FunctionEntry)
    (f : FunctionEntry) (hb : ∀ g ∈ b, p g = false) (hf : p f = true) :
    locate p (b ++ f :: a) = some (b, f, a) := by
  induction b with
  | nil => simp [locate, hf]
  | cons x b ih =>
    have hx : p x = false := hb x (List.mem_cons_self _ _)
    have := ih (fun g hg => hb g (List.mem_cons_of_mem _ hg))
    simp [locate, hx, this]

theorem replaceOperation_middle (id : Nat) (g : OperationEntry → Option OperationEntry)
    (l1 l2 : List OperationEntry) (o : OperationEntry) (h1 : ∀ x ∈ l1, x.id ≠ id)
    (ho : o.id = id) :
    replaceOperation id g (l1 ++ o :: l2) = l1 ++ (g o).toList ++ l2 := by
  induction l1 with
  | nil =>
    simp only [List.nil_append, replaceOperation, ho, if_true]
    cases g o <;> simp
  | cons x l1 ih =>
    have hx : x.id ≠ id := h1 x (List.mem_cons_self _ _)
    have hrec := ih (fun y hy => h1 y (List.mem_cons_of_mem _ hy))
    rw [List.cons_append]
    unfold replaceOperation
    rw [if_neg hx, hrec]
    simp

/-- An element belongs to one function entry only. -/
theorem owner_unique {q : List FunctionEntry} (h : Structured q) {f f' : FunctionEntry}
    (hf : f ∈ q) (hf' : f' ∈ q) {id : Nat} (hid : id ∈ elementIds f)
    (hid' : id ∈ elementIds f') : f = f' := by
  by_contra hne
  have hpair := (List.nodup_flatMap.1 h.ids).2
  have hsymm : Symmetric (Function.onFun List.Disjoint elementIds) := by
    intro x y hxy
    exact hxy.symm
  have := hpair.forall hsymm hf hf' hne
  exact this hid hid'

/-- The decomposition of a structured queue around an operation. -/
theorem locate_owner {q : List FunctionEntry} (h : Structured q) {f : FunctionEntry}
    (hf : f ∈ q) {o : OperationEntry} (ho : o ∈ f.operations) :
    ∃ b a l1 l2, q = b ++ f :: a ∧ f.operations = l1 ++ o :: l2 ∧
      locate (fun function => function.owns o.id) q = some (b, f, a) ∧
      (∀ x ∈ l1, x.id ≠ o.id) ∧ f.operation o.id = some o := by
  have hown : f.owns o.id = true := (owns_iff f o.id).2 (List.mem_map.2 ⟨o, ho, rfl⟩)
  cases hl : locate (fun function => function.owns o.id) q with
  | none =>
    have := locate_none hl f hf
    simp only at this
    rw [hown] at this
    simp at this
  | some r =>
    obtain ⟨b, f', a⟩ := r
    obtain ⟨hq, hown', _⟩ := locate_some hl
    have hf' : f' ∈ q := by rw [hq]; simp
    have heq : f = f' :=
      owner_unique h hf hf' ((owns_iff f o.id).1 hown) ((owns_iff f' o.id).1 hown')
    subst heq
    rcases replaceOperation_split o.id (fun _ => none) f.operations with
      ⟨hno, _⟩ | ⟨l1, o1, l2, h1, h2, h3, h4, _⟩
    · exact absurd rfl (hno o ho)
    · have hids := h.ids
      rw [hq] at hids
      obtain ⟨_, hsib⟩ := nodup_middle_ids hids h1
      have ho1 : o = o1 := by
        rw [h1] at ho
        rcases List.mem_append.1 ho with ho | ho
        · exact absurd h2 (hsib o (List.mem_append_left _ ho)).symm
        · rcases List.mem_cons.1 ho with ho | ho
          · exact ho
          · exact absurd h2 (hsib o (List.mem_append_right _ ho)).symm
      subst ho1
      exact ⟨b, a, l1, l2, hq, h1, rfl, h3, h4⟩


/-! ## Cancellation -/

/-- C7: `cancelOperation` for an operation that is not executing its callback
and is the only one in the queue of its function entry deletes the function
entry: afterwards the function queue holds the other entries, unchanged and in
their order, and none of them has the key of the deleted entry. -/
theorem cancelOperation_only_operation (requests : List Request) (function : FunctionEntry)
    (operation : OperationEntry)
    (hf : function ∈ (run initial requests).functionQueue)
    (hops : function.operations = [operation]) (hidle : operation.active = false) :
    ∃ before after,
      (run initial requests).functionQueue = before ++ function :: after ∧
      cancelOperation (run initial requests).functionQueue operation.id = before ++ after ∧
      ∀ other ∈ before ++ after, other.key ≠ function.key := by
  have hs := (wellFormed_run initial requests wellFormed_initial).structured
  obtain ⟨b, a, l1, l2, hq, _, hl, _, hop⟩ :=
    locate_owner hs hf (show operation ∈ function.operations by rw [hops]; simp)
  refine ⟨b, a, hq, ?_, ?_⟩
  · rw [cancelOperation_eq, hl]
    simp only [hop, hidle, Bool.false_eq_true, if_false, hops, List.length_singleton,
      if_true]
  · intro other hother hkey
    have hkeys := hs.keys
    rw [hq, List.map_append, List.map_cons] at hkeys
    have hmid := List.nodup_middle.1 hkeys
    rw [List.nodup_cons] at hmid
    apply hmid.1
    rw [← List.map_append, ← hkey]
    exact List.mem_map_of_mem _ hother

/-- C7 on a reactor with an input operation on descriptor 3 and a monitor on
descriptor 5: cancelling the monitor leaves the entry of descriptor 3 alone. -/
theorem cancelOperation_only_operation_witness :
    ∃ before after,
      (run initial twoFunctionsRequests).functionQueue = before ++ monitorFunction :: after ∧
      cancelOperation (run initial twoFunctionsRequests).functionQueue 1 = before ++ after ∧
      ∀ other ∈ before ++ after, other.key ≠ monitorFunction.key :=
  cancelOperation_only_operation twoFunctionsRequests monitorFunction
    { id := 1, extension := .monitor { callback := true }, data := 7, monitor := none,
      error := 0, active := false, cancel := false, finished := false }
    (by decide) rfl rfl

/-- An operation whose `cancel` bit is set does not survive the return of its
callback. -/
theorem complete_deletes_cancelled (q : List FunctionEntry) (id answer : Nat)
    (hs : Structured q)
    (hc : ∀ f ∈ q, ∀ o ∈ f.operations, o.id = id → o.cancel = true) :
    id ∉ allIds (complete q id answer) := by
  rw [complete_eq]
  cases hl : locate (fun function => function.owns id) q with
  | none =>
    intro hmem
    obtain ⟨f, hf, o, ho, hid⟩ := mem_allIds.1 hmem
    have := locate_none hl f hf
    simp only at this
    rw [(owns_iff f id).2 (List.mem_map.2 ⟨o, ho, hid⟩)] at this
    simp at this
  | some r =>
    obtain ⟨b, f, a⟩ := r
    obtain ⟨hq, hown, _⟩ := locate_some hl
    obtain ⟨o0, ho0, hid0⟩ := List.mem_map.1 ((owns_iff f id).1 hown)
    rcases replaceOperation_split id (afterCallback f.methods answer) f.operations with
      ⟨hno, _⟩ | ⟨l1, o, l2, h1, hoid, _, _, h5⟩
    · exact absurd hid0 (hno o0 ho0)
    · have hids := hs.ids
      rw [hq] at hids
      obtain ⟨hothers, hsiblings⟩ := nodup_middle_ids hids h1
      rw [hoid] at hothers hsiblings
      have hcancel : o.cancel = true :=
        hc f (by rw [hq]; simp) o (by rw [h1]; simp) hoid
      rw [afterCallback_cancel f.methods answer o hcancel] at h5
      simp only [Option.toList, List.append_nil] at h5
      have hba : id ∉ allIds (b ++ a) := by
        intro hmem
        obtain ⟨g, hg, x, hx, hid⟩ := mem_allIds.1 hmem
        exact hothers g hg x hx hid
      simp only
      split_ifs
      · exact hba
      · rw [allIds_append]
        intro hmem
        rcases List.mem_append.1 hmem with hmem | hmem
        · exact hba hmem
        · simp only [allIds, List.flatMap_cons, List.flatMap_nil, List.append_nil, elementIds,
            h5] at hmem
          obtain ⟨x, hx, hid⟩ := List.mem_map.1 hmem
          exact hsiblings x hx hid

theorem cancelPending_newOperation (id : Nat) (r : Reactor) (fd : Int)
    (m : FunctionMethods) (extension : Extension) (data : Nat) (allocation : Allocation)
    (h : CancelPending id r) :
    CancelPending id (newOperation r fd m extension data allocation).1 := by
  refine ⟨everyOperation_newOperation _ r fd m extension data allocation h.1 ?_,
    Nat.lt_of_lt_of_le h.2
      (newOperation_frames_next r fd m extension data allocation).2.1⟩
  intro hid
  have := h.2
  simp only at hid
  omega

theorem cancelPending_complete (id : Nat) (q : List FunctionEntry) (popped answer : Nat)
    (h : EveryOperation (fun o => o.id = id → o.cancel = true) q) :
    EveryOperation (fun o => o.id = id → o.cancel = true) (complete q popped answer) := by
  apply everyOperation_complete _ q popped answer h
  intro b f a o o' _ _ hP hafter hid
  have hs := afterCallback_some hafter
  rw [hs.1] at hid
  have := hP hid
  rw [hs.2.2] at this
  simp at this

/-- A pending cancellation stays pending whatever the reactor is asked. -/
theorem cancelPending_step (id : Nat) (r : Reactor) (request : Request)
    (h : CancelPending id r) : CancelPending id (step r request) := by
  cases request with
  | asyncMonitorFileInput fd callback data ea al =>
    simp only [step, newFileMonitorOperation]
    split_ifs
    · exact cancelPending_newOperation id r fd _ _ data al h
    · exact h
  | asyncMonitorFileOutput fd callback data ea al =>
    simp only [step, newFileMonitorOperation]
    split_ifs
    · exact cancelPending_newOperation id r fd _ _ data al h
    · exact h
  | asyncMonitorFileAlert fd callback data ea al =>
    simp only [step, newFileMonitorOperation]
    split_ifs
    · exact cancelPending_newOperation id r fd _ _ data al h
    · exact h
  | asyncReadFile fd size callback data ea al =>
    simp only [step, newInputOperation, newTransferOperation]
    split_ifs
    · exact cancelPending_newOperation id r fd _ _ data al h
    · exact h
  | asyncWriteFile fd buffer size callback data ea al =>
    simp only [step, newOutputOperation, newTransferOperation]
    split_ifs
    · exact cancelPending_newOperation id r fd _ _ data al h
    · exact h
  | cancelOperation id' =>
    exact ⟨everyOperation_cancelOperation _ _ id' h.1 (fun o _ _ => rfl), h.2⟩
  | handleBegin poll sys =>
    have hd : EveryOperation (fun o => o.id = id → o.cancel = true)
        (dispatch r.functionQueue poll sys).1 :=
      everyOperation_dispatch _
        (fun o o' hoo ho => by
          unfold OperationEntry.sameButMonitor at hoo
          rw [hoo]
          exact ho)
        r.functionQueue poll sys
        (fun m o ho => by
          show (beforeCallback m sys o).id = id → (beforeCallback m sys o).cancel = true
          rw [(beforeCallback_fields m sys o).1, (beforeCallback_fields m sys o).2.2]
          exact ho)
        h.1
    simp only [step, handleBegin]
    rcases hdis : dispatch r.functionQueue poll sys with ⟨q', sel⟩
    rw [hdis] at hd
    cases sel with
    | none => exact ⟨hd, h.2⟩
    | some popped =>
      simp only
      cases hinv : invocation q' popped with
      | some c => exact ⟨hd, h.2⟩
      | none => exact ⟨cancelPending_complete id q' popped 0 hd, h.2⟩
  | handleEnd answer =>
    simp only [step, handleEnd]
    cases hfr : r.frames with
    | nil => exact h
    | cons popped frames => exact ⟨cancelPending_complete id _ popped answer h.1, h.2⟩

theorem cancelPending_run (id : Nat) (r : Reactor) (requests : List Request)
    (h : CancelPending id r) : CancelPending id (run r requests) := by
  induction requests generalizing r with
  | nil => exact h
  | cons request rest ih => exact ih (step r request) (cancelPending_step id r request h)

/-- C8: `cancelOperation` for an operation whose callback is executing only
sets its `cancel` bit: every function entry and every operation stays queued.
Whatever happens next, when the callback returns (the operation is the
innermost one running and `asyncHandleOperation` resumes), the operation is
deleted, whatever the callback answered. -/
theorem cancelOperation_active_is_deferred (requests : List Request)
    (function : FunctionEntry) (operation : OperationEntry)
    (hf : function ∈ (run initial requests).functionQueue)
    (ho : operation ∈ function.operations) (hactive : operation.active = true) :
    (∃ before after l1 l2,
      (run initial requests).functionQueue = before ++ function :: after ∧
      function.operations = l1 ++ operation :: l2 ∧
      cancelOperation (run initial requests).functionQueue operation.id =
        before ++
          { function with
            operations := l1 ++ { operation with cancel := true } :: l2 } :: after) ∧
    ∀ later answer callers,
      (run (step (run initial requests) (.cancelOperation operation.id)) later).frames =
        operation.id :: callers →
      (handleEnd (run (step (run initial requests) (.cancelOperation operation.id)) later)
        answer).frames = callers ∧
      operation.id ∉
        allIds
          (handleEnd (run (step (run initial requests) (.cancelOperation operation.id)) later)
            answer).functionQueue := by
  have hwf := wellFormed_run initial requests wellFormed_initial
  have hs := hwf.structured
  obtain ⟨b, a, l1, l2, hq, hops, hl, hl1, hop⟩ := locate_owner hs hf ho
  have hcancel : cancelOperation (run initial requests).functionQueue operation.id =
      b ++ { function with
             operations := l1 ++ { operation with cancel := true } :: l2 } :: a := by
    rw [cancelOperation_eq, hl]
    simp only [hop, hactive, if_true]
    rw [hops, replaceOperation_middle operation.id _ l1 l2 operation hl1 rfl]
    simp [hactive]
  refine ⟨⟨b, a, l1, l2, hq, hops, hcancel⟩, ?_⟩
  have hpending : CancelPending operation.id
      (step (run initial requests) (.cancelOperation operation.id)) := by
    refine ⟨?_, hwf.fresh function hf operation ho⟩
    intro g hg x hx hid
    have hids := hs.ids
    rw [hq] at hids
    obtain ⟨hothers, hsiblings⟩ := nodup_middle_ids hids hops
    simp only [step] at hg
    rw [hcancel] at hg
    rcases List.mem_append.1 hg with hg | hg
    · exact absurd hid (hothers g (List.mem_append_left _ hg) x hx)
    · rcases List.mem_cons.1 hg with rfl | hg
      · simp only at hx
        rcases List.mem_append.1 hx with hx | hx
        · exact absurd hid (hsiblings x (List.mem_append_left _ hx))
        · rcases List.mem_cons.1 hx with rfl | hx
          · rfl
          · exact absurd hid (hsiblings x (List.mem_append_right _ hx))
      · exact absurd hid (hothers g (List.mem_append_right _ hg) x hx)
  intro later answer callers hframes
  have hlater := cancelPending_run operation.id _ later hpending
  have hs2 : Structured
      (run (step (run initial requests) (.cancelOperation operation.id)) later).functionQueue :=
    (wellFormed_run _ later (wellFormed_step _ _ hwf)).structured
  simp only [handleEnd, hframes, true_and]
  exact complete_deletes_cancelled _ _ _ hs2 hlater.1

/-- C8 on a monitor whose callback cancels its own operation and then answers
true: the operation and, being the last, its function entry are deleted. -/
theorem cancelOperation_active_is_deferred_witness :
    (handleEnd (run (step (run initial runningMonitorRequests) (.cancelOperation 0)) [])
      1).frames = [] ∧
    0 ∉ allIds
      (handleEnd (run (step (run initial runningMonitorRequests) (.cancelOperation 0)) [])
        1).functionQueue :=
  (cancelOperation_active_is_deferred runningMonitorRequests
    { fileDescriptor := 5, methods := .monitorFileInput, operations := [runningMonitor] }
    runningMonitor (by decide) (by decide) rfl).2 [] 1 [] (by decide)

/-! ## The order of service -/

theorem getActiveOperationElement_id (f : FunctionEntry) :
    (getActiveOperationElement f).map (fun o => o.id) =
      if f.methods.invokeCallback = .invokeMonitorCallback then (elementIds f).getLast?
      else (elementIds f).head? := by
  unfold getActiveOperationElement elementIds
  split
  · rw [List.getLast?_map]
  · rw [List.head?_map]

theorem pairwise_lt_head_le {l : List Nat} (h : l.Pairwise (fun i j => i < j)) {i : Nat}
    (hi : l.head? = some i) : ∀ j ∈ l, i ≤ j := by
  cases l with
  | nil => simp at hi
  | cons x l =>
    simp only [List.head?_cons, Option.some.injEq] at hi
    subst hi
    intro j hj
    rcases List.mem_cons.1 hj with rfl | hj
    · exact Nat.le_refl _
    · exact Nat.le_of_lt ((List.pairwise_cons.1 h).1 j hj)

/-- C6: the operation that `asyncHandleOperation` finishes and whose callback
it invokes is the active element of its function entry.  For a transfer (input
or output) entry this is the head of the queue, and it is the oldest operation
queued for that file descriptor and kind (elements are numbered in the order
`newOperation` enqueues them), so no later transfer is served while an earlier
one is queued; for a monitor-style entry it is the tail of the queue. -/
theorem transfers_are_served_in_order (requests : List Request) (poll : PollResult)
    (sys : Nat → SysResult) (answer id : Nat)
    (h : (asyncHandleOperation (run initial requests) poll sys answer).invoked = [id]) :
    ∃ function ∈ (run initial requests).functionQueue,
      (getActiveOperationElement function).map (fun o => o.id) = some id ∧
      (function.isTransfer →
        function.operations.head?.map (fun o => o.id) = some id ∧
        ∀ other ∈ (run initial requests).functionQueue, other.key = function.key →
          ∀ o ∈ other.operations, id ≤ o.id) ∧
      (¬ function.isTransfer →
        function.operations.getLast?.map (fun o => o.id) = some id) := by
  have hs := (wellFormed_run initial requests wellFormed_initial).structured
  obtain ⟨q1, hsame, hd⟩ := dispatch_spec (run initial requests).functionQueue poll sys
  unfold asyncHandleOperation at h
  rcases hd with ⟨hnone, _⟩ | ⟨b, f1, a, o, hq1, hact, _, hsel, _⟩
  · rcases hdis : dispatch (run initial requests).functionQueue poll sys with ⟨q', sel⟩
    rw [hdis] at h hnone
    simp only at hnone
    subst hnone
    simp at h
  · rcases hdis : dispatch (run initial requests).functionQueue poll sys with ⟨q', sel⟩
    rw [hdis] at h hsel
    simp only at hsel
    subst hsel
    simp only [List.cons.injEq, and_true] at h
    obtain ⟨f0, hf0, hrel⟩ := forall₂_mem_right hsame f1 (by rw [hq1]; simp)
    have hids : elementIds f1 = elementIds f0 := sameButMonitor_elementIds hrel
    have hactive : (getActiveOperationElement f0).map (fun o => o.id) = some id := by
      rw [getActiveOperationElement_id, ← hids, ← hrel.2.1, ← getActiveOperationElement_id,
        hact, Option.map_some', h]
    refine ⟨f0, hf0, hactive, ?_, ?_⟩
    · intro ht
      unfold FunctionEntry.isTransfer at ht
      have hhead : f0.operations.head?.map (fun o => o.id) = some id := by
        unfold getActiveOperationElement at hactive
        rw [if_neg ht] at hactive
        exact hactive
      refine ⟨hhead, ?_⟩
      intro other hother hkey x hx
      have heq : other = f0 := List.inj_on_of_nodup_map hs.keys hother hf0 hkey
      subst heq
      refine pairwise_lt_head_le (hs.sorted other hother) ?_ x.id
        (List.mem_map.2 ⟨x, hx, rfl⟩)
      unfold elementIds
      rw [List.head?_map]
      exact hhead
    · intro ht
      unfold FunctionEntry.isTransfer at ht
      have hm : f0.methods.invokeCallback = .invokeMonitorCallback := by
        by_contra hne
        exact ht hne
      unfold getActiveOperationElement at hactive
      rw [if_pos hm] at hactive
      exact hactive

/-- C6 with two input operations queued on one descriptor: the first is
served. -/
theorem transfers_are_served_in_order_witness :
    ∃ function ∈ (run initial twoReadsRequests).functionQueue,
      (getActiveOperationElement function).map (fun o => o.id) = some 0 ∧
      (function.isTransfer →
        function.operations.head?.map (fun o => o.id) = some 0 ∧
        ∀ other ∈ (run initial twoReadsRequests).functionQueue, other.key = function.key →
          ∀ o ∈ other.operations, 0 ≤ o.id) ∧
      (¬ function.isTransfer →
        function.operations.getLast?.map (fun o => o.id) = some 0) :=
  transfers_are_served_in_order twoReadsRequests allReady (readFrom [65]) 1 0 (by decide)


/-! ## One operation on its own -/

theorem locate_singleton (p : FunctionEntry → Bool) (f : FunctionEntry) (h : p f = true) :
    locate p [f] = some ([], f, []) := by
  simp [locate, h]

/-- A reactor whose only operation is an idle input operation that is finished
or whose descriptor is ready: `asyncHandleOperation` does to the operation what
`handleOperation` says, and deletes the function entry with it. -/
theorem asyncHandleOperation_single_input (fd : Int) (o : OperationEntry)
    (frames : List Nat) (next : Nat) (poll : PollResult) (sys : Nat → SysResult)
    (answer : Nat) (hidle : o.active = false)
    (hready : o.finished = true ∨ (0 < poll.result ∧ poll.ready 0 = true)) :
    (asyncHandleOperation
        { functionQueue := [{ fileDescriptor := fd, methods := .transferInput,
                              operations := [o] }],
          frames := frames, next := next } poll sys answer).reactor.functionQueue =
      match handleOperation .transferInput sys answer
          { o with monitor := if o.finished then none else some 0 } with
      | some o' => [{ fileDescriptor := fd, methods := .transferInput, operations := [o'] }]
      | none => [] := by
  by_cases hfin : o.finished = true
  · have hd : dispatch [{ fileDescriptor := fd, methods := .transferInput, operations := [o] }]
        poll sys =
        ([{ fileDescriptor := fd, methods := .transferInput,
            operations := [beforeCallback .transferInput sys { o with monitor := none }] }],
         some o.id) := by
      simp [dispatch, selectFunction, processAddFunctionMonitor, addFunctionMonitor,
        getActiveOperationElement, FunctionMethods.invokeCallback, modifyActive, hidle, hfin,
        List.modifyHead]
    rw [if_pos hfin]
    simp only [asyncHandleOperation, hd]
    rw [complete_eq, locate_singleton _ _
      (by simp [FunctionEntry.owns, (beforeCallback_fields _ _ _).1])]
    simp only [handleOperation, replaceOperation, (beforeCallback_fields _ _ _).1, if_true]
    generalize afterCallback .transferInput answer
      (beforeCallback .transferInput sys { o with monitor := none }) = result
    cases result <;> simp
  · have hr : 0 < poll.result ∧ poll.ready 0 = true := by
      rcases hready with h | h
      · exact absurd h hfin
      · exact h
    have hfin' : o.finished = false := by simpa using hfin
    have hd : dispatch [{ fileDescriptor := fd, methods := .transferInput, operations := [o] }]
        poll sys =
        ([{ fileDescriptor := fd, methods := .transferInput,
            operations := [beforeCallback .transferInput sys { o with monitor := some 0 }] }],
         some o.id) := by
      simp [dispatch, selectFunction, processAddFunctionMonitor, addFunctionMonitor,
        getActiveOperationElement, FunctionMethods.invokeCallback, modifyActive, hidle, hfin',
        List.modifyHead, locate, testFunctionMonitor, hr.1, hr.2]
    rw [if_neg hfin]
    simp only [asyncHandleOperation, hd]
    rw [complete_eq, locate_singleton _ _
      (by simp [FunctionEntry.owns, (beforeCallback_fields _ _ _).1])]
    simp only [handleOperation, replaceOperation, (beforeCallback_fields _ _ _).1, if_true]
    generalize afterCallback .transferInput answer
      (beforeCallback .transferInput sys { o with monitor := some 0 }) = result
    cases result <;> simp


/-! ## The screen reader core -/

theorem toInt_eq {i : Int} (h1 : -2147483648 ≤ i) (h2 : i < 2147483648) : toInt i = i := by
  unfold toInt; omega

theorem toUnsigned_eq {i : Int} (h1 : 0 ≤ i) (h2 : i < 4294967296) :
    (toUnsigned i : Int) = i := by
  unfold toUnsigned; omega

theorem toUnsigned_toNat {i : Int} (h1 : 0 ≤ i) (h2 : i < 4294967296) :
    toUnsigned i = i.toNat := by
  unfold toUnsigned; omega

theorem toUnsigned_natCast (n : Nat) (h : n < 4294967296) : toUnsigned (n : Int) = n := by
  unfold toUnsigned; omega

theorem limitValue_le (maximum value : Int) : limitValue maximum value ≤ maximum := by
  unfold limitValue; split <;> omega

theorem limitValue_nonneg_iff {maximum : Int} (h : 0 ≤ maximum) (value : Int) :
    0 ≤ limitValue maximum value ↔ 0 ≤ value := by
  unfold limitValue; split <;> omega

theorem cancelDelayedCursorTrackingAlarm_brl (c : Core) :
    (cancelDelayedCursorTrackingAlarm c).brl = c.brl := by
  unfold cancelDelayedCursorTrackingAlarm; split <;> rfl

theorem cancelDelayedCursorTrackingAlarm_scr (c : Core) :
    (cancelDelayedCursorTrackingAlarm c).scr = c.scr := by
  unfold cancelDelayedCursorTrackingAlarm; split <;> rfl

theorem cancelDelayedCursorTrackingAlarm_ses (c : Core) :
    (cancelDelayedCursorTrackingAlarm c).ses = c.ses := by
  unfold cancelDelayedCursorTrackingAlarm; split <;> rfl

theorem cancelDelayedCursorTrackingAlarm_prefs (c : Core) :
    (cancelDelayedCursorTrackingAlarm c).prefs = c.prefs := by
  unfold cancelDelayedCursorTrackingAlarm; split <;> rfl

theorem cancelDelayedCursorTrackingAlarm_textCount (c : Core) :
    (cancelDelayedCursorTrackingAlarm c).textCount = c.textCount := by
  unfold cancelDelayedCursorTrackingAlarm; split <;> rfl

theorem cancelDelayedCursorTrackingAlarm_isContracted (c : Core) :
    (cancelDelayedCursorTrackingAlarm c).isContracted = c.isContracted := by
  unfold cancelDelayedCursorTrackingAlarm; split <;> rfl

theorem cancelDelayedCursorTrackingAlarm_alarm (c : Core) :
    (cancelDelayedCursorTrackingAlarm c).delayedCursorTrackingAlarm = none := by
  unfold cancelDelayedCursorTrackingAlarm
  split
  · rfl
  · simpa using ‹¬ c.delayedCursorTrackingAlarm.isSome = true›

theorem setSessionEntry_brl (source : SessionSource) (c : Core) :
    (setSessionEntry source c).brl = c.brl := by
  unfold setSessionEntry
  dsimp only
  split_ifs <;> first | rfl | exact cancelDelayedCursorTrackingAlarm_brl _

theorem updateSessionAttributes_scr (source : SessionSource) (c : Core) :
    (updateSessionAttributes source c).scr = (setSessionEntry source c).scr := rfl

theorem updateSessionAttributes_brl (source : SessionSource) (c : Core) :
    (updateSessionAttributes source c).brl = (setSessionEntry source c).brl := rfl

/-- C11 (refuted as stated): a window column of -1 is still -1 after
`updateSessionAttributes`, so the lower bound `0 <= winx` does not hold for
every prior session value. -/
theorem updateSessionAttributes_keeps_negative_winx :
    (updateSessionAttributes (sameSession negativeWindow) negativeWindow).ses.winx = -1 ∧
    ¬ (0 ≤ (updateSessionAttributes (sameSession negativeWindow) negativeWindow).ses.winx ∧
        (updateSessionAttributes (sameSession negativeWindow) negativeWindow).ses.winx ≤
          max ((updateSessionAttributes (sameSession negativeWindow) negativeWindow).scr.cols - 1) 0) := by
  decide

/-- C11 (amended): after `updateSessionAttributes` the window and motion
positions are at most `max (cols - 1) 0` (columns) and
`max (rows - textRows) 0` (rows) whatever they were before, and each of them
is non-negative exactly when it was non-negative in the session entry that
the call selected. -/
theorem updateSessionAttributes_bounds (source : SessionSource) (c : Core)
    (hrows : c.brl.textRows < 2147483648) :
    ((updateSessionAttributes source c).ses.winx ≤
        max ((updateSessionAttributes source c).scr.cols - 1) 0 ∧
      (updateSessionAttributes source c).ses.motx ≤
        max ((updateSessionAttributes source c).scr.cols - 1) 0 ∧
      (updateSessionAttributes source c).ses.winy ≤
        max ((updateSessionAttributes source c).scr.rows -
          (updateSessionAttributes source c).brl.textRows) 0 ∧
      (updateSessionAttributes source c).ses.moty ≤
        max ((updateSessionAttributes source c).scr.rows -
          (updateSessionAttributes source c).brl.textRows) 0) ∧
    ((0 ≤ (updateSessionAttributes source c).ses.winx ↔ 0 ≤ (setSessionEntry source c).ses.winx) ∧
      (0 ≤ (updateSessionAttributes source c).ses.motx ↔ 0 ≤ (setSessionEntry source c).ses.motx) ∧
      (0 ≤ (updateSessionAttributes source c).ses.winy ↔ 0 ≤ (setSessionEntry source c).ses.winy) ∧
      (0 ≤ (updateSessionAttributes source c).ses.moty ↔ 0 ≤ (setSessionEntry source c).ses.moty)) := by
  have hbrl : (setSessionEntry source c).brl = c.brl := setSessionEntry_brl source c
  have hcast : toInt ((setSessionEntry source c).brl.textRows : Int) =
      ((setSessionEntry source c).brl.textRows : Int) := by
    rw [hbrl]; exact toInt_eq (by omega) (by omega)
  rw [updateSessionAttributes_scr, updateSessionAttributes_brl]
  simp only [updateSessionAttributes, hcast]
  refine ⟨⟨limitValue_le _ _, limitValue_le _ _, limitValue_le _ _, limitValue_le _ _⟩,
    limitValue_nonneg_iff (le_max_right _ _) _, limitValue_nonneg_iff (le_max_right _ _) _,
    limitValue_nonneg_iff (le_max_right _ _) _, limitValue_nonneg_iff (le_max_right _ _) _⟩

/-- C11 (amended), at the sample state with the window column -1: the upper
bound holds, and the column is non-negative afterwards only if it was
before. -/
theorem updateSessionAttributes_bounds_witness :
    negativeWindow.brl.textRows < 2147483648 ∧
    (updateSessionAttributes (sameSession negativeWindow) negativeWindow).ses.winx ≤
      max ((updateSessionAttributes (sameSession negativeWindow) negativeWindow).scr.cols - 1) 0 ∧
    (0 ≤ (updateSessionAttributes (sameSession negativeWindow) negativeWindow).ses.winx ↔
      0 ≤ (setSessionEntry (sameSession negativeWindow) negativeWindow).ses.winx) :=
  ⟨by with_unfolding_all decide,
    (updateSessionAttributes_bounds (sameSession negativeWindow) negativeWindow (by with_unfolding_all decide)).1.1,
    (updateSessionAttributes_bounds (sameSession negativeWindow) negativeWindow (by with_unfolding_all decide)).2.1⟩

/-- C12 (refuted as stated): a speech cursor column of 100 on a screen of 80
columns is still 100 after `updateSessionAttributes`, above
`max (cols - 1) 0 = 79`. -/
theorem updateSessionAttributes_keeps_spkx :
    (updateSessionAttributes (sameSession farSpeechCursor) farSpeechCursor).ses.spkx = 100 ∧
    max ((updateSessionAttributes (sameSession farSpeechCursor) farSpeechCursor).scr.cols - 1) 0 = 79 ∧
    ¬ ((updateSessionAttributes (sameSession farSpeechCursor) farSpeechCursor).ses.spkx ≤
        max ((updateSessionAttributes (sameSession farSpeechCursor) farSpeechCursor).scr.cols - 1) 0) := by
  decide

/-- C12 (amended): after `updateSessionAttributes` the window column `winx`
and the motion column `motx` are at most `max (cols - 1) 0`; the columns
`spkx`, `trkx` and `dctx` are those of the selected session entry,
unchanged. -/
theorem updateSessionAttributes_columns (source : SessionSource) (c : Core) :
    (updateSessionAttributes source c).ses.winx ≤
      max ((updateSessionAttributes source c).scr.cols - 1) 0 ∧
    (updateSessionAttributes source c).ses.motx ≤
      max ((updateSessionAttributes source c).scr.cols - 1) 0 ∧
    (updateSessionAttributes source c).ses.spkx = (setSessionEntry source c).ses.spkx ∧
    (updateSessionAttributes source c).ses.trkx = (setSessionEntry source c).ses.trkx ∧
    (updateSessionAttributes source c).ses.dctx = (setSessionEntry source c).ses.dctx := by
  rw [updateSessionAttributes_scr]
  exact ⟨limitValue_le _ _, limitValue_le _ _, rfl, rfl, rfl⟩

theorem natCast_div_mul (n t : Nat) : ((n / t * t : Nat) : Int) = (n : Int) / (t : Int) * (t : Int) := by
  push_cast; rfl

theorem placeBrailleWindowHorizontally_winx_paging (c : Core) (x : Int)
    (hsliding : c.prefs.slidingBrailleWindow = false)
    (hx : 0 ≤ x) (hint : x < 2147483648)
    (hcount : 1 ≤ c.textCount) :
    (placeBrailleWindowHorizontally x c).ses.winx = x / c.textCount * c.textCount := by
  have hle : x / c.textCount * c.textCount ≤ x := Int.ediv_mul_le x (by omega)
  have hnn : 0 ≤ x / c.textCount * c.textCount :=
    Int.mul_nonneg (Int.ediv_nonneg hx (by omega)) (by omega)
  unfold placeBrailleWindowHorizontally
  rw [if_neg (by simp [hsliding])]
  show toInt ((toUnsigned x / c.textCount * c.textCount : Nat)) = _
  rw [natCast_div_mul, toUnsigned_eq hx (by omega)]
  exact toInt_eq (by omega) (by omega)

/-- C13: without the sliding window, for a column `x >= 0` (an `int`) and
`textCount >= 1`, `placeBrailleWindowHorizontally x` leaves
`winx = (x / textCount) * textCount`, which is a multiple of `textCount`
with `winx <= x < winx + textCount`, and leaves `winy` unchanged. -/
theorem placeBrailleWindowHorizontally_paging (c : Core) (x : Int)
    (hsliding : c.prefs.slidingBrailleWindow = false)
    (hx : 0 ≤ x) (hint : x < 2147483648)
    (hcount : 1 ≤ c.textCount) (hunsigned : c.textCount < 4294967296) :
    (placeBrailleWindowHorizontally x c).ses.winx = x / c.textCount * c.textCount ∧
    (c.textCount : Int) ∣ (placeBrailleWindowHorizontally x c).ses.winx ∧
    (placeBrailleWindowHorizontally x c).ses.winx ≤ x ∧
    x < (placeBrailleWindowHorizontally x c).ses.winx + c.textCount ∧
    (placeBrailleWindowHorizontally x c).ses.winy = c.ses.winy := by
  have hpos : (0 : Int) < c.textCount := by omega
  have hle : x / c.textCount * c.textCount ≤ x := Int.ediv_mul_le x (by omega)
  have hlt : x < x / c.textCount * c.textCount + c.textCount := by
    have := Int.lt_ediv_add_one_mul_self x hpos
    rw [add_mul, one_mul] at this
    exact this
  have hnn : 0 ≤ x / c.textCount * c.textCount :=
    Int.mul_nonneg (Int.ediv_nonneg hx (by omega)) (by omega)
  have hwinx := placeBrailleWindowHorizontally_winx_paging c x hsliding hx hint hcount
  refine ⟨hwinx, ?_, ?_, ?_, ?_⟩
  · rw [hwinx]; exact Dvd.intro_left _ rfl
  · rw [hwinx]; exact hle
  · rw [hwinx]; exact hlt
  · unfold placeBrailleWindowHorizontally
    rw [if_neg (by simp [hsliding])]

/-- C13 at the sample display of 40 cells: column 50 gives the window column
40, and the row stays 0. -/
theorem placeBrailleWindowHorizontally_paging_witness :
    (placeBrailleWindowHorizontally 50 pagingCore).ses.winx = 50 / (40 : Nat) * (40 : Nat) ∧
    ((40 : Nat) : Int) ∣ (placeBrailleWindowHorizontally 50 pagingCore).ses.winx ∧
    (placeBrailleWindowHorizontally 50 pagingCore).ses.winx ≤ 50 ∧
    50 < (placeBrailleWindowHorizontally 50 pagingCore).ses.winx + (40 : Nat) ∧
    (placeBrailleWindowHorizontally 50 pagingCore).ses.winy = 0 :=
  placeBrailleWindowHorizontally_paging pagingCore 50 (by with_unfolding_all decide) (by with_unfolding_all decide) (by with_unfolding_all decide)
    (by with_unfolding_all decide) (by with_unfolding_all decide)

theorem slideBrailleWindowVertically_winx (y : Int) (c : Core) :
    (slideBrailleWindowVertically y c).ses.winx = c.ses.winx := by
  unfold slideBrailleWindowVertically
  split_ifs <;> rfl

theorem slideBrailleWindowVertically_winy (y : Int) (c : Core)
    (hy : Small y) (hwiny : Small c.ses.winy) (hrows : Small c.brl.textRows) :
    (slideBrailleWindowVertically y c).ses.winy =
      if y < c.ses.winy then y
      else if y ≥ c.ses.winy + c.brl.textRows then y - ((c.brl.textRows : Int) - 1)
      else c.ses.winy := by
  unfold Small at hy hwiny hrows
  have h1 : toInt (c.ses.winy + c.brl.textRows) = c.ses.winy + c.brl.textRows :=
    toInt_eq (by omega) (by omega)
  have h2 : toInt (y - ((c.brl.textRows : Int) - 1)) = y - ((c.brl.textRows : Int) - 1) :=
    toInt_eq (by omega) (by omega)
  unfold slideBrailleWindowVertically
  rw [h1, h2]
  split_ifs <;> rfl

/-- C14: for row, window row and display height within the range in which
`int` arithmetic is exact, `slideBrailleWindowVertically y` sets `winy` to
`y` when `y < winy`, to `y - (textRows - 1)` when `y >= winy + textRows`, and
changes nothing otherwise; `winx` is untouched; and for `textRows >= 1` the
row `y` ends inside `[winy, winy + textRows)` and a second call with the same
`y` changes nothing. -/
theorem slideBrailleWindowVertically_spec (y : Int) (c : Core)
    (hy : Small y) (hwiny : Small c.ses.winy) (hrows : Small c.brl.textRows) :
    (y < c.ses.winy → (slideBrailleWindowVertically y c).ses.winy = y) ∧
    (¬ y < c.ses.winy → y ≥ c.ses.winy + c.brl.textRows →
      (slideBrailleWindowVertically y c).ses.winy = y - ((c.brl.textRows : Int) - 1)) ∧
    (¬ y < c.ses.winy → ¬ y ≥ c.ses.winy + c.brl.textRows →
      slideBrailleWindowVertically y c = c) ∧
    (slideBrailleWindowVertically y c).ses.winx = c.ses.winx ∧
    (1 ≤ c.brl.textRows →
      (slideBrailleWindowVertically y c).ses.winy ≤ y ∧
      y < (slideBrailleWindowVertically y c).ses.winy + c.brl.textRows ∧
      slideBrailleWindowVertically y (slideBrailleWindowVertically y c) =
        slideBrailleWindowVertically y c) := by
  have hwinyEq := slideBrailleWindowVertically_winy y c hy hwiny hrows
  have h1 : toInt (c.ses.winy + c.brl.textRows) = c.ses.winy + c.brl.textRows := by
    unfold Small at hy hwiny hrows
    exact toInt_eq (by omega) (by omega)
  refine ⟨?_, ?_, ?_, slideBrailleWindowVertically_winx y c, ?_⟩
  · intro h; rw [hwinyEq, if_pos h]
  · intro h h'; rw [hwinyEq, if_neg h, if_pos h']
  · intro h h'
    unfold slideBrailleWindowVertically
    rw [if_neg h, if_neg (by rw [h1]; exact h')]
  · intro hone
    have hbrl : (slideBrailleWindowVertically y c).brl = c.brl := by
      unfold slideBrailleWindowVertically; split_ifs <;> rfl
    have hin : (slideBrailleWindowVertically y c).ses.winy ≤ y ∧
        y < (slideBrailleWindowVertically y c).ses.winy + c.brl.textRows := by
      rw [hwinyEq]; split_ifs <;> omega
    refine ⟨hin.1, hin.2, ?_⟩
    have hsmall : Small (slideBrailleWindowVertically y c).ses.winy := by
      unfold Small at hy hwiny hrows ⊢
      rw [hwinyEq]; split_ifs <;> omega
    have h2 : toInt ((slideBrailleWindowVertically y c).ses.winy +
        (slideBrailleWindowVertically y c).brl.textRows) =
        (slideBrailleWindowVertically y c).ses.winy + c.brl.textRows := by
      rw [hbrl]
      unfold Small at hsmall hrows
      exact toInt_eq (by omega) (by omega)
    generalize slideBrailleWindowVertically y c = d at hin h2 ⊢
    unfold slideBrailleWindowVertically
    rw [if_neg (by omega), if_neg (by rw [h2]; omega)]

/-- C14 on the sample display of one row with the window on row 0: row 10
becomes the window row. -/
theorem slideBrailleWindowVertically_spec_witness :
    Small 10 ∧ Small sampleCore.ses.winy ∧ Small sampleCore.brl.textRows ∧
    (slideBrailleWindowVertically 10 sampleCore).ses.winy = 10 ∧
    (slideBrailleWindowVertically 10 sampleCore).ses.winx = 0 ∧
    slideBrailleWindowVertically 10 (slideBrailleWindowVertically 10 sampleCore) =
      slideBrailleWindowVertically 10 sampleCore :=
  ⟨by with_unfolding_all decide, by with_unfolding_all decide, by with_unfolding_all decide,
    (slideBrailleWindowVertically_spec 10 sampleCore (by with_unfolding_all decide) (by with_unfolding_all decide) (by with_unfolding_all decide)).2.1
      (by with_unfolding_all decide) (by with_unfolding_all decide),
    (slideBrailleWindowVertically_spec 10 sampleCore (by with_unfolding_all decide) (by with_unfolding_all decide) (by with_unfolding_all decide)).2.2.2.1,
    ((slideBrailleWindowVertically_spec 10 sampleCore (by with_unfolding_all decide) (by with_unfolding_all decide) (by with_unfolding_all decide)).2.2.2.2
      (by with_unfolding_all decide)).2.2⟩

theorem isWithinBrailleWindow_congr {c d : Core} (hwinx : d.ses.winx = c.ses.winx)
    (hwiny : d.ses.winy = c.ses.winy) (hcount : d.textCount = c.textCount)
    (hrows : d.brl.textRows = c.brl.textRows) (x y : Int) :
    isWithinBrailleWindow d x y = isWithinBrailleWindow c x y := by
  unfold isWithinBrailleWindow
  rw [hwinx, hwiny, hcount, hrows]

theorem isWithinBrailleWindow_iff (c : Core) (x y : Int)
    (hwinx : Small c.ses.winx) (hwiny : Small c.ses.winy)
    (hcount : Small c.textCount) (hrows : Small c.brl.textRows) :
    isWithinBrailleWindow c x y = true ↔
      c.ses.winx ≤ x ∧ x < c.ses.winx + c.textCount ∧
      c.ses.winy ≤ y ∧ y < c.ses.winy + c.brl.textRows := by
  unfold Small at hwinx hwiny hcount hrows
  unfold isWithinBrailleWindow
  rw [toInt_eq (i := c.ses.winx + c.textCount) (by omega) (by omega),
    toInt_eq (i := c.ses.winy + c.brl.textRows) (by omega) (by omega)]
  simp only [Bool.and_eq_true, decide_eq_true_eq, ge_iff_le]
  exact ⟨fun ⟨⟨⟨h1, h2⟩, h3⟩, h4⟩ => ⟨h1, h2, h3, h4⟩, fun ⟨h1, h2, h3, h4⟩ => ⟨⟨⟨h1, h2⟩, h3⟩, h4⟩⟩

theorem trackHorizontally_eq (c : Core) :
    trackHorizontally c = { c with ses := { c.ses with winx := (trackHorizontally c).ses.winx } } := by
  unfold trackHorizontally
  dsimp only
  split_ifs <;> rfl

theorem trackWordWrap_off (c : Core) (hwrap : c.prefs.wordWrap = false) :
    trackWordWrap c = c := by
  unfold trackWordWrap
  rw [if_neg (by simp [hwrap])]

theorem placeBrailleWindowHorizontally_eq (x : Int) (c : Core) :
    placeBrailleWindowHorizontally x c =
      { c with ses := { c.ses with winx := (placeBrailleWindowHorizontally x c).ses.winx } } := by
  unfold placeBrailleWindowHorizontally
  split_ifs <;> rfl

theorem placeBrailleWindowHorizontally_sliding (x : Int) (c : Core)
    (hsliding : c.prefs.slidingBrailleWindow = true) (hcount : Small c.textCount) :
    (placeBrailleWindowHorizontally x c).ses.winx = max (x - ((c.textCount / 2 : Nat) : Int)) 0 := by
  unfold Small at hcount
  unfold placeBrailleWindowHorizontally
  rw [if_pos hsliding]
  show max 0 (x - toInt ((c.textCount / 2 : Nat) : Int)) = _
  rw [toInt_eq (by omega) (by omega), max_comm]

/-- The window column after the horizontal step with the sliding window, in
the range in which the arithmetic is exact. -/
theorem trackHorizontally_sliding (c : Core)
    (hsliding : c.prefs.slidingBrailleWindow = true)
    (hposx : Small c.scr.posx) (hcols : Small c.scr.cols)
    (hwinx : Small c.ses.winx) (hcount : Small c.textCount) :
    (trackHorizontally c).ses.winx =
      if c.scr.posx < c.ses.winx +
          ((if c.prefs.eagerSlidingBrailleWindow then c.textCount * 3 / 20 else 0 : Nat) : Int) then
        max (c.scr.posx - ((c.textCount * 3 / 10 : Nat) : Int)) 0
      else if c.scr.posx ≥ c.ses.winx + c.textCount -
          ((if c.prefs.eagerSlidingBrailleWindow then c.textCount * 3 / 20 else 0 : Nat) : Int) then
        max (min (c.scr.posx + ((c.textCount * 3 / 10 : Nat) : Int) + 1) c.scr.cols - c.textCount) 0
      else c.ses.winx := by
  unfold Small at hposx hcols hwinx hcount
  have h3 : toUnsigned ((c.textCount * 3 : Nat) : Int) = c.textCount * 3 :=
    toUnsigned_natCast (c.textCount * 3) (by omega)
  have hreset : toInt ((toUnsigned ((c.textCount * 3 : Nat) : Int) / 10 : Nat) : Int) =
      ((c.textCount * 3 / 10 : Nat) : Int) := by
    rw [h3]; exact toInt_eq (by omega) (by omega)
  have htrigger : toInt ((if c.prefs.eagerSlidingBrailleWindow then
        toUnsigned ((c.textCount * 3 : Nat) : Int) / 20 else 0 : Nat) : Int) =
      ((if c.prefs.eagerSlidingBrailleWindow then c.textCount * 3 / 20 else 0 : Nat) : Int) := by
    rw [h3]; apply toInt_eq <;> split_ifs <;> omega
  have hbound : ((if c.prefs.eagerSlidingBrailleWindow then c.textCount * 3 / 20 else 0 : Nat) : Int)
      ≤ c.textCount := by split_ifs <;> omega
  have hnonneg : (0 : Int) ≤
      ((if c.prefs.eagerSlidingBrailleWindow then c.textCount * 3 / 20 else 0 : Nat) : Int) := by
    omega
  have hcast : toInt (c.textCount : Int) = c.textCount := toInt_eq (by omega) (by omega)
  unfold trackHorizontally
  rw [if_pos hsliding]
  simp only [Nat.cast_mul, Nat.cast_ofNat] at hreset htrigger h3 ⊢
  simp only [hreset, htrigger, hcast]
  generalize ((if c.prefs.eagerSlidingBrailleWindow then c.textCount * 3 / 20 else 0 : Nat) : Int)
    = trigger at hbound hnonneg ⊢
  rw [toInt_eq (i := c.ses.winx + c.textCount - trigger) (by omega) (by omega)]
  split_ifs <;> rfl

theorem trackScreenCursor_of_tracks (place : Bool) (c : Core) (h : Tracks place c) :
    trackScreenCursor place c =
      trackScreenCursorNow place (if place then cancelDelayedCursorTrackingAlarm c else c) := by
  obtain ⟨hok, hplace | ⟨halarm, hdelay⟩⟩ := h
  · unfold trackScreenCursor
    rw [if_neg (by simp [hok]), if_pos hplace, if_pos hplace]
  · unfold trackScreenCursor
    rw [if_neg (by simp [hok])]
    by_cases hp : place = true
    · rw [if_pos hp, if_pos hp]
    · rw [if_neg hp, if_neg hp, if_neg (by simp [halarm]),
        if_neg (by rw [hdelay]; exact Bool.false_ne_true)]

/-- The state in which the horizontal step of `trackScreenCursor` starts. -/
theorem trackScreenCursor_eq (place : Bool) (c : Core) (h : Tracks place c)
    (hc : c.isContracted = false) :
    trackScreenCursor place c =
      (slideBrailleWindowVertically c.scr.posy
        (trackWordWrap (trackHorizontally
          (placeScreenCursor place (leaveDelayedCursorTracking
            (if place then cancelDelayedCursorTrackingAlarm c else c))))), true) := by
  rw [trackScreenCursor_of_tracks place c h]
  generalize hd : (if place then cancelDelayedCursorTrackingAlarm c else c) = d
  have hdc : d.isContracted = false := by
    rw [← hd]; split_ifs
    · rw [cancelDelayedCursorTrackingAlarm_isContracted]; exact hc
    · exact hc
  have hdscr : d.scr = c.scr := by
    rw [← hd]; split_ifs
    · exact cancelDelayedCursorTrackingAlarm_scr c
    · rfl
  unfold trackScreenCursorNow
  have hc' : (leaveDelayedCursorTracking d).isContracted = false := hdc
  simp only [hc', Bool.false_eq_true, if_false]
  have hscr : (placeScreenCursor place (leaveDelayedCursorTracking d)).scr = c.scr := by
    unfold placeScreenCursor
    split_ifs
    · rw [placeBrailleWindowHorizontally_eq]; exact hdscr
    · exact hdscr
  rw [hscr]

/-- What the state at the horizontal step has in common with the state in
which `trackScreenCursor` was called, and its window column. -/
theorem trackScreenCursor_start (place : Bool) (c : Core) :
    (placeScreenCursor place (leaveDelayedCursorTracking
        (if place then cancelDelayedCursorTrackingAlarm c else c))).scr = c.scr ∧
    (placeScreenCursor place (leaveDelayedCursorTracking
        (if place then cancelDelayedCursorTrackingAlarm c else c))).prefs = c.prefs ∧
    (placeScreenCursor place (leaveDelayedCursorTracking
        (if place then cancelDelayedCursorTrackingAlarm c else c))).brl = c.brl ∧
    (placeScreenCursor place (leaveDelayedCursorTracking
        (if place then cancelDelayedCursorTrackingAlarm c else c))).textCount = c.textCount ∧
    (placeScreenCursor place (leaveDelayedCursorTracking
        (if place then cancelDelayedCursorTrackingAlarm c else c))).ses.winy = c.ses.winy ∧
    (placeScreenCursor place (leaveDelayedCursorTracking
        (if place then cancelDelayedCursorTrackingAlarm c else c))).ses.winx =
      if place && !isWithinBrailleWindow c c.scr.posx c.scr.posy then
        (placeBrailleWindowHorizontally c.scr.posx c).ses.winx
      else c.ses.winx := by
  generalize hd : (if place then cancelDelayedCursorTrackingAlarm c else c) = d
  have hdscr : d.scr = c.scr := by
    rw [← hd]; split_ifs
    · exact cancelDelayedCursorTrackingAlarm_scr c
    · rfl
  have hdses : d.ses = c.ses := by
    rw [← hd]; split_ifs
    · exact cancelDelayedCursorTrackingAlarm_ses c
    · rfl
  have hdbrl : d.brl = c.brl := by
    rw [← hd]; split_ifs
    · exact cancelDelayedCursorTrackingAlarm_brl c
    · rfl
  have hdprefs : d.prefs = c.prefs := by
    rw [← hd]; split_ifs
    · exact cancelDelayedCursorTrackingAlarm_prefs c
    · rfl
  have hdcount : d.textCount = c.textCount := by
    rw [← hd]; split_ifs
    · exact cancelDelayedCursorTrackingAlarm_textCount c
    · rfl
  have hwithin : isWithinBrailleWindow (leaveDelayedCursorTracking d) c.scr.posx c.scr.posy =
      isWithinBrailleWindow c c.scr.posx c.scr.posy :=
    isWithinBrailleWindow_congr (by show d.ses.winx = _; rw [hdses])
      (by show d.ses.winy = _; rw [hdses]) hdcount (by show d.brl.textRows = _; rw [hdbrl]) _ _
  have hplace : (placeBrailleWindowHorizontally c.scr.posx (leaveDelayedCursorTracking d)).ses.winx
      = (placeBrailleWindowHorizontally c.scr.posx c).ses.winx := by
    unfold placeBrailleWindowHorizontally
    show (if d.prefs.slidingBrailleWindow = true then _ else _ : Core).ses.winx = _
    rw [hdprefs]
    split_ifs
    · show max 0 (c.scr.posx - toInt (d.textCount / 2 : Nat)) = _
      rw [hdcount]
    · show toInt ((toUnsigned c.scr.posx / d.textCount * d.textCount : Nat)) = _
      rw [hdcount]
  unfold placeScreenCursor
  have hscr' : (leaveDelayedCursorTracking d).scr = c.scr := hdscr
  rw [hscr', hwithin]
  split_ifs
  · rw [placeBrailleWindowHorizontally_eq]
    refine ⟨hdscr, hdprefs, hdbrl, hdcount, ?_, ?_⟩
    · show d.ses.winy = _; rw [hdses]
    · exact hplace
  · refine ⟨hdscr, hdprefs, hdbrl, hdcount, ?_, ?_⟩
    · show d.ses.winy = _; rw [hdses]
    · show d.ses.winx = _; rw [hdses]

theorem paging_back (k t p : Nat) (ht : 1 ≤ t) (hlt : p < k * t) :
    k * t - ((k * t - p - 1) / t + 1) * t = p / t * t := by
  have hq : p / t < k := (Nat.div_lt_iff_lt_mul (by omega)).mpr hlt
  obtain ⟨m, rfl⟩ : ∃ m, k = p / t + 1 + m := ⟨k - (p / t + 1), by omega⟩
  have hmod := Nat.div_add_mod p t
  have hr : p % t < t := Nat.mod_lt p (by omega)
  have hexp : (p / t + 1 + m) * t = t * (p / t) + t + m * t := by ring
  have hdiv : ((p / t + 1 + m) * t - p - 1) / t = m := by
    have hs : (p / t + 1 + m) * t - p - 1 = (t - 1 - p % t) + m * t := by omega
    rw [hs, Nat.add_mul_div_right _ _ (by omega : 0 < t), Nat.div_eq_of_lt (by omega)]
    omega
  rw [hdiv]
  have hexp2 : (m + 1) * t = m * t + t := by ring
  have hexp3 : p / t * t = t * (p / t) := by ring
  omega

theorem paging_forward (k t p : Nat) (ht : 1 ≤ t) (hle : k * t ≤ p) :
    k * t + (p - k * t) / t * t = p / t * t := by
  have hk : k ≤ p / t := (Nat.le_div_iff_mul_le (by omega)).mpr hle
  have hdiv : (p - k * t) / t = p / t - k := by
    rw [Nat.mul_comm k t]; exact Nat.sub_mul_div p t k (by rw [Nat.mul_comm]; exact hle)
  rw [hdiv, Nat.sub_mul]
  have hkt : k * t ≤ p / t * t := Nat.mul_le_mul_right t hk
  omega

/-- The window column after the horizontal step without the sliding window,
for a window that starts at a multiple of the window width. -/
theorem trackHorizontally_paging (c : Core)
    (hsliding : c.prefs.slidingBrailleWindow = false)
    (hposx : 0 ≤ c.scr.posx) (hsmall : Small c.scr.posx)
    (hwinx : Small c.ses.winx) (hcount : 1 ≤ c.textCount)
    (hmultiple : ∃ k : Nat, c.ses.winx = ((k * c.textCount : Nat) : Int)) :
    (trackHorizontally c).ses.winx = c.scr.posx / c.textCount * c.textCount := by
  obtain ⟨k, hk⟩ := hmultiple
  unfold Small at hsmall hwinx
  obtain ⟨p, hp⟩ : ∃ p : Nat, c.scr.posx = (p : Int) := ⟨c.scr.posx.toNat, by omega⟩
  have hresult : c.scr.posx / c.textCount * c.textCount = ((p / c.textCount * c.textCount : Nat) : Int) := by
    rw [natCast_div_mul, hp]
  have hbound : p / c.textCount * c.textCount ≤ p := Nat.div_mul_le_self p c.textCount
  unfold trackHorizontally
  rw [if_neg (by simp [hsliding])]
  by_cases hlt : c.scr.posx < c.ses.winx
  · rw [if_pos hlt]
    have hlt' : p < k * c.textCount := by omega
    have hu : toUnsigned (c.ses.winx - c.scr.posx - 1) = k * c.textCount - p - 1 := by
      have h := toUnsigned_natCast (k * c.textCount - p - 1) (by omega)
      rw [← h]; congr 1; omega
    have hback := paging_back k c.textCount p hcount hlt'
    have hle : ((k * c.textCount - p - 1) / c.textCount + 1) * c.textCount ≤ k * c.textCount := by
      have hquot : (k * c.textCount - p - 1) / c.textCount < k :=
        (Nat.div_lt_iff_lt_mul (by omega)).mpr (by omega)
      exact Nat.mul_le_mul_right _ hquot
    show (if toInt (c.ses.winx -
          ((toUnsigned (c.ses.winx - c.scr.posx - 1) / c.textCount + 1) * c.textCount : Nat)) < 0
        then 0
        else toInt (c.ses.winx -
          ((toUnsigned (c.ses.winx - c.scr.posx - 1) / c.textCount + 1) * c.textCount : Nat))) = _
    rw [hu, hresult, ← hback]
    have hval : c.ses.winx -
        ((((k * c.textCount - p - 1) / c.textCount + 1) * c.textCount : Nat) : Int) =
        ((k * c.textCount - ((k * c.textCount - p - 1) / c.textCount + 1) * c.textCount : Nat) : Int) := by
      omega
    rw [hval, toInt_eq (by omega) (by omega), if_neg (by omega)]
  · rw [if_neg hlt]
    have hle : k * c.textCount ≤ p := by omega
    have hu : toUnsigned (c.scr.posx - c.ses.winx) = p - k * c.textCount := by
      have h := toUnsigned_natCast (p - k * c.textCount) (by omega)
      rw [← h]; congr 1; omega
    have hforward := paging_forward k c.textCount p hcount hle
    show toInt (c.ses.winx +
        ((toUnsigned (c.scr.posx - c.ses.winx) / c.textCount * c.textCount : Nat) : Int)) = _
    rw [hu, hresult, ← hforward]
    have hdm : (p - k * c.textCount) / c.textCount * c.textCount ≤ p - k * c.textCount :=
      Nat.div_mul_le_self _ _
    have hval : c.ses.winx + (((p - k * c.textCount) / c.textCount * c.textCount : Nat) : Int) =
        ((k * c.textCount + (p - k * c.textCount) / c.textCount * c.textCount : Nat) : Int) := by
      omega
    rw [hval, toInt_eq (by omega) (by omega)]

/-- The result of a tracking call without word wrap and contraction: the
window column is that of the horizontal step, the window row that of the
vertical slide. -/
theorem trackScreenCursor_result (place : Bool) (c : Core) (h : Tracks place c)
    (hc : c.isContracted = false) (hwrap : c.prefs.wordWrap = false) (hsmall : c.Small) :
    (trackScreenCursor place c).2 = true ∧
    (trackScreenCursor place c).1.ses.winx =
      (trackHorizontally (placeScreenCursor place (leaveDelayedCursorTracking
        (if place then cancelDelayedCursorTrackingAlarm c else c)))).ses.winx ∧
    (trackScreenCursor place c).1.ses.winy =
      if c.scr.posy < c.ses.winy then c.scr.posy
      else if c.scr.posy ≥ c.ses.winy + c.brl.textRows then
        c.scr.posy - ((c.brl.textRows : Int) - 1)
      else c.ses.winy := by
  obtain ⟨hcols, hscrRows, hwinx, hwiny, hcountSmall, hrowsSmall⟩ := hsmall
  have hcursor : 0 ≤ c.scr.posx ∧ c.scr.posx ≤ c.scr.cols - 1 ∧
      0 ≤ c.scr.posy ∧ c.scr.posy ≤ c.scr.rows - 1 := by
    simpa [SCR_CURSOR_OK] using h.1
  have hposy : Small c.scr.posy := by unfold Small at hscrRows ⊢; omega
  rw [trackScreenCursor_eq place c h hc]
  obtain ⟨hscr, hprefs, hbrl, hcount, hwinyEq, -⟩ := trackScreenCursor_start place c
  generalize placeScreenCursor place (leaveDelayedCursorTracking
    (if place then cancelDelayedCursorTrackingAlarm c else c)) = e at hscr hprefs hbrl hcount hwinyEq ⊢
  have heq := trackHorizontally_eq e
  generalize hw : (trackHorizontally e).ses.winx = w at heq
  generalize trackHorizontally e = f at heq hw ⊢
  subst heq
  rw [trackWordWrap_off _ (by show e.prefs.wordWrap = false; rw [hprefs]; exact hwrap)]
  refine ⟨rfl, ?_, ?_⟩
  · show (slideBrailleWindowVertically _ _).ses.winx = _
    rw [slideBrailleWindowVertically_winx]
  · show (slideBrailleWindowVertically _ _).ses.winy = _
    rw [slideBrailleWindowVertically_winy _ _ hposy
      (by show Small e.ses.winy; rw [hwinyEq]; exact hwiny)
      (by show Small e.brl.textRows; rw [hbrl]; exact hrowsSmall)]
    show (if c.scr.posy < e.ses.winy then _ else if c.scr.posy ≥ e.ses.winy + e.brl.textRows
      then c.scr.posy - ((e.brl.textRows : Int) - 1) else e.ses.winy) = _
    rw [hwinyEq, hbrl]


/-- C15: with the sliding window on, word wrap and contraction off, and a
valid screen cursor outside the braille window of a display with at least one
cell and one row (sizes and positions in the range in which the arithmetic is
exact), `trackScreenCursor 1` returns true and leaves
`winx = max (posx - textCount / 2) 0` with the cursor row inside the window;
on a display of one row `winy = posy`. -/
theorem trackScreenCursor_sliding_place (c : Core)
    (hsliding : c.prefs.slidingBrailleWindow = true)
    (hwrap : c.prefs.wordWrap = false)
    (hcontracted : c.isContracted = false)
    (hok : SCR_CURSOR_OK c = true)
    (houtside : isWithinBrailleWindow c c.scr.posx c.scr.posy = false)
    (hsmall : c.Small) (hcount : 1 ≤ c.textCount) (hrows : 1 ≤ c.brl.textRows) :
    (trackScreenCursor true c).2 = true ∧
    (trackScreenCursor true c).1.ses.winx = max (c.scr.posx - ((c.textCount / 2 : Nat) : Int)) 0 ∧
    (trackScreenCursor true c).1.ses.winy ≤ c.scr.posy ∧
    c.scr.posy < (trackScreenCursor true c).1.ses.winy + c.brl.textRows ∧
    (c.brl.textRows = 1 → (trackScreenCursor true c).1.ses.winy = c.scr.posy) := by
  obtain ⟨htrue, hwinxEq, hwinyEq⟩ :=
    trackScreenCursor_result true c ⟨hok, Or.inl rfl⟩ hcontracted hwrap hsmall
  obtain ⟨hcols, hscrRows, hwinx, hwiny, hcountSmall, hrowsSmall⟩ := hsmall
  have hcursor : 0 ≤ c.scr.posx ∧ c.scr.posx ≤ c.scr.cols - 1 ∧
      0 ≤ c.scr.posy ∧ c.scr.posy ≤ c.scr.rows - 1 := by
    simpa [SCR_CURSOR_OK] using hok
  obtain ⟨hscr, hprefs, -, hcountEq, -, hstart⟩ := trackScreenCursor_start true c
  generalize placeScreenCursor true (leaveDelayedCursorTracking
    (if true = true then cancelDelayedCursorTrackingAlarm c else c)) = e
    at hscr hprefs hcountEq hstart hwinxEq
  rw [houtside, placeBrailleWindowHorizontally_sliding _ _ hsliding hcountSmall] at hstart
  simp only [Bool.not_false, Bool.and_self, if_true] at hstart
  unfold Small at hcols hscrRows hwinx hwiny hcountSmall hrowsSmall
  rw [trackHorizontally_sliding _ (by rw [hprefs]; exact hsliding)
    (by rw [hscr]; unfold Small; omega) (by rw [hscr]; unfold Small; omega)
    (by rw [hstart]; unfold Small; omega) (by rw [hcountEq]; unfold Small; omega),
    hscr, hprefs, hcountEq, hstart] at hwinxEq
  refine ⟨htrue, ?_, ?_, ?_, ?_⟩
  · rw [hwinxEq]; split_ifs <;> omega
  · rw [hwinyEq]; split_ifs <;> omega
  · rw [hwinyEq]; split_ifs <;> omega
  · intro hone; rw [hwinyEq]; split_ifs <;> omega

/-- C15 on the sample state (80 columns, 25 rows, 40 cells, one row, cursor
at column 50 of row 10, window at the origin): the call returns true with
`winx = 30` and `winy = 10`. -/
theorem trackScreenCursor_sliding_place_witness :
    (isWithinBrailleWindow sampleCore sampleCore.scr.posx sampleCore.scr.posy = false ∧
      sampleCore.Small) ∧
    (trackScreenCursor true sampleCore).2 = true ∧
    (trackScreenCursor true sampleCore).1.ses.winx = 30 ∧
    (trackScreenCursor true sampleCore).1.ses.winy = 10 :=
  have h := trackScreenCursor_sliding_place sampleCore (by with_unfolding_all decide) (by with_unfolding_all decide) (by with_unfolding_all decide)
    (by with_unfolding_all decide) (by with_unfolding_all decide) (by with_unfolding_all decide) (by with_unfolding_all decide) (by with_unfolding_all decide)
  ⟨⟨by with_unfolding_all decide, by with_unfolding_all decide⟩, h.1, h.2.1.trans (by with_unfolding_all decide), h.2.2.2.2 (by with_unfolding_all decide)⟩

/-- C16: without the sliding window, with word wrap and contraction off, a
valid cursor and a call that tracks (no alarm pending and no delay started,
or `place = 1`), on a display with at least one cell and sizes in the range
in which the arithmetic is exact: if `winx` is a non-negative multiple of
`textCount` beforehand, then afterwards `winx = (posx / textCount) *
textCount`, the call returns true, and on a display of one row
`winy = posy`. -/
theorem trackScreenCursor_paging (place : Bool) (c : Core)
    (hsliding : c.prefs.slidingBrailleWindow = false)
    (hwrap : c.prefs.wordWrap = false)
    (hcontracted : c.isContracted = false)
    (htracks : Tracks place c)
    (hsmall : c.Small) (hcount : 1 ≤ c.textCount)
    (hmultiple : ∃ k : Nat, c.ses.winx = ((k * c.textCount : Nat) : Int)) :
    (trackScreenCursor place c).2 = true ∧
    (trackScreenCursor place c).1.ses.winx = c.scr.posx / c.textCount * c.textCount ∧
    (c.brl.textRows = 1 → (trackScreenCursor place c).1.ses.winy = c.scr.posy) := by
  obtain ⟨htrue, hwinxEq, hwinyEq⟩ :=
    trackScreenCursor_result place c htracks hcontracted hwrap hsmall
  obtain ⟨hcols, hscrRows, hwinx, hwiny, hcountSmall, hrowsSmall⟩ := hsmall
  have hcursor : 0 ≤ c.scr.posx ∧ c.scr.posx ≤ c.scr.cols - 1 ∧
      0 ≤ c.scr.posy ∧ c.scr.posy ≤ c.scr.rows - 1 := by
    simpa [SCR_CURSOR_OK] using htracks.1
  obtain ⟨hscr, hprefs, -, hcountEq, -, hstart⟩ := trackScreenCursor_start place c
  generalize placeScreenCursor place (leaveDelayedCursorTracking
    (if place then cancelDelayedCursorTrackingAlarm c else c)) = e
    at hscr hprefs hcountEq hstart hwinxEq
  unfold Small at hcols hscrRows hwinx hwiny hcountSmall hrowsSmall
  have hplaced : (placeBrailleWindowHorizontally c.scr.posx c).ses.winx =
      c.scr.posx / c.textCount * c.textCount :=
    placeBrailleWindowHorizontally_winx_paging c c.scr.posx hsliding hcursor.1 (by omega) hcount
  have hle : c.scr.posx / c.textCount * c.textCount ≤ c.scr.posx :=
    Int.ediv_mul_le _ (by omega)
  have hnn : 0 ≤ c.scr.posx / c.textCount * c.textCount :=
    Int.mul_nonneg (Int.ediv_nonneg hcursor.1 (by omega)) (by omega)
  have hmultiple' : ∃ k : Nat, e.ses.winx = ((k * e.textCount : Nat) : Int) := by
    rw [hstart, hcountEq]
    split_ifs
    · refine ⟨c.scr.posx.toNat / c.textCount, ?_⟩
      rw [hplaced, natCast_div_mul, Int.toNat_of_nonneg hcursor.1]
    · exact hmultiple
  have hwinxSmall : Small e.ses.winx := by
    rw [hstart]; unfold Small
    split_ifs
    · rw [hplaced]; omega
    · omega
  rw [trackHorizontally_paging e (by rw [hprefs]; exact hsliding) (by rw [hscr]; exact hcursor.1)
    (by rw [hscr]; unfold Small; omega) hwinxSmall (by rw [hcountEq]; exact hcount) hmultiple',
    hscr, hcountEq] at hwinxEq
  refine ⟨htrue, hwinxEq, ?_⟩
  intro hone; rw [hwinyEq]; split_ifs <;> omega

/-- C16 on the sample state without the sliding window (40 cells, cursor at
column 50 of row 10, window at the origin, `place = 1`): the call returns
true with `winx = 40` and `winy = 10`. -/
theorem trackScreenCursor_paging_witness :
    (Tracks true pagingCore ∧ pagingCore.Small ∧
      ∃ k : Nat, pagingCore.ses.winx = ((k * pagingCore.textCount : Nat) : Int)) ∧
    (trackScreenCursor true pagingCore).2 = true ∧
    (trackScreenCursor true pagingCore).1.ses.winx = 40 ∧
    (trackScreenCursor true pagingCore).1.ses.winy = 10 :=
  have h := trackScreenCursor_paging true pagingCore (by with_unfolding_all decide)
    (by with_unfolding_all decide) (by with_unfolding_all decide) (by with_unfolding_all decide)
    (by with_unfolding_all decide) (by with_unfolding_all decide) ⟨0, by with_unfolding_all decide⟩
  ⟨⟨by with_unfolding_all decide, by with_unfolding_all decide, ⟨0, by with_unfolding_all decide⟩⟩,
    h.1, h.2.1.trans (by with_unfolding_all decide), h.2.2 (by with_unfolding_all decide)⟩

/-- C17: with the sliding window, word wrap and contraction off, a call that
tracks, and the cursor inside the window or `place = 0` (sizes in the range
in which the arithmetic is exact), with `reset = textCount * 3 / 10` and
`trigger = textCount * 3 / 20` if eager sliding is on and `0` otherwise,
`trackScreenCursor` sets `winx` to `max (posx - reset) 0` when
`posx < winx + trigger`, else to
`max (min (posx + reset + 1) cols - textCount) 0` when
`posx >= winx + textCount - trigger`, and otherwise leaves `winx` unchanged;
on a display with at least one cell a cursor exactly at column
`winx + trigger` leaves `winx` unchanged. -/
theorem trackScreenCursor_sliding (place : Bool) (c : Core)
    (hsliding : c.prefs.slidingBrailleWindow = true)
    (hwrap : c.prefs.wordWrap = false)
    (hcontracted : c.isContracted = false)
    (htracks : Tracks place c)
    (hinside : place = false ∨ isWithinBrailleWindow c c.scr.posx c.scr.posy = true)
    (hsmall : c.Small) :
    (trackScreenCursor place c).1.ses.winx =
      (if c.scr.posx < c.ses.winx +
          ((if c.prefs.eagerSlidingBrailleWindow then c.textCount * 3 / 20 else 0 : Nat) : Int) then
        max (c.scr.posx - ((c.textCount * 3 / 10 : Nat) : Int)) 0
      else if c.scr.posx ≥ c.ses.winx + c.textCount -
          ((if c.prefs.eagerSlidingBrailleWindow then c.textCount * 3 / 20 else 0 : Nat) : Int) then
        max (min (c.scr.posx + ((c.textCount * 3 / 10 : Nat) : Int) + 1) c.scr.cols - c.textCount) 0
      else c.ses.winx) ∧
    (1 ≤ c.textCount →
      c.scr.posx = c.ses.winx +
        ((if c.prefs.eagerSlidingBrailleWindow then c.textCount * 3 / 20 else 0 : Nat) : Int) →
      (trackScreenCursor place c).1.ses.winx = c.ses.winx) := by
  obtain ⟨-, hwinxEq, -⟩ :=
    trackScreenCursor_result place c htracks hcontracted hwrap hsmall
  obtain ⟨hcols, hscrRows, hwinx, hwiny, hcountSmall, hrowsSmall⟩ := hsmall
  have hcursor : 0 ≤ c.scr.posx ∧ c.scr.posx ≤ c.scr.cols - 1 ∧
      0 ≤ c.scr.posy ∧ c.scr.posy ≤ c.scr.rows - 1 := by
    simpa [SCR_CURSOR_OK] using htracks.1
  obtain ⟨hscr, hprefs, -, hcountEq, -, hstart⟩ := trackScreenCursor_start place c
  generalize placeScreenCursor place (leaveDelayedCursorTracking
    (if place then cancelDelayedCursorTrackingAlarm c else c)) = e
    at hscr hprefs hcountEq hstart hwinxEq
  have hstart' : e.ses.winx = c.ses.winx := by
    rw [hstart]
    rcases hinside with hplace | hwithin
    · rw [hplace]; rfl
    · rw [hwithin, if_neg (by simp)]
  unfold Small at hcols hscrRows hwinx hwiny hcountSmall hrowsSmall
  rw [trackHorizontally_sliding e (by rw [hprefs]; exact hsliding)
    (by rw [hscr]; unfold Small; omega) (by rw [hscr]; unfold Small; omega)
    (by rw [hstart']; unfold Small; omega) (by rw [hcountEq]; unfold Small; omega),
    hscr, hprefs, hcountEq, hstart'] at hwinxEq
  refine ⟨hwinxEq, ?_⟩
  intro hone hat
  rw [hwinxEq]
  split_ifs at hat ⊢ <;> omega

/-- C17 on the sample state with eager sliding (40 cells, trigger 6, reset
12) and the cursor at column 6 of the window row, `place = 0`: the window
stays at column 0; with the cursor at column 5 the first case applies. -/
theorem trackScreenCursor_sliding_witness :
    (trackScreenCursor false
      { sampleCore with
        scr := { sampleCore.scr with posx := 6, posy := 0 }
        prefs := { sampleCore.prefs with eagerSlidingBrailleWindow := true } }).1.ses.winx = 0 ∧
    (trackScreenCursor false
      { sampleCore with
        scr := { sampleCore.scr with posx := 45, posy := 0 }
        prefs := { sampleCore.prefs with eagerSlidingBrailleWindow := true } }).1.ses.winx = 18 :=
  ⟨(trackScreenCursor_sliding false
      { sampleCore with
        scr := { sampleCore.scr with posx := 6, posy := 0 }
        prefs := { sampleCore.prefs with eagerSlidingBrailleWindow := true } }
      (by with_unfolding_all decide) (by with_unfolding_all decide) (by with_unfolding_all decide)
      (by with_unfolding_all decide) (Or.inl rfl) (by with_unfolding_all decide)).2
      (by with_unfolding_all decide) (by with_unfolding_all decide),
    (trackScreenCursor_sliding false
      { sampleCore with
        scr := { sampleCore.scr with posx := 45, posy := 0 }
        prefs := { sampleCore.prefs with eagerSlidingBrailleWindow := true } }
      (by with_unfolding_all decide) (by with_unfolding_all decide) (by with_unfolding_all decide)
      (by with_unfolding_all decide) (Or.inl rfl) (by with_unfolding_all decide)).1.trans
      (by with_unfolding_all decide)⟩

theorem findWordBreak_last (characters : Int → Nat) (from_ : Int) (n j : Nat) (hj : j < n)
    (hspace : iswspace (characters (from_ + j)) = true)
    (hlast : ∀ i : Nat, j < i → i < n → iswspace (characters (from_ + i)) = false) :
    findWordBreak characters from_ n = some (from_ + j) := by
  induction n with
  | zero => omega
  | succ n ih =>
    unfold findWordBreak
    by_cases hn : j = n
    · subst hn
      rw [if_pos hspace]
    · rw [if_neg (by rw [hlast n (by omega) (by omega)]; exact Bool.false_ne_true)]
      exact ih (by omega) (fun i h1 h2 => hlast i h1 (by omega))

theorem skipWordBreak_stop (c : Core) (characters : Int → Nat) (end_ width : Int) (n : Nat)
    (x : Int) (hx : iswspace (characters x) = false) :
    skipWordBreak c characters end_ width n x = x := by
  cases n with
  | zero => rfl
  | succ n =>
    unfold skipWordBreak
    split_ifs <;> first | rfl | simp_all

/-- The length of the word wrapped window when the column after the window
holds no white space and `w` is the last column of the window that does. -/
theorem getWordWrapLength_last (c : Core) (row from_ count w : Int)
    (hend : from_ + count < c.scr.cols)
    (hafter : iswspace (c.screen row (from_ + count)) = false)
    (hw : from_ ≤ w ∧ w < from_ + count)
    (hspace : iswspace (c.screen row w) = true)
    (hlast : ∀ x : Int, w < x → x < from_ + count → iswspace (c.screen row x) = false) :
    getWordWrapLength c row from_ count = w + 1 - from_ := by
  unfold getWordWrapLength
  simp only []
  rw [if_neg (by omega), if_neg (by omega), if_neg (by rw [hafter]; exact Bool.false_ne_true)]
  obtain ⟨j, hj⟩ : ∃ j : Nat, w = from_ + j := ⟨(w - from_).toNat, by omega⟩
  rw [findWordBreak_last (c.screen row) from_ (from_ + count - from_).toNat j (by omega)
    (by rw [← hj]; exact hspace)
    (fun i h1 h2 => hlast _ (by omega) (by omega)), ← hj]
  simp only []
  obtain ⟨m, hm⟩ : ∃ m : Nat, (c.scr.cols - w).toNat = m + 1 := ⟨(c.scr.cols - w).toNat - 1, by omega⟩
  rw [hm]
  unfold skipWordBreak
  rw [if_pos (by omega), if_neg (by rw [hspace]; simp), if_neg (by simp; intro h; omega)]
  rw [skipWordBreak_stop]
  by_cases hlt : w + 1 < from_ + count
  · exact hlast _ (by omega) hlt
  · have : w + 1 = from_ + count := by omega
    rw [this]; exact hafter

/-- C18: with word wrap on and contraction off, `shiftBrailleWindowRight
amount` moves the window by `getWordWrapLength winy winx amount`; when the
column `winx + amount < cols` holds no white space and `w` is the last column
in `[winx, winx + amount)` that holds white space, the call returns true and
the new `winx` is `w + 1`, the column just after that white space. -/
theorem shiftBrailleWindowRight_wordWrap (amount : Nat) (c : Core) (w : Int)
    (hwrap : c.prefs.wordWrap = true) (hcontracting : isContracting c = false)
    (hwinx : 0 ≤ c.ses.winx) (hcols : Small c.scr.cols)
    (hend : c.ses.winx + amount < c.scr.cols)
    (hafter : iswspace (c.screen c.ses.winy (c.ses.winx + amount)) = false)
    (hw : c.ses.winx ≤ w ∧ w < c.ses.winx + amount)
    (hspace : iswspace (c.screen c.ses.winy w) = true)
    (hlast : ∀ x : Int, w < x → x < c.ses.winx + amount →
      iswspace (c.screen c.ses.winy x) = false) :
    shiftBrailleWindowRight amount c =
      moveBrailleWindowRight
        (toUnsigned (getWordWrapLength c c.ses.winy c.ses.winx (toInt amount))) c ∧
    getWordWrapLength c c.ses.winy c.ses.winx (toInt amount) = w + 1 - c.ses.winx ∧
    (shiftBrailleWindowRight amount c).2 = true ∧
    (shiftBrailleWindowRight amount c).1.ses.winx =
      c.ses.winx + getWordWrapLength c c.ses.winy c.ses.winx (toInt amount) ∧
    (shiftBrailleWindowRight amount c).1.ses.winx = w + 1 := by
  unfold Small at hcols
  have hcast : toInt (amount : Int) = amount := toInt_eq (by omega) (by omega)
  have hlength : getWordWrapLength c c.ses.winy c.ses.winx (toInt amount) = w + 1 - c.ses.winx := by
    rw [hcast]
    exact getWordWrapLength_last c c.ses.winy c.ses.winx amount w hend hafter hw hspace hlast
  have hshift : shiftBrailleWindowRight amount c =
      moveBrailleWindowRight
        (toUnsigned (getWordWrapLength c c.ses.winy c.ses.winx (toInt amount))) c := by
    unfold shiftBrailleWindowRight
    simp only [hcontracting, hwrap, Bool.false_eq_true, if_false, if_true]
  have hu : toUnsigned (w + 1 - c.ses.winx) = (w + 1 - c.ses.winx).toNat :=
    toUnsigned_toNat (by omega) (by omega)
  have hmove : moveBrailleWindowRight (w + 1 - c.ses.winx).toNat c =
      ({ c with ses := { c.ses with winx := w + 1 } }, true) := by
    unfold moveBrailleWindowRight
    have hnew : toInt (c.ses.winx + ((w + 1 - c.ses.winx).toNat : Int)) = w + 1 := by
      rw [Int.toNat_of_nonneg (by omega)]
      exact (toInt_eq (by omega) (by omega)).trans (by omega)
    rw [if_neg (by omega)]
    simp only [hnew]
    rw [if_neg (by omega)]
  refine ⟨hshift, hlength, ?_, ?_, ?_⟩
  · rw [hshift, hlength, hu, hmove]
  · rw [hshift, hlength, hu, hmove]
    show w + 1 = _
    omega
  · rw [hshift, hlength, hu, hmove]

/-- C18 on the row `hello world` (columns 0 to 10) with the window at
column 0 of a display of 8 cells: column 8 holds `r`, the last white space of
the window is column 5, and `shiftBrailleWindowRight 8` returns true and
leaves `winx = 6`. -/
theorem shiftBrailleWindowRight_wordWrap_witness :
    (iswspace (wordWrapCore.screen wordWrapCore.ses.winy (wordWrapCore.ses.winx + (8 : Nat)))
        = false ∧
      iswspace (wordWrapCore.screen wordWrapCore.ses.winy 5) = true) ∧
    (shiftBrailleWindowRight 8 wordWrapCore).2 = true ∧
    (shiftBrailleWindowRight 8 wordWrapCore).1.ses.winx = 6 :=
  have h := shiftBrailleWindowRight_wordWrap 8 wordWrapCore 5 (by with_unfolding_all decide)
    (by with_unfolding_all decide) (by with_unfolding_all decide) (by with_unfolding_all decide)
    (by with_unfolding_all decide) (by with_unfolding_all decide) (by with_unfolding_all decide)
    (by with_unfolding_all decide)
    (fun x h1 h2 => by
      have hx : x = 6 ∨ x = 7 := by
        have h2' : x < 0 + 8 := h2
        omega
      rcases hx with rfl | rfl <;> with_unfolding_all decide)
  ⟨⟨by with_unfolding_all decide, by with_unfolding_all decide⟩, h.2.2.1, h.2.2.2.2⟩

/-- C19 (refuted as stated): with a cursor tracking delay of 2, no alarm
pending, `dctx = -1` and the tracked point (5, 5) outside the window (columns
0 to 7 of row 0), `trackScreenCursor 0` arms no alarm and does not record the
tracked point: it sets `dctx = dcty = 0` and moves the window to the cursor
column 40. -/
theorem trackScreenCursor_tracks_at_once :
    ((delayCore (-1)).prefs.cursorTrackingDelay = 2 ∧
      (delayCore (-1)).delayedCursorTrackingAlarm = none ∧
      (delayCore (-1)).ses.dctx = -1 ∧
      isWithinBrailleWindow (delayCore (-1)) (delayCore (-1)).ses.trkx (delayCore (-1)).ses.trky
        = false) ∧
    (trackScreenCursor false (delayCore (-1))).2 = true ∧
    (trackScreenCursor false (delayCore (-1))).1.delayedCursorTrackingAlarm = none ∧
    (trackScreenCursor false (delayCore (-1))).1.ses.dctx = 0 ∧
    (trackScreenCursor false (delayCore (-1))).1.ses.dcty = 0 ∧
    (delayCore (-1)).ses.winx = 0 ∧
    (trackScreenCursor false (delayCore (-1))).1.ses.winx = 40 := by
  with_unfolding_all decide

/-- C19 (amended): let the cursor be valid, the cursor tracking delay be
`d > 0`, no alarm be pending and the tracked point lie outside the window.
If `dctx` is not -1 then `trackScreenCursor 0` records
`(dctx, dcty) = (trkx, trky)`, arms an alarm of `250 * 2 ^ (d - 1)` ms and
returns true, changing nothing else.  If `dctx = -1`, the value the alarm
handler leaves, the call tracks at once instead. -/
theorem trackScreenCursor_delay (c : Core)
    (hok : SCR_CURSOR_OK c = true)
    (hdelay : 0 < c.prefs.cursorTrackingDelay)
    (halarm : c.delayedCursorTrackingAlarm = none)
    (houtside : isWithinBrailleWindow c c.ses.trkx c.ses.trky = false) :
    (c.ses.dctx ≠ -1 →
      trackScreenCursor false c =
        ({ c with
           ses := { c.ses with dctx := c.ses.trkx, dcty := c.ses.trky }
           delayedCursorTrackingAlarm := some (250 * 2 ^ (c.prefs.cursorTrackingDelay - 1)) },
          true)) ∧
    (c.ses.dctx = -1 → trackScreenCursor false c = trackScreenCursorNow false c) ∧
    (handleDelayedCursorTrackingAlarm c).ses.dctx = -1 := by
  refine ⟨fun hdctx => ?_, fun hdctx => ?_, rfl⟩
  · unfold trackScreenCursor
    rw [if_neg (by simp [hok]), if_neg (by simp), if_neg (by simp [halarm]),
      if_pos (by simp [hdelay, hdctx, houtside])]
  · exact (trackScreenCursor_of_tracks false c
      ⟨hok, Or.inr ⟨halarm, by simp [hdctx]⟩⟩).trans (by simp)

/-- C19 (amended) on the sample state with `dctx = 0`: the call arms an
alarm of 500 ms, leaves `dctx = 5` and `dcty = 5`, and does not move the
window. -/
theorem trackScreenCursor_delay_witness :
    (trackScreenCursor false (delayCore 0)).1.delayedCursorTrackingAlarm = some 500 ∧
    (trackScreenCursor false (delayCore 0)).1.ses.dctx = 5 ∧
    (trackScreenCursor false (delayCore 0)).1.ses.dcty = 5 ∧
    (trackScreenCursor false (delayCore 0)).1.ses.winx = (delayCore 0).ses.winx ∧
    (trackScreenCursor false (delayCore 0)).2 = true :=
  have h := (trackScreenCursor_delay (delayCore 0) (by with_unfolding_all decide)
    (by with_unfolding_all decide) (by with_unfolding_all decide)
    (by with_unfolding_all decide)).1 (by with_unfolding_all decide)
  ⟨by rw [h]; rfl, by rw [h]; rfl, by rw [h]; rfl, by rw [h], by rw [h]⟩

theorem toUnsigned_succ (n : Nat) (h : n < 4294967295) :
    toUnsigned ((n : Int) + 1) = n + 1 := by
  have := toUnsigned_natCast (n + 1) (by omega)
  rw [← this]; congr 1

theorem handleProgramTerminationRequest_eq (R : Int) (K : Nat) (now : Int)
    (t : TerminationRequests) (hrange : t.programTerminationRequestCount < 4294967295) :
    handleProgramTerminationRequest R K now t =
      if (if now - t.programTerminationRequestTime > R then 1
          else t.programTerminationRequestCount + 1) > K then
        ({ programTerminationRequestCount :=
             if now - t.programTerminationRequestTime > R then 1
             else t.programTerminationRequestCount + 1,
           programTerminationRequestTime := t.programTerminationRequestTime }, some 1)
      else
        ({ programTerminationRequestCount :=
             if now - t.programTerminationRequestTime > R then 1
             else t.programTerminationRequestCount + 1,
           programTerminationRequestTime := now }, none) := by
  have hone : toUnsigned (((0 : Nat) : Int) + 1) = 1 := toUnsigned_succ 0 (by omega)
  have hsucc := toUnsigned_succ t.programTerminationRequestCount hrange
  unfold handleProgramTerminationRequest
  by_cases hreset : now - t.programTerminationRequestTime > R
  · simp only [if_pos hreset]
    show (if toUnsigned (((0 : Nat) : Int) + 1) > K then _ else _) = _
    rw [hone]
  · simp only [if_neg hreset]
    show (if toUnsigned ((t.programTerminationRequestCount : Int) + 1) > K then _ else _) = _
    rw [hsucc]

/-- C20: for a request count below the maximum of `unsigned int`,
`handleProgramTerminationRequest` makes the count 1 if more than `R` seconds
have passed since the recorded request time and the old count plus 1
otherwise; it exits, with status 1, exactly when the new count exceeds `K`,
and otherwise the request time becomes `now`.  So for `K >= 2` a first signal
gives count 1 without exiting, for `R >= 1` a second one a second later gives
count 2 without exiting, and a signal `R + 1` seconds after the previous one
gives count 1. -/
theorem handleProgramTerminationRequest_spec (R : Int) (K : Nat) (now : Int)
    (t : TerminationRequests) (hrange : t.programTerminationRequestCount < 4294967295) :
    ((handleProgramTerminationRequest R K now t).1.programTerminationRequestCount =
        if now - t.programTerminationRequestTime > R then 1
        else t.programTerminationRequestCount + 1) ∧
    ((handleProgramTerminationRequest R K now t).2 = some 1 ↔
      (handleProgramTerminationRequest R K now t).1.programTerminationRequestCount > K) ∧
    ((handleProgramTerminationRequest R K now t).2 = none ↔
      ¬ (handleProgramTerminationRequest R K now t).1.programTerminationRequestCount > K) ∧
    ((handleProgramTerminationRequest R K now t).2 = none →
      (handleProgramTerminationRequest R K now t).1.programTerminationRequestTime = now) ∧
    (2 ≤ K → t.programTerminationRequestCount = 0 →
      handleProgramTerminationRequest R K now t =
        ({ programTerminationRequestCount := 1, programTerminationRequestTime := now }, none)) ∧
    (2 ≤ K → 1 ≤ R →
      handleProgramTerminationRequest R K (now + 1)
          { programTerminationRequestCount := 1, programTerminationRequestTime := now } =
        ({ programTerminationRequestCount := 2, programTerminationRequestTime := now + 1 },
          none)) ∧
    (1 ≤ K → now = t.programTerminationRequestTime + R + 1 →
      handleProgramTerminationRequest R K now t =
        ({ programTerminationRequestCount := 1, programTerminationRequestTime := now }, none)) := by
  have heq := handleProgramTerminationRequest_eq R K now t hrange
  refine ⟨?_, ?_, ?_, ?_, ?_, ?_, ?_⟩
  · rw [heq]; split_ifs <;> rfl
  · rw [heq]; split_ifs <;> simp_all
  · rw [heq]; split_ifs <;> simp_all
  · rw [heq]; split_ifs <;> simp
  · intro hK hzero
    rw [heq, hzero]
    simp only [zero_add, ite_self]
    rw [if_neg (by omega)]
  · intro hK hR
    rw [handleProgramTerminationRequest_eq R K (now + 1) _ (by show 1 < 4294967295; omega)]
    have hc : ¬ (now + 1 - now > R) := by omega
    simp only [if_neg hc]
    rw [if_neg (by omega)]
  · intro hK hnow
    have hc : now - t.programTerminationRequestTime > R := by omega
    rw [heq]
    simp only [if_pos hc]
    rw [if_neg (by omega)]

/-- C20 with `R = 5` and `K = 3`: a first signal at time 100 gives count 1,
a second one at time 101 gives count 2, both without exiting, and a signal
at time 107 gives count 1 again. -/
theorem handleProgramTerminationRequest_spec_witness :
    handleProgramTerminationRequest 5 3 100
        { programTerminationRequestCount := 0, programTerminationRequestTime := 0 } =
      ({ programTerminationRequestCount := 1, programTerminationRequestTime := 100 }, none) ∧
    handleProgramTerminationRequest 5 3 (100 + 1)
        { programTerminationRequestCount := 1, programTerminationRequestTime := 100 } =
      ({ programTerminationRequestCount := 2, programTerminationRequestTime := 100 + 1 }, none) ∧
    handleProgramTerminationRequest 5 3 107
        { programTerminationRequestCount := 2, programTerminationRequestTime := 101 } =
      ({ programTerminationRequestCount := 1, programTerminationRequestTime := 107 }, none) :=
  ⟨(handleProgramTerminationRequest_spec 5 3 100
      { programTerminationRequestCount := 0, programTerminationRequestTime := 0 }
      (by decide)).2.2.2.2.1 (by decide) rfl,
    (handleProgramTerminationRequest_spec 5 3 100
      { programTerminationRequestCount := 0, programTerminationRequestTime := 0 }
      (by decide)).2.2.2.2.2.1 (by decide) (by decide),
    (handleProgramTerminationRequest_spec 5 3 107
      { programTerminationRequestCount := 2, programTerminationRequestTime := 101 }
      (by decide)).2.2.2.2.2.2 (by decide) (by decide)⟩

theorem checkUnmonitoredConditions_idle (w : Waiting) (ucd : UnmonitoredConditionDescriptor)
    (h : w.condition = false) : checkUnmonitoredConditions w ucd = (w, ucd, false) := by
  unfold Waiting.condition at h
  simp only [Bool.or_eq_false_iff, decide_eq_false_iff_not, ne_eq, not_not] at h
  obtain ⟨⟨⟨h1, h2⟩, h3⟩, h4⟩ := h
  have h3' : w.getRoutingStatus = none := by
    cases hr : w.getRoutingStatus with
    | none => rfl
    | some status => rw [hr] at h3; exact absurd h3 (by simp)
  unfold checkUnmonitoredConditions
  simp [h1, h2, h3', h4]

theorem brlttyWait_idle (ticks : List (Waiting → Waiting)) (w : Waiting)
    (h : w.condition = false) :
    brlttyWait ticks w =
      match ticks with
      | [] => (w, some WAIT_CONTINUE)
      | tick :: ticks => brlttyWait ticks (tick w) := by
  unfold brlttyWait
  cases ticks with
  | nil =>
    unfold asyncAwaitCondition
    rw [checkUnmonitoredConditions_idle w _ h]
    rfl
  | cons tick ticks =>
    conv_lhs => unfold asyncAwaitCondition
    rw [checkUnmonitoredConditions_idle w _ h]

/-- C21: `brlttyWait` returns the posted `waitResult` when an interrupt is
pending, clearing the pending flag, whatever else holds; otherwise `WAIT_STOP`
when the termination request count is not zero; otherwise it runs the routing
handler when a routing status is available, else the driver restart handler
when the braille driver has failed, and returns `WAIT_CONTINUE`; with no
condition it lets the reactor run and tests again, and returns
`WAIT_CONTINUE` when the duration has elapsed. -/
theorem brlttyWait_spec (ticks : List (Waiting → Waiting)) (w : Waiting) :
    (w.interruptPending = true →
      brlttyWait ticks w = ({ w with interruptPending := false }, some w.waitResult)) ∧
    (w.interruptPending = false → w.requests.programTerminationRequestCount ≠ 0 →
      brlttyWait ticks w = (w, some WAIT_STOP)) ∧
    (w.interruptPending = false → w.requests.programTerminationRequestCount = 0 →
      ∀ status, w.getRoutingStatus = some status →
        brlttyWait ticks w = (handleRoutingDone (some status) w, some WAIT_CONTINUE)) ∧
    (w.interruptPending = false → w.requests.programTerminationRequestCount = 0 →
      w.getRoutingStatus = none → w.core.brl.hasFailed = true →
        brlttyWait ticks w = (handleBrailleDriverFailed w, some WAIT_CONTINUE)) ∧
    (w.condition = false → brlttyWait [] w = (w, some WAIT_CONTINUE)) ∧
    (w.condition = false → ∀ tick, brlttyWait (tick :: ticks) w = brlttyWait ticks (tick w)) := by
  refine ⟨?_, ?_, ?_, ?_, ?_, ?_⟩
  · intro h
    unfold brlttyWait asyncAwaitCondition checkUnmonitoredConditions
    simp [h]
  · intro h1 h2
    unfold brlttyWait asyncAwaitCondition checkUnmonitoredConditions
    simp [h1, h2]
  · intro h1 h2 status h3
    unfold brlttyWait asyncAwaitCondition checkUnmonitoredConditions
    simp [h1, h2, h3, WAIT_CONTINUE]
  · intro h1 h2 h3 h4
    unfold brlttyWait asyncAwaitCondition checkUnmonitoredConditions
    simp [h1, h2, h3, h4, WAIT_CONTINUE]
  · intro h
    exact brlttyWait_idle [] w h
  · intro h tick
    exact brlttyWait_idle (tick :: ticks) w h

theorem findWordBreak_bounds (characters : Int → Nat) (from_ : Int) (n : Nat) (w : Int)
    (h : findWordBreak characters from_ n = some w) : from_ ≤ w ∧ w < from_ + n := by
  induction n with
  | zero => simp [findWordBreak] at h
  | succ n ih =>
    unfold findWordBreak at h
    split_ifs at h
    · simp only [Option.some.injEq] at h
      omega
    · have := ih h
      omega

theorem skipWordBreak_bounds (c : Core) (characters : Int → Nat) (end_ width : Int) (n : Nat)
    (x : Int) :
    x ≤ skipWordBreak c characters end_ width n x ∧
      skipWordBreak c characters end_ width n x ≤ max x width := by
  induction n generalizing x with
  | zero => unfold skipWordBreak; exact ⟨le_refl _, le_max_left _ _⟩
  | succ n ih =>
    unfold skipWordBreak
    split_ifs
    · exact ⟨le_refl _, le_max_left _ _⟩
    · exact ⟨le_refl _, le_max_left _ _⟩
    · have := ih (x + 1)
      constructor
      · omega
      · have h1 : max (x + 1) width = width := max_eq_right (by omega)
        have h2 : max x width = width := max_eq_right (by omega)
        rw [h2]; rw [h1] at this; exact this.2
    · exact ⟨le_refl _, le_max_left _ _⟩

/-- The length of the word wrapped window is not negative, and the window
does not extend beyond the screen. -/
theorem getWordWrapLength_bounds (c : Core) (row from_ count : Int) (hcount : 0 ≤ count) :
    0 ≤ getWordWrapLength c row from_ count ∧
      (from_ < c.scr.cols → from_ + getWordWrapLength c row from_ count ≤ c.scr.cols) := by
  unfold getWordWrapLength
  simp only []
  split_ifs with h1 h2 h3
  · exact ⟨le_refl _, fun h => by omega⟩
  · exact ⟨by omega, fun _ => by omega⟩
  · simp only []
    have := skipWordBreak_bounds c (c.screen row) (from_ + count) c.scr.cols
      (c.scr.cols - (from_ + count)).toNat (from_ + count)
    have hmax : max (from_ + count) c.scr.cols = c.scr.cols := max_eq_right (by omega)
    rw [hmax] at this
    exact ⟨by omega, fun _ => by omega⟩
  · cases hfound : findWordBreak (c.screen row) from_ (from_ + count - from_).toNat with
    | none => simp only []; exact ⟨by omega, fun _ => by omega⟩
    | some w =>
      simp only []
      have hw := findWordBreak_bounds _ _ _ _ hfound
      have := skipWordBreak_bounds c (c.screen row) (from_ + count) c.scr.cols
        (c.scr.cols - w).toNat w
      have hmax : max w c.scr.cols = c.scr.cols := max_eq_right (by omega)
      rw [hmax] at this
      exact ⟨by omega, fun _ => by omega⟩

theorem trackWordWrap_eq (c : Core) :
    trackWordWrap c = { c with ses := { c.ses with winx := (trackWordWrap c).ses.winx } } := by
  unfold trackWordWrap
  dsimp only
  split_ifs <;> rfl

/-- The word wrap step keeps a cursor that the window shows inside the
window. -/
theorem trackWordWrap_inside (c : Core) (hcount : Small c.textCount)
    (hinside : 0 ≤ c.ses.winx ∧ c.ses.winx ≤ c.scr.posx ∧ c.scr.posx < c.ses.winx + c.textCount) :
    0 ≤ (trackWordWrap c).ses.winx ∧ (trackWordWrap c).ses.winx ≤ c.scr.posx ∧
      c.scr.posx < (trackWordWrap c).ses.winx + c.textCount := by
  unfold Small at hcount
  have hcast : toInt (c.textCount : Int) = c.textCount := toInt_eq (by omega) (by omega)
  have hlen := (getWordWrapLength_bounds c c.ses.winy c.ses.winx (c.textCount : Int) (by omega)).1
  unfold trackWordWrap
  dsimp only
  rw [hcast]
  split_ifs with h1 h2
  · show 0 ≤ c.ses.winx + _ ∧ c.ses.winx + _ ≤ c.scr.posx ∧ c.scr.posx < c.ses.winx + _ + _
    omega
  · exact hinside
  · exact hinside

/-- The horizontal step without the sliding window brings the cursor column
into the window. -/
theorem trackHorizontally_paging_inside (c : Core)
    (hsliding : c.prefs.slidingBrailleWindow = false)
    (hposx : 0 ≤ c.scr.posx) (hsmall : Small c.scr.posx)
    (hwinx : 0 ≤ c.ses.winx) (hwinxSmall : Small c.ses.winx)
    (hcount : 1 ≤ c.textCount) (hcountSmall : Small c.textCount) :
    0 ≤ (trackHorizontally c).ses.winx ∧ (trackHorizontally c).ses.winx ≤ c.scr.posx ∧
      c.scr.posx < (trackHorizontally c).ses.winx + c.textCount := by
  unfold Small at hsmall hwinxSmall hcountSmall
  unfold trackHorizontally
  rw [if_neg (by simp [hsliding])]
  by_cases hlt : c.scr.posx < c.ses.winx
  · rw [if_pos hlt]
    have hu : toUnsigned (c.ses.winx - c.scr.posx - 1) = (c.ses.winx - c.scr.posx - 1).toNat :=
      toUnsigned_toNat (by omega) (by omega)
    have hlo := Nat.div_mul_le_self (c.ses.winx - c.scr.posx - 1).toNat c.textCount
    have hhi := Nat.lt_div_mul_add (a := (c.ses.winx - c.scr.posx - 1).toNat)
      (b := c.textCount) (by omega)
    have hexp : ((c.ses.winx - c.scr.posx - 1).toNat / c.textCount + 1) * c.textCount =
        (c.ses.winx - c.scr.posx - 1).toNat / c.textCount * c.textCount + c.textCount := by ring
    show 0 ≤ (if toInt (c.ses.winx -
          ((toUnsigned (c.ses.winx - c.scr.posx - 1) / c.textCount + 1) * c.textCount : Nat)) < 0
        then 0 else toInt _) ∧
      (if toInt (c.ses.winx -
          ((toUnsigned (c.ses.winx - c.scr.posx - 1) / c.textCount + 1) * c.textCount : Nat)) < 0
        then 0 else toInt _) ≤ c.scr.posx ∧
      c.scr.posx < (if toInt (c.ses.winx -
          ((toUnsigned (c.ses.winx - c.scr.posx - 1) / c.textCount + 1) * c.textCount : Nat)) < 0
        then 0 else toInt _) + _
    rw [hu, hexp, toInt_eq (by omega) (by omega)]
    split_ifs <;> omega
  · rw [if_neg hlt]
    have hu : toUnsigned (c.scr.posx - c.ses.winx) = (c.scr.posx - c.ses.winx).toNat :=
      toUnsigned_toNat (by omega) (by omega)
    have hlo := Nat.div_mul_le_self (c.scr.posx - c.ses.winx).toNat c.textCount
    have hhi := Nat.lt_div_mul_add (a := (c.scr.posx - c.ses.winx).toNat)
      (b := c.textCount) (by omega)
    show 0 ≤ toInt (c.ses.winx +
        ((toUnsigned (c.scr.posx - c.ses.winx) / c.textCount * c.textCount : Nat) : Int)) ∧
      toInt (c.ses.winx +
        ((toUnsigned (c.scr.posx - c.ses.winx) / c.textCount * c.textCount : Nat) : Int)) ≤ _ ∧
      _ < toInt (c.ses.winx +
        ((toUnsigned (c.scr.posx - c.ses.winx) / c.textCount * c.textCount : Nat) : Int)) + _
    rw [hu, toInt_eq (by omega) (by omega)]
    omega

/-- The result of a tracking call without contraction: the window column is
that of the horizontal and word wrap steps, the window row that of the
vertical slide. -/
theorem trackScreenCursor_result_wrap (place : Bool) (c : Core) (h : Tracks place c)
    (hc : c.isContracted = false) (hsmall : c.Small) :
    (trackScreenCursor place c).2 = true ∧
    (trackScreenCursor place c).1.ses.winx =
      (trackWordWrap (trackHorizontally (placeScreenCursor place (leaveDelayedCursorTracking
        (if place then cancelDelayedCursorTrackingAlarm c else c))))).ses.winx ∧
    (trackScreenCursor place c).1.ses.winy =
      if c.scr.posy < c.ses.winy then c.scr.posy
      else if c.scr.posy ≥ c.ses.winy + c.brl.textRows then
        c.scr.posy - ((c.brl.textRows : Int) - 1)
      else c.ses.winy := by
  obtain ⟨hcols, hscrRows, hwinx, hwiny, hcountSmall, hrowsSmall⟩ := hsmall
  have hcursor : 0 ≤ c.scr.posx ∧ c.scr.posx ≤ c.scr.cols - 1 ∧
      0 ≤ c.scr.posy ∧ c.scr.posy ≤ c.scr.rows - 1 := by
    simpa [SCR_CURSOR_OK] using h.1
  have hposy : Small c.scr.posy := by unfold Small at hscrRows ⊢; omega
  rw [trackScreenCursor_eq place c h hc]
  obtain ⟨hscr, hprefs, hbrl, hcount, hwinyEq, -⟩ := trackScreenCursor_start place c
  generalize placeScreenCursor place (leaveDelayedCursorTracking
    (if place then cancelDelayedCursorTrackingAlarm c else c)) = e at hscr hprefs hbrl hcount hwinyEq ⊢
  have heq := trackHorizontally_eq e
  generalize (trackHorizontally e).ses.winx = w at heq
  generalize trackHorizontally e = f at heq ⊢
  subst heq
  have heq2 := trackWordWrap_eq { e with ses := { e.ses with winx := w } }
  generalize (trackWordWrap { e with ses := { e.ses with winx := w } }).ses.winx = w2 at heq2
  generalize trackWordWrap { e with ses := { e.ses with winx := w } } = g at heq2 ⊢
  subst heq2
  refine ⟨rfl, ?_, ?_⟩
  · show (slideBrailleWindowVertically _ _).ses.winx = _
    rw [slideBrailleWindowVertically_winx]
  · show (slideBrailleWindowVertically _ _).ses.winy = _
    rw [slideBrailleWindowVertically_winy _ _ hposy
      (by show Small e.ses.winy; rw [hwinyEq]; exact hwiny)
      (by show Small e.brl.textRows; rw [hbrl]; exact hrowsSmall)]
    show (if c.scr.posy < e.ses.winy then _ else if c.scr.posy ≥ e.ses.winy + e.brl.textRows
      then c.scr.posy - ((e.brl.textRows : Int) - 1) else e.ses.winy) = _
    rw [hwinyEq, hbrl]

/-- C22: when `trackScreenCursor` tracks (valid cursor, contraction not
active, and `place = 1` or no alarm pending and no delay started), then for
every prior state with `winx >= 0`, `winy >= 0`, `textCount >= 1` and
`textRows >= 1` (sizes in the range in which the arithmetic is exact), with
or without the sliding window and word wrap, it returns true with the
cursor inside the window: `winx <= posx < winx + textCount`,
`winy <= posy < winy + textRows`, and `winx >= 0`. -/
theorem trackScreenCursor_inside (place : Bool) (c : Core)
    (htracks : Tracks place c) (hcontracted : c.isContracted = false)
    (hwinx : 0 ≤ c.ses.winx) (hwiny : 0 ≤ c.ses.winy)
    (hcount : 1 ≤ c.textCount) (hrows : 1 ≤ c.brl.textRows) (hsmall : c.Small) :
    (trackScreenCursor place c).2 = true ∧
    (trackScreenCursor place c).1.ses.winx ≤ c.scr.posx ∧
    c.scr.posx < (trackScreenCursor place c).1.ses.winx + c.textCount ∧
    (trackScreenCursor place c).1.ses.winy ≤ c.scr.posy ∧
    c.scr.posy < (trackScreenCursor place c).1.ses.winy + c.brl.textRows ∧
    0 ≤ (trackScreenCursor place c).1.ses.winx := by
  obtain ⟨htrue, hwinxEq, hwinyEq⟩ :=
    trackScreenCursor_result_wrap place c htracks hcontracted hsmall
  obtain ⟨hcols, hscrRows, hwinxSmall, hwinySmall, hcountSmall, hrowsSmall⟩ := hsmall
  have hcursor : 0 ≤ c.scr.posx ∧ c.scr.posx ≤ c.scr.cols - 1 ∧
      0 ≤ c.scr.posy ∧ c.scr.posy ≤ c.scr.rows - 1 := by
    simpa [SCR_CURSOR_OK] using htracks.1
  obtain ⟨hscr, hprefs, -, hcountEq, -, hstart⟩ := trackScreenCursor_start place c
  generalize placeScreenCursor place (leaveDelayedCursorTracking
    (if place then cancelDelayedCursorTrackingAlarm c else c)) = e
    at hscr hprefs hcountEq hstart hwinxEq
  have hposxSmall : Small c.scr.posx := by unfold Small at hcols ⊢; omega
  -- the window column at the start of the horizontal step
  have hstartBounds : 0 ≤ e.ses.winx ∧ Small e.ses.winx := by
    rw [hstart]
    split_ifs
    · cases hsl : c.prefs.slidingBrailleWindow with
      | true =>
        rw [placeBrailleWindowHorizontally_sliding _ _ hsl hcountSmall]
        unfold Small at hposxSmall hcountSmall ⊢
        omega
      | false =>
        rw [placeBrailleWindowHorizontally_winx_paging c _ hsl hcursor.1
          (by unfold Small at hposxSmall; omega) hcount]
        have hle : c.scr.posx / c.textCount * c.textCount ≤ c.scr.posx :=
          Int.ediv_mul_le _ (by omega)
        have hnn : 0 ≤ c.scr.posx / c.textCount * c.textCount :=
          Int.mul_nonneg (Int.ediv_nonneg hcursor.1 (by omega)) (by omega)
        unfold Small at hposxSmall ⊢
        omega
    · exact ⟨hwinx, hwinxSmall⟩
  -- the horizontal step
  have hhorizontal : 0 ≤ (trackHorizontally e).ses.winx ∧
      (trackHorizontally e).ses.winx ≤ c.scr.posx ∧
      c.scr.posx < (trackHorizontally e).ses.winx + c.textCount := by
    cases hsl : c.prefs.slidingBrailleWindow with
    | true =>
      rw [trackHorizontally_sliding e (by rw [hprefs]; exact hsl)
        (by rw [hscr]; exact hposxSmall) (by rw [hscr]; exact hcols)
        hstartBounds.2 (by rw [hcountEq]; exact hcountSmall), hscr, hprefs, hcountEq]
      have h0 := hstartBounds.1
      unfold Small at hposxSmall hcountSmall hcols
      split_ifs <;> omega
    | false =>
      have := trackHorizontally_paging_inside e (by rw [hprefs]; exact hsl)
        (by rw [hscr]; exact hcursor.1) (by rw [hscr]; exact hposxSmall)
        hstartBounds.1 hstartBounds.2 (by rw [hcountEq]; exact hcount)
        (by rw [hcountEq]; exact hcountSmall)
      rw [hscr, hcountEq] at this
      exact this
  -- the word wrap step
  have hfeq := trackHorizontally_eq e
  have hwrap := trackWordWrap_inside (trackHorizontally e)
    (by rw [hfeq]; show Small e.textCount; rw [hcountEq]; exact hcountSmall)
    (by
      have h1 : (trackHorizontally e).scr = c.scr := by rw [hfeq]; exact hscr
      have h2 : (trackHorizontally e).textCount = c.textCount := by rw [hfeq]; exact hcountEq
      rw [h1, h2]; exact hhorizontal)
  have h1 : (trackHorizontally e).scr = c.scr := by rw [hfeq]; exact hscr
  have h2 : (trackHorizontally e).textCount = c.textCount := by rw [hfeq]; exact hcountEq
  rw [h1, h2, ← hwinxEq] at hwrap
  unfold Small at hrowsSmall hwinySmall hscrRows
  refine ⟨htrue, hwrap.2.1, hwrap.2.2, ?_, ?_, hwrap.1⟩
  · rw [hwinyEq]; split_ifs <;> omega
  · rw [hwinyEq]; split_ifs <;> omega

/-- C22 on the sample screen with word wrap and without the sliding window:
the call returns true and the window that shows `hello world` from column 0
is moved so that it shows the cursor column 50. -/
theorem trackScreenCursor_inside_witness :
    (Tracks false wordWrapCore ∧ wordWrapCore.Small) ∧
    (trackScreenCursor false wordWrapCore).2 = true ∧
    (trackScreenCursor false wordWrapCore).1.ses.winx ≤ 50 ∧
    50 < (trackScreenCursor false wordWrapCore).1.ses.winx + (8 : Nat) :=
  have h := trackScreenCursor_inside false wordWrapCore (by with_unfolding_all decide)
    (by with_unfolding_all decide) (by with_unfolding_all decide) (by with_unfolding_all decide)
    (by with_unfolding_all decide) (by with_unfolding_all decide) (by with_unfolding_all decide)
  ⟨⟨by with_unfolding_all decide, by with_unfolding_all decide⟩, h.1, h.2.1, h.2.2.1⟩

/-- C23 (refuted as stated): from the sample state, whose window satisfies
the invariant, `moveBrailleWindowRight` with the amount `2 ^ 31` returns true
and leaves `winx = - 2 ^ 31`, because the sum is converted to `int`. -/
theorem moveBrailleWindowRight_wraps :
    WindowInvariant sampleCore ∧
    (moveBrailleWindowRight 2147483648 sampleCore).2 = true ∧
    (moveBrailleWindowRight 2147483648 sampleCore).1.ses.winx = -2147483648 ∧
    ¬ WindowInvariant (moveBrailleWindowRight 2147483648 sampleCore).1 := by
  with_unfolding_all decide

/-- C23 (amended): for sizes in the range in which the arithmetic is exact,
the invariant `0 <= winx <= max (cols - 1) 0`,
`0 <= winy <= max (rows - textRows) 0` is preserved by
`moveBrailleWindowLeft amount` for every amount, by
`moveBrailleWindowRight amount` for every amount with
`winx + amount < 2 ^ 31`, by `placeBrailleWindowHorizontally x` for
`0 <= x < cols` (with `textCount >= 1`), and by
`slideBrailleWindowVertically y` for `0 <= y < rows`; a move that returns
false changes nothing, and it does so exactly when `winx < 1` or `amount < 1`
(left), `amount < 1` or `winx + amount >= cols` (right). -/
theorem windowInvariant_preserved (c : Core) (amount : Nat) (x y : Int)
    (hinvariant : WindowInvariant c) (hsmall : c.Small) (hamount : amount < 4294967296) :
    WindowInvariant (moveBrailleWindowLeft amount c).1 ∧
    (c.ses.winx + amount < 2147483648 →
      WindowInvariant (moveBrailleWindowRight amount c).1) ∧
    (0 ≤ x → x < c.scr.cols → 1 ≤ c.textCount →
      WindowInvariant (placeBrailleWindowHorizontally x c)) ∧
    (0 ≤ y → y < c.scr.rows → WindowInvariant (slideBrailleWindowVertically y c)) ∧
    ((moveBrailleWindowLeft amount c).2 = false → (moveBrailleWindowLeft amount c).1 = c) ∧
    ((moveBrailleWindowRight amount c).2 = false → (moveBrailleWindowRight amount c).1 = c) ∧
    ((moveBrailleWindowLeft amount c).2 = false ↔ (c.ses.winx < 1 ∨ amount < 1)) ∧
    (c.ses.winx + amount < 2147483648 →
      ((moveBrailleWindowRight amount c).2 = false ↔
        (amount < 1 ∨ c.ses.winx + amount ≥ c.scr.cols))) := by
  obtain ⟨h1, h2, h3, h4⟩ := hinvariant
  obtain ⟨hcols, hscrRows, hwinx, hwiny, hcountSmall, hrowsSmall⟩ := hsmall
  unfold Small at hcols hscrRows hwinx hwiny hcountSmall hrowsSmall
  refine ⟨?_, ?_, ?_, ?_, ?_, ?_, ?_, ?_⟩
  · unfold moveBrailleWindowLeft
    split_ifs with ha hb hc
    · exact ⟨h1, h2, h3, h4⟩
    · exact ⟨h1, h2, h3, h4⟩
    · have hu : toUnsigned c.ses.winx = c.ses.winx.toNat := toUnsigned_toNat (by omega) (by omega)
      refine ⟨?_, ?_, h3, h4⟩
      · show 0 ≤ toInt (c.ses.winx - ((toUnsigned c.ses.winx : Nat) : Int))
        rw [hu, toInt_eq (by omega) (by omega)]; omega
      · show toInt (c.ses.winx - ((toUnsigned c.ses.winx : Nat) : Int)) ≤ max (c.scr.cols - 1) 0
        rw [hu, toInt_eq (by omega) (by omega)]
        have : (0 : Int) ≤ max (c.scr.cols - 1) 0 := le_max_right _ _
        omega
    · have hu : toUnsigned c.ses.winx = c.ses.winx.toNat := toUnsigned_toNat (by omega) (by omega)
      rw [hu] at hc
      refine ⟨?_, ?_, h3, h4⟩
      · show 0 ≤ toInt (c.ses.winx - (amount : Int))
        rw [toInt_eq (by omega) (by omega)]; omega
      · show toInt (c.ses.winx - (amount : Int)) ≤ max (c.scr.cols - 1) 0
        rw [toInt_eq (by omega) (by omega)]; omega
  · intro hright
    unfold moveBrailleWindowRight
    have hnew : toInt (c.ses.winx + amount) = c.ses.winx + amount := toInt_eq (by omega) hright
    simp only [hnew]
    split_ifs with ha hb
    · exact ⟨h1, h2, h3, h4⟩
    · exact ⟨h1, h2, h3, h4⟩
    · refine ⟨?_, ?_, h3, h4⟩
      · show 0 ≤ c.ses.winx + (amount : Int); omega
      · show c.ses.winx + (amount : Int) ≤ max (c.scr.cols - 1) 0
        have : c.scr.cols - 1 ≤ max (c.scr.cols - 1) 0 := le_max_left _ _
        omega
  · intro hx hxc hcount
    have hmax : c.scr.cols - 1 ≤ max (c.scr.cols - 1) 0 := le_max_left _ _
    have heq := placeBrailleWindowHorizontally_eq x c
    have hwinxNew : 0 ≤ (placeBrailleWindowHorizontally x c).ses.winx ∧
        (placeBrailleWindowHorizontally x c).ses.winx ≤ x := by
      cases hsl : c.prefs.slidingBrailleWindow with
      | true =>
        rw [placeBrailleWindowHorizontally_sliding x c hsl (by unfold Small; omega)]
        omega
      | false =>
        rw [placeBrailleWindowHorizontally_winx_paging c x hsl hx (by omega) hcount]
        exact ⟨Int.mul_nonneg (Int.ediv_nonneg hx (by omega)) (by omega),
          Int.ediv_mul_le _ (by omega)⟩
    rw [heq]
    exact ⟨hwinxNew.1,
      by show (placeBrailleWindowHorizontally x c).ses.winx ≤ max (c.scr.cols - 1) 0; omega,
      h3, h4⟩
  · intro hy hyr
    have hwinyEq := slideBrailleWindowVertically_winy y c (by unfold Small; omega)
      (by unfold Small; omega) (by unfold Small; omega)
    have hwinxEq := slideBrailleWindowVertically_winx y c
    have hscr : (slideBrailleWindowVertically y c).scr = c.scr := by
      unfold slideBrailleWindowVertically; split_ifs <;> rfl
    have hbrl : (slideBrailleWindowVertically y c).brl = c.brl := by
      unfold slideBrailleWindowVertically; split_ifs <;> rfl
    have hmax : c.scr.rows - c.brl.textRows ≤ max (c.scr.rows - c.brl.textRows) 0 :=
      le_max_left _ _
    unfold WindowInvariant
    rw [hscr, hbrl, hwinxEq, hwinyEq]
    refine ⟨h1, h2, ?_, ?_⟩ <;> split_ifs <;> omega
  · unfold moveBrailleWindowLeft
    split_ifs <;> simp
  · unfold moveBrailleWindowRight
    dsimp only
    split_ifs <;> simp
  · unfold moveBrailleWindowLeft
    split_ifs with ha hb <;> simp <;> omega
  · intro hright
    unfold moveBrailleWindowRight
    have hnew : toInt (c.ses.winx + amount) = c.ses.winx + amount := toInt_eq (by omega) hright
    simp only [hnew]
    split_ifs with ha hb <;> simp <;> omega

/-- C23 (amended) on the sample state: the invariant holds before and after
moving the window right by 8 columns. -/
theorem windowInvariant_preserved_witness :
    (WindowInvariant sampleCore ∧ sampleCore.Small) ∧
    WindowInvariant (moveBrailleWindowRight 8 sampleCore).1 ∧
    WindowInvariant (moveBrailleWindowLeft 8 sampleCore).1 :=
  ⟨⟨by with_unfolding_all decide, by with_unfolding_all decide⟩,
    (windowInvariant_preserved sampleCore 8 0 0 (by with_unfolding_all decide)
      (by with_unfolding_all decide) (by decide)).2.1 (by with_unfolding_all decide),
    (windowInvariant_preserved sampleCore 8 0 0 (by with_unfolding_all decide)
      (by with_unfolding_all decide) (by decide)).1⟩

theorem skipWordBreak_le_stop (c : Core) (characters : Int → Nat) (end_ width stop : Int)
    (hstop : iswspace (characters stop) = false) (n : Nat) (x : Int) (hx : x ≤ stop) :
    skipWordBreak c characters end_ width n x ≤ stop := by
  induction n generalizing x with
  | zero => unfold skipWordBreak; exact hx
  | succ n ih =>
    unfold skipWordBreak
    split_ifs with h1 h2 h3
    · exact hx
    · exact hx
    · by_cases heq : x = stop
      · subst heq
        rw [hstop] at h2
        exact absurd rfl h2
      · exact ih (x + 1) (by omega)
    · exact hx

/-- C24 (refuted as stated): on the row `ab`, three spaces, `cd`, with the
cursor on another row, `getWordWrapLength` for the two columns from column 0
is 5, not at most 2: the white space after the window is skipped too, and
`shiftBrailleWindowRight 2` advances the window by 5 columns. -/
theorem getWordWrapLength_exceeds_count :
    getWordWrapLength gapCore 0 0 2 = 5 ∧
    ¬ (getWordWrapLength gapCore 0 0 2 ≤ 2) ∧
    gapCore.ses.winx = 0 ∧
    (shiftBrailleWindowRight 2 gapCore).2 = true ∧
    (shiftBrailleWindowRight 2 gapCore).1.ses.winx = 5 := by
  with_unfolding_all decide

/-- C24 (amended): for every row content, `from_ >= 0` and `count >= 1`, the
length that `getWordWrapLength` returns is not negative and, for a start on
the screen, ends on the screen (`from_ + length <= cols`); it is at most
`count` when the column `from_ + count` is off the screen or holds no white
space.  In that case `shiftBrailleWindowRight amount` with word wrap does
not advance `winx` by more than `amount`. -/
theorem getWordWrapLength_le (c : Core) (row from_ count : Int) (amount : Nat)
    (hfrom : 0 ≤ from_) (hcount : 1 ≤ count) :
    0 ≤ getWordWrapLength c row from_ count ∧
    (from_ < c.scr.cols → from_ + getWordWrapLength c row from_ count ≤ c.scr.cols) ∧
    ((from_ + count ≥ c.scr.cols ∨ iswspace (c.screen row (from_ + count)) = false) →
      getWordWrapLength c row from_ count ≤ count) ∧
    (c.prefs.wordWrap = true → isContracting c = false → 0 ≤ c.ses.winx →
      Small c.ses.winx → Small amount → 1 ≤ amount →
      (c.ses.winx + amount ≥ c.scr.cols ∨
        iswspace (c.screen c.ses.winy (c.ses.winx + amount)) = false) →
      (shiftBrailleWindowRight amount c).1.ses.winx ≤ c.ses.winx + amount) := by
  have hbounds := getWordWrapLength_bounds c row from_ count (by omega)
  have hle : ∀ (row from_ count : Int), 1 ≤ count →
      (from_ + count ≥ c.scr.cols ∨ iswspace (c.screen row (from_ + count)) = false) →
      getWordWrapLength c row from_ count ≤ count := by
    intro row from_ count hcount hcond
    unfold getWordWrapLength
    simp only []
    split_ifs with h1 h2 h3
    · omega
    · omega
    · rcases hcond with h | h
      · omega
      · rw [h] at h3; exact absurd h3 (by simp)
    · rcases hcond with h | h
      · omega
      · cases hfound : findWordBreak (c.screen row) from_ (from_ + count - from_).toNat with
        | none => simp only []; omega
        | some w =>
          simp only []
          have hw := findWordBreak_bounds _ _ _ _ hfound
          have := skipWordBreak_le_stop c (c.screen row) (from_ + count) c.scr.cols
            (from_ + count) h (c.scr.cols - w).toNat w (by omega)
          omega
  refine ⟨hbounds.1, hbounds.2, hle row from_ count hcount, ?_⟩
  intro hwrap hcontracting hwinx hwinxSmall hamountSmall hamount hcond
  unfold Small at hwinxSmall hamountSmall
  have hcast : toInt (amount : Int) = amount := toInt_eq (by omega) (by omega)
  have hlen := hle c.ses.winy c.ses.winx amount (by omega) hcond
  have hnn := (getWordWrapLength_bounds c c.ses.winy c.ses.winx amount (by omega)).1
  unfold shiftBrailleWindowRight
  simp only [hcontracting, hwrap, Bool.false_eq_true, if_false, if_true, hcast]
  have hu : toUnsigned (getWordWrapLength c c.ses.winy c.ses.winx amount) =
      (getWordWrapLength c c.ses.winy c.ses.winx amount).toNat :=
    toUnsigned_toNat hnn (by omega)
  rw [hu]
  unfold moveBrailleWindowRight
  have hnew : toInt (c.ses.winx + ((getWordWrapLength c c.ses.winy c.ses.winx amount).toNat : Int))
      = c.ses.winx + getWordWrapLength c c.ses.winy c.ses.winx amount := by
    rw [Int.toNat_of_nonneg hnn]
    exact toInt_eq (by omega) (by omega)
  simp only [hnew]
  split_ifs
  · show c.ses.winx ≤ _; omega
  · show c.ses.winx ≤ _; omega
  · show c.ses.winx + getWordWrapLength c c.ses.winy c.ses.winx amount ≤ _; omega

/-- C24 (amended) on the row `hello world` with a window of 8 cells at
column 0: column 8 holds no white space, and the length is 6. -/
theorem getWordWrapLength_le_witness :
    iswspace (wordWrapCore.screen 0 (0 + 8)) = false ∧
    getWordWrapLength wordWrapCore 0 0 8 ≤ 8 ∧
    getWordWrapLength wordWrapCore 0 0 8 = 6 :=
  ⟨by with_unfolding_all decide,
    (getWordWrapLength_le wordWrapCore 0 0 8 8 (by decide) (by decide)).2.2.1
      (Or.inr (by with_unfolding_all decide)),
    by with_unfolding_all decide⟩

theorem dropWordBreaks_le (c : Core) (characters : Int → Nat) (n : Nat) :
    dropWordBreaks c characters n ≤ n := by
  induction n with
  | zero => exact le_refl _
  | succ n ih =>
    unfold dropWordBreaks
    split_ifs
    · exact le_refl _
    · omega

theorem skipColumns_ge (c : Core) (characters : Int → Nat) (stopAtBreak : Bool) (end_ : Int)
    (n : Nat) (start : Int) : start ≤ skipColumns c characters stopAtBreak end_ n start := by
  induction n generalizing start with
  | zero => exact le_refl _
  | succ n ih =>
    unfold skipColumns
    split_ifs
    · exact le_refl _
    · have := ih (start + 1); omega
    · exact le_refl _

theorem wordWrapEnd_le (c : Core) (start : Int) (hstart : Small start)
    (hcount : Small c.textCount) :
    wordWrapEnd c start ≤ start + c.textCount := by
  unfold Small at hstart hcount
  unfold wordWrapEnd
  dsimp only
  rw [toInt_eq (by omega) (by omega)]
  have hdrop := fun n => dropWordBreaks_le c (c.screen c.ses.winy) n
  split_ifs with h1 h2 h3
  · have := hdrop c.scr.cols.toNat; omega
  · omega
  · have := hdrop (start + (c.textCount : Int)).toNat; omega
  · omega

theorem wordWrapStart_nonneg (c : Core) (end_ : Int) : 0 ≤ wordWrapStart c end_ := by
  unfold wordWrapStart
  dsimp only
  generalize toInt (end_ - ↑c.textCount) = t
  have hs : 0 ≤ (if t < 0 then 0 else t) := by split_ifs <;> omega
  generalize (if t < 0 then 0 else t) = s at hs ⊢
  split_ifs
  · exact le_trans (le_trans hs (skipColumns_ge _ _ _ _ _ _)) (skipColumns_ge _ _ _ _ _ _)
  · exact le_trans hs (skipColumns_ge _ _ _ _ _ _)
  · exact hs

/-- The window column that `setWordWrapStart` leaves is the requested one
(not below 0) or a column from 0 up to, not including, the end of the window
that starts there. -/
theorem setWordWrapStart_winx (start : Int) (c : Core) (hstart : Small start)
    (hcount : Small c.textCount) :
    (setWordWrapStart start c).ses.winx = max start 0 ∨
      (0 < start ∧ 0 ≤ (setWordWrapStart start c).ses.winx ∧
        (setWordWrapStart start c).ses.winx < start + c.textCount) := by
  unfold setWordWrapStart
  dsimp only
  by_cases hneg : start < 0
  · left
    rw [if_neg (by rw [if_pos hneg]; omega)]
    show (if start < 0 then 0 else start) = _
    rw [if_pos hneg, max_eq_right (by omega)]
  · have hs : (if start < 0 then 0 else start) = start := if_neg hneg
    have hmax : max start 0 = start := max_eq_left (by omega)
    rw [hs]
    by_cases hpos : start > 0
    · rw [if_pos hpos]
      generalize hd : ({ c with ses := { c.ses with winx := start } } : Core) = d
      have hdcount : d.textCount = c.textCount := by rw [← hd]
      have hend := wordWrapEnd_le d start hstart (by rw [hdcount]; exact hcount)
      have hnn := wordWrapStart_nonneg d (wordWrapEnd d start)
      rw [hdcount] at hend
      split_ifs with hlt
      · right
        refine ⟨hpos, ?_⟩
        show 0 ≤ wordWrapStart d (wordWrapEnd d start) ∧
          wordWrapStart d (wordWrapEnd d start) < start + c.textCount
        omega
      · left
        rw [← hd]
        exact hmax.symm
    · left
      rw [if_neg hpos]
      exact hmax.symm

/-- C25 (refuted as stated): on the row `abcdef gh` with a display of 8
cells, word wrap, the window at column 2 and the cursor on another row,
`shiftBrailleWindowLeft 1` returns true and leaves `winx = 7`: the window
has moved right. -/
theorem shiftBrailleWindowLeft_moves_right :
    shiftLeftCore.prefs.wordWrap = true ∧ isContracting shiftLeftCore = false ∧
    shiftLeftCore.ses.winx = 2 ∧
    (shiftBrailleWindowLeft 1 shiftLeftCore).map (fun r => (r.1.ses.winx, r.2)) =
      some (7, true) ∧
    ¬ ((7 : Int) < shiftLeftCore.ses.winx) := by
  with_unfolding_all decide

/-- C25 (amended): with word wrap on and contraction off, for every row
content, every `winx >= 1` and every amount from `textCount` up (sizes in the
range in which the arithmetic is exact), `shiftBrailleWindowLeft amount`
returns true and moves the window strictly left: `0 <= winx' < winx`; it
returns false and changes nothing when `winx < 1`. -/
theorem shiftBrailleWindowLeft_wordWrap (amount : Nat) (c : Core)
    (hwrap : c.prefs.wordWrap = true) (hcontracting : isContracting c = false)
    (hwinxSmall : Small c.ses.winx) (hamountSmall : Small amount)
    (hamount : c.textCount ≤ amount) (hpositive : 1 ≤ amount) :
    (1 ≤ c.ses.winx →
      ∃ d, shiftBrailleWindowLeft amount c = some (d, true) ∧
        0 ≤ d.ses.winx ∧ d.ses.winx < c.ses.winx) ∧
    (c.ses.winx < 1 → shiftBrailleWindowLeft amount c = some (c, false)) := by
  unfold Small at hwinxSmall hamountSmall
  constructor
  · intro hwinx
    refine ⟨setWordWrapStart (toInt (c.ses.winx - amount)) c, ?_, ?_⟩
    · unfold shiftBrailleWindowLeft
      rw [if_neg (by simp [hcontracting]), if_pos hwrap, if_neg (by omega)]
    · have hcast : toInt (c.ses.winx - (amount : Int)) = c.ses.winx - amount :=
        toInt_eq (by omega) (by omega)
      rw [hcast]
      have := setWordWrapStart_winx (c.ses.winx - amount) c (by unfold Small; omega)
        (by unfold Small; omega)
      rcases this with h | h
      · rw [h]; omega
      · omega
  · intro hwinx
    unfold shiftBrailleWindowLeft
    rw [if_neg (by simp [hcontracting]), if_pos hwrap, if_pos hwinx]

/-- C25 (amended) on the row `abcdef gh` with the window at column 20 of a
display of 8 cells: `shiftBrailleWindowLeft 8` returns true and the window
moves left. -/
theorem shiftBrailleWindowLeft_wordWrap_witness :
    ∃ d, shiftBrailleWindowLeft 8
        { shiftLeftCore with ses := { shiftLeftCore.ses with winx := 20 } } = some (d, true) ∧
      0 ≤ d.ses.winx ∧ d.ses.winx < 20 :=
  (shiftBrailleWindowLeft_wordWrap 8
    { shiftLeftCore with ses := { shiftLeftCore.ses with winx := 20 } }
    (by with_unfolding_all decide) (by with_unfolding_all decide)
    (by with_unfolding_all decide) (by with_unfolding_all decide)
    (by with_unfolding_all decide) (by decide)).1 (by with_unfolding_all decide)

theorem checkRoutingStatus_routes (status : Option Int) (s : Commands) :
    (checkRoutingStatus status s).routes = s.routes := by
  cases status <;> rfl

/-- The routing targets after the routing part: the target is added exactly
when the cursor is outside the rectangle. -/
theorem routeIntoWindow_routes (source : CommandSource) (s : Commands) :
    (routeIntoWindow source s).routes =
      s.routes ++
        (if s.core.scr.posx < (motionRectangle s.core).1 ∨
            s.core.scr.posx > (motionRectangle s.core).2.1 ∨
            s.core.scr.posy < (motionRectangle s.core).2.2.1 ∨
            s.core.scr.posy > (motionRectangle s.core).2.2.2 then
          [(min (max s.core.scr.posx (motionRectangle s.core).1) (motionRectangle s.core).2.1,
            min (max s.core.scr.posy (motionRectangle s.core).2.2.1) (motionRectangle s.core).2.2.2,
            s.core.scr.number)]
        else []) := by
  unfold routeIntoWindow
  dsimp only
  by_cases hout : s.core.scr.posx < (motionRectangle s.core).1 ∨
      s.core.scr.posx > (motionRectangle s.core).2.1 ∨
      s.core.scr.posy < (motionRectangle s.core).2.2.1 ∨
      s.core.scr.posy > (motionRectangle s.core).2.2.2
  · rw [if_pos hout, if_pos hout]
    split_ifs
    · exact checkRoutingStatus_routes _ _
    · exact checkRoutingStatus_routes _ _
    · rfl
  · rw [if_neg hout, if_neg hout]
    exact (List.append_nil _).symm

/-- The rectangle in the range in which the arithmetic is exact. -/
theorem motionRectangle_eq (c : Core) (hwinx : 0 ≤ c.ses.winx) (hwiny : 0 ≤ c.ses.winy)
    (hcols : 0 ≤ c.scr.cols) (hrows : 0 ≤ c.scr.rows) (hsmall : c.Small) :
    motionRectangle c =
      (c.ses.winx, min (c.ses.winx + c.textCount) c.scr.cols - 1,
        c.ses.winy, min (c.ses.winy + c.brl.textRows) c.scr.rows - 1) := by
  obtain ⟨h1, h2, h3, h4, h5, h6⟩ := hsmall
  unfold Small at h1 h2 h3 h4 h5 h6
  have hu1 : toUnsigned (c.ses.winx + c.textCount) = (c.ses.winx + c.textCount).toNat :=
    toUnsigned_toNat (by omega) (by omega)
  have hu2 : toUnsigned c.scr.cols = c.scr.cols.toNat := toUnsigned_toNat (by omega) (by omega)
  have hu3 : toUnsigned (c.ses.winy + c.brl.textRows) = (c.ses.winy + c.brl.textRows).toNat :=
    toUnsigned_toNat (by omega) (by omega)
  have hu4 : toUnsigned c.scr.rows = c.scr.rows.toNat := toUnsigned_toNat (by omega) (by omega)
  unfold motionRectangle
  dsimp only
  rw [hu1, hu2, hu3, hu4]
  have hright : toInt (((if (c.ses.winx + c.textCount).toNat < c.scr.cols.toNat then
      (c.ses.winx + c.textCount).toNat else c.scr.cols.toNat : Nat) : Int) - 1) =
      min (c.ses.winx + c.textCount) c.scr.cols - 1 := by
    rw [toInt_eq (by split_ifs <;> omega) (by split_ifs <;> omega)]
    split_ifs <;> omega
  have hbottom : toInt (((if (c.ses.winy + c.brl.textRows).toNat < c.scr.rows.toNat then
      (c.ses.winy + c.brl.textRows).toNat else c.scr.rows.toNat : Nat) : Int) - 1) =
      min (c.ses.winy + c.brl.textRows) c.scr.rows - 1 := by
    rw [toInt_eq (by split_ifs <;> omega) (by split_ifs <;> omega)]
    split_ifs <;> omega
  rw [hright, hbottom]

theorem windowMoved_frame (pre : PrecommandState) (s : Commands) :
    (windowMoved pre s).routes = s.routes ∧ (windowMoved pre s).core.scr = s.core.scr ∧
      motionRectangle (windowMoved pre s).core = motionRectangle s.core := by
  unfold windowMoved
  dsimp only
  split_ifs <;> exact ⟨rfl, rfl, rfl⟩

/-- The routing targets after `postprocessCommand` for a command that is not
a block command and carries the routing flag. -/
theorem postprocessCommand_routes (source : CommandSource) (pre : PrecommandState)
    (command : Nat) (handled : Bool) (s : Commands)
    (hblock : command &&& source.BRL_MSK_BLK = 0)
    (hflag : command &&& source.BRL_FLG_MOTION_ROUTE ≠ 0) :
    (postprocessCommand source (some pre) command handled s).routes =
      s.routes ++
        (if s.core.scr.posx < (motionRectangle s.core).1 ∨
            s.core.scr.posx > (motionRectangle s.core).2.1 ∨
            s.core.scr.posy < (motionRectangle s.core).2.2.1 ∨
            s.core.scr.posy > (motionRectangle s.core).2.2.2 then
          [(min (max s.core.scr.posx (motionRectangle s.core).1) (motionRectangle s.core).2.1,
            min (max s.core.scr.posy (motionRectangle s.core).2.2.1) (motionRectangle s.core).2.2.2,
            s.core.scr.number)]
        else []) := by
  unfold postprocessCommand
  dsimp only
  rw [if_pos hblock, if_pos hflag, routeIntoWindow_routes]
  have hframe : ∀ t : Commands, t.routes = s.routes → t.core.scr = s.core.scr →
      motionRectangle t.core = motionRectangle s.core →
      (windowMoved pre t).routes = s.routes ∧ (windowMoved pre t).core.scr = s.core.scr ∧
        motionRectangle (windowMoved pre t).core = motionRectangle s.core := by
    intro t h1 h2 h3
    obtain ⟨f1, f2, f3⟩ := windowMoved_frame pre t
    exact ⟨f1.trans h1, f2.trans h2, f3.trans h3⟩
  have hstate := hframe (if handled then { s with updates := s.updates + 1 } else s)
    (by split_ifs <;> rfl) (by split_ifs <;> rfl) (by split_ifs <;> rfl)
  obtain ⟨g1, g2, g3⟩ := hstate
  rw [g1, g2, g3]

/-- C26: in `postprocessCommand`, for a command that is not a block command
and carries the routing flag, with the window on the screen (`0 <= winx <
cols`, `0 <= winy < rows`) of a display with at least one cell and one row
(sizes in the range in which the arithmetic is exact), let
`right = min (winx + textCount) cols - 1` and
`bottom = min (winy + textRows) rows - 1`.  A routing is requested exactly
when the cursor lies outside `[winx..right] x [winy..bottom]`; the target is
`(min (max posx winx) right, min (max posy winy) bottom)` on the current
screen; it lies inside the rectangle and is, in each coordinate, the point of
the rectangle nearest to the cursor. -/
theorem postprocessCommand_routing (source : CommandSource) (pre : PrecommandState)
    (command : Nat) (handled : Bool) (s : Commands)
    (hblock : command &&& source.BRL_MSK_BLK = 0)
    (hflag : command &&& source.BRL_FLG_MOTION_ROUTE ≠ 0)
    (hwinx : 0 ≤ s.core.ses.winx ∧ s.core.ses.winx < s.core.scr.cols)
    (hwiny : 0 ≤ s.core.ses.winy ∧ s.core.ses.winy < s.core.scr.rows)
    (hcount : 1 ≤ s.core.textCount) (hrows : 1 ≤ s.core.brl.textRows)
    (hsmall : s.core.Small) :
    (postprocessCommand source (some pre) command handled s).routes =
      s.routes ++
        (if s.core.scr.posx < s.core.ses.winx ∨
            s.core.scr.posx > min (s.core.ses.winx + s.core.textCount) s.core.scr.cols - 1 ∨
            s.core.scr.posy < s.core.ses.winy ∨
            s.core.scr.posy > min (s.core.ses.winy + s.core.brl.textRows) s.core.scr.rows - 1 then
          [(min (max s.core.scr.posx s.core.ses.winx)
              (min (s.core.ses.winx + s.core.textCount) s.core.scr.cols - 1),
            min (max s.core.scr.posy s.core.ses.winy)
              (min (s.core.ses.winy + s.core.brl.textRows) s.core.scr.rows - 1),
            s.core.scr.number)]
        else []) ∧
    (s.core.ses.winx ≤ min (max s.core.scr.posx s.core.ses.winx)
        (min (s.core.ses.winx + s.core.textCount) s.core.scr.cols - 1) ∧
      min (max s.core.scr.posx s.core.ses.winx)
        (min (s.core.ses.winx + s.core.textCount) s.core.scr.cols - 1) ≤
        min (s.core.ses.winx + s.core.textCount) s.core.scr.cols - 1) ∧
    (s.core.ses.winy ≤ min (max s.core.scr.posy s.core.ses.winy)
        (min (s.core.ses.winy + s.core.brl.textRows) s.core.scr.rows - 1) ∧
      min (max s.core.scr.posy s.core.ses.winy)
        (min (s.core.ses.winy + s.core.brl.textRows) s.core.scr.rows - 1) ≤
        min (s.core.ses.winy + s.core.brl.textRows) s.core.scr.rows - 1) ∧
    (∀ x : Int, s.core.ses.winx ≤ x →
      x ≤ min (s.core.ses.winx + s.core.textCount) s.core.scr.cols - 1 →
      |s.core.scr.posx - min (max s.core.scr.posx s.core.ses.winx)
          (min (s.core.ses.winx + s.core.textCount) s.core.scr.cols - 1)| ≤
        |s.core.scr.posx - x|) ∧
    (∀ y : Int, s.core.ses.winy ≤ y →
      y ≤ min (s.core.ses.winy + s.core.brl.textRows) s.core.scr.rows - 1 →
      |s.core.scr.posy - min (max s.core.scr.posy s.core.ses.winy)
          (min (s.core.ses.winy + s.core.brl.textRows) s.core.scr.rows - 1)| ≤
        |s.core.scr.posy - y|) := by
  have hrect := motionRectangle_eq s.core hwinx.1 hwiny.1 (by omega) (by omega) hsmall
  have hroutes := postprocessCommand_routes source pre command handled s hblock hflag
  rw [hrect] at hroutes
  refine ⟨hroutes, ⟨?_, ?_⟩, ⟨?_, ?_⟩, ?_, ?_⟩
  · omega
  · omega
  · omega
  · omega
  · intro x h1 h2
    have ht : (s.core.scr.posx < s.core.ses.winx →
          min (max s.core.scr.posx s.core.ses.winx)
            (min (s.core.ses.winx + s.core.textCount) s.core.scr.cols - 1) = s.core.ses.winx) ∧
        (s.core.scr.posx > min (s.core.ses.winx + s.core.textCount) s.core.scr.cols - 1 →
          min (max s.core.scr.posx s.core.ses.winx)
            (min (s.core.ses.winx + s.core.textCount) s.core.scr.cols - 1) =
            min (s.core.ses.winx + s.core.textCount) s.core.scr.cols - 1) ∧
        (s.core.ses.winx ≤ s.core.scr.posx →
          s.core.scr.posx ≤ min (s.core.ses.winx + s.core.textCount) s.core.scr.cols - 1 →
          min (max s.core.scr.posx s.core.ses.winx)
            (min (s.core.ses.winx + s.core.textCount) s.core.scr.cols - 1) = s.core.scr.posx) := by
      omega
    generalize min (max s.core.scr.posx s.core.ses.winx)
      (min (s.core.ses.winx + s.core.textCount) s.core.scr.cols - 1) = t at ht ⊢
    generalize min (s.core.ses.winx + s.core.textCount) s.core.scr.cols - 1 = r at ht h2 ⊢
    rw [abs_le]
    constructor
    · rcases abs_cases (s.core.scr.posx - x) with ⟨h, hsign⟩ | ⟨h, hsign⟩ <;> rw [h] <;> omega
    · rcases abs_cases (s.core.scr.posx - x) with ⟨h, hsign⟩ | ⟨h, hsign⟩ <;> rw [h] <;> omega
  · intro y h1 h2
    have ht : (s.core.scr.posy < s.core.ses.winy →
          min (max s.core.scr.posy s.core.ses.winy)
            (min (s.core.ses.winy + s.core.brl.textRows) s.core.scr.rows - 1) = s.core.ses.winy) ∧
        (s.core.scr.posy > min (s.core.ses.winy + s.core.brl.textRows) s.core.scr.rows - 1 →
          min (max s.core.scr.posy s.core.ses.winy)
            (min (s.core.ses.winy + s.core.brl.textRows) s.core.scr.rows - 1) =
            min (s.core.ses.winy + s.core.brl.textRows) s.core.scr.rows - 1) ∧
        (s.core.ses.winy ≤ s.core.scr.posy →
          s.core.scr.posy ≤ min (s.core.ses.winy + s.core.brl.textRows) s.core.scr.rows - 1 →
          min (max s.core.scr.posy s.core.ses.winy)
            (min (s.core.ses.winy + s.core.brl.textRows) s.core.scr.rows - 1) = s.core.scr.posy) := by
      omega
    generalize min (max s.core.scr.posy s.core.ses.winy)
      (min (s.core.ses.winy + s.core.brl.textRows) s.core.scr.rows - 1) = t at ht ⊢
    generalize min (s.core.ses.winy + s.core.brl.textRows) s.core.scr.rows - 1 = r at ht h2 ⊢
    rw [abs_le]
    constructor
    · rcases abs_cases (s.core.scr.posy - y) with ⟨h, hsign⟩ | ⟨h, hsign⟩ <;> rw [h] <;> omega
    · rcases abs_cases (s.core.scr.posy - y) with ⟨h, hsign⟩ | ⟨h, hsign⟩ <;> rw [h] <;> omega

/-- C26 on the sample state (window: columns 0 to 39 of row 0, cursor at
column 50 of row 10, screen 1): the routing target is column 39 of row 0 on
screen 1. -/
theorem postprocessCommand_routing_witness :
    (postprocessCommand sampleSource (some { motionColumn := 0, motionRow := 0 }) 131072 true
      (sampleCommands sampleCore)).routes = [(39, 0, 1)] :=
  ((postprocessCommand_routing sampleSource { motionColumn := 0, motionRow := 0 } 131072 true
    (sampleCommands sampleCore) (by decide) (by decide) (by with_unfolding_all decide)
    (by with_unfolding_all decide) (by with_unfolding_all decide) (by with_unfolding_all decide)
    (by with_unfolding_all decide)).1).trans (by with_unfolding_all decide)

theorem spellLoop_length (characters : List Nat) (length : Nat) :
    (spellLoop characters length).2 = length + 2 * characters.length := by
  induction characters generalizing length with
  | nil => rfl
  | cons character characters ih =>
    unfold spellLoop
    simp only [List.length_cons]
    rw [ih]; omega

theorem spellLoop_stores (characters : List Nat) (length : Nat) :
    ∀ store ∈ (spellLoop characters length).1,
      length ≤ store.1 ∧ store.1 < length + 2 * characters.length := by
  induction characters generalizing length with
  | nil => intro store h; simp [spellLoop] at h
  | cons character characters ih =>
    intro store h
    unfold spellLoop at h
    simp only [List.mem_cons, List.length_cons] at h ⊢
    rcases h with h | h | h
    · subst h; simp only []; omega
    · subst h; simp only []; omega
    · have := ih (length + 2) store h
      omega

/-- C29 (refuted): in the spell branch of `speakCharacters` the array
`string` has `count * 2` elements, every store of the loop goes to an index
below `count * 2`, and the length handed to the synthesizer is `2 * count`;
but the terminator that is stored last goes to the index `count * 2`, which
is not an index of the array. -/
theorem spellCharacters_terminator_out_of_bounds (characters : List Nat) :
    (spellCharacters characters).size = characters.length * 2 ∧
    (spellCharacters characters).length = 2 * characters.length ∧
    (∀ store ∈ (spellLoop characters 0).1, store.1 < (spellCharacters characters).size) ∧
    (spellCharacters characters).stores.getLast? = some (characters.length * 2, 0) ∧
    ¬ (∀ store ∈ (spellCharacters characters).stores,
        store.1 < (spellCharacters characters).size) := by
  have hlength := spellLoop_length characters 0
  have hstores := spellLoop_stores characters 0
  refine ⟨rfl, ?_, ?_, ?_, ?_⟩
  · show (spellLoop characters 0).2 = _
    omega
  · intro store h
    show store.1 < characters.length * 2
    have := hstores store h
    omega
  · show ((spellLoop characters 0).1 ++ [((spellLoop characters 0).2, 0)]).getLast? = _
    rw [List.getLast?_append, hlength]
    simp
    omega
  · intro hall
    have := hall ((spellLoop characters 0).2, 0) (by
      show _ ∈ (spellLoop characters 0).1 ++ [((spellLoop characters 0).2, 0)]
      simp)
    have hsize : (spellCharacters characters).size = characters.length * 2 := rfl
    rw [hsize] at this
    simp only [] at this
    omega

/-- C29 at the two characters `a` and `b` with spelling on: the branch is
the spell branch, the array has 4 elements, the stores go to the indices 0,
1, 2, 3 and 4, and the text handed over is `a`, space, `b`, space. -/
theorem spellCharacters_two_characters :
    speakCharacters iswspace [97, 98] true = .spelled (spellCharacters [97, 98]) ∧
    (spellCharacters [97, 98]).size = 4 ∧
    (spellCharacters [97, 98]).stores = [(0, 97), (1, 32), (2, 98), (3, 32), (4, 0)] ∧
    (spellCharacters [97, 98]).text = [some 97, some 32, some 98, some 32] ∧
    ¬ (∀ store ∈ (spellCharacters [97, 98]).stores, store.1 < (spellCharacters [97, 98]).size) := by
  decide

/-! ## The ViaVoice speech driver -/

theorem cString_append_zero (bytes tail : List Nat) :
    cString (bytes ++ [0] ++ tail) = cString bytes := by
  unfold cString
  induction bytes with
  | nil => simp [List.takeWhile]
  | cons byte bytes ih =>
    simp only [List.cons_append, List.takeWhile]
    split
    · rw [← ih]; simp
    · rfl

theorem cString_of_nonzero (bytes : List Nat) (h : ∀ byte ∈ bytes, byte ≠ 0) :
    cString bytes = bytes := by
  unfold cString
  rw [List.takeWhile_eq_self_iff]
  intro byte hbyte
  simpa using h byte hbyte

theorem runs_head (byte : Nat) (bytes : List Nat) :
    ∃ run rest, runs (byte :: bytes) = (byte :: run) :: rest := by
  unfold runs
  cases runs bytes with
  | nil => exact ⟨[], [], rfl⟩
  | cons run rest =>
    simp only []
    split_ifs
    · exact ⟨run, rest, rfl⟩
    · exact ⟨[], run :: rest, rfl⟩

theorem runs_uniform (k : Bool) (p : List Nat) (hp : p ≠ [])
    (huniform : ∀ byte ∈ p, isspace byte = k) :
    runs p = [p] ∧
      ∀ byte rest, isspace byte ≠ k → runs (p ++ byte :: rest) = p :: runs (byte :: rest) := by
  induction p with
  | nil => exact absurd rfl hp
  | cons a p ih =>
    have ha : isspace a = k := huniform a (List.mem_cons_self _ _)
    cases p with
    | nil =>
      refine ⟨rfl, ?_⟩
      intro byte rest hbyte
      obtain ⟨run, rest', hruns⟩ := runs_head byte rest
      show runs (a :: byte :: rest) = _
      conv_lhs => unfold runs
      rw [hruns]
      simp only [List.headD_cons]
      rw [if_neg (by rw [ha]; exact fun h => hbyte h.symm)]
    | cons b p =>
      have hb : isspace b = k := huniform b (by simp)
      obtain ⟨h1, h2⟩ := ih (by simp) (fun byte h => huniform byte (List.mem_cons_of_mem _ h))
      constructor
      · conv_lhs => unfold runs
        rw [h1]
        simp only [List.headD_cons]
        rw [if_pos (by rw [ha, hb])]
      · intro byte rest hbyte
        show runs (a :: (b :: p ++ byte :: rest)) = _
        conv_lhs => unfold runs
        rw [h2 byte rest hbyte]
        simp only [List.headD_cons]
        rw [if_pos (by rw [ha, hb])]

theorem runs_flatten (bytes : List Nat) : (runs bytes).flatten = bytes := by
  induction bytes with
  | nil => rfl
  | cons byte bytes ih =>
    unfold runs
    cases hr : runs bytes with
    | nil =>
      rw [hr] at ih
      simp only [List.flatten_nil] at ih
      simp [← ih]
    | cons run rest =>
      rw [hr] at ih
      simp only []
      split_ifs
      · simp only [List.flatten_cons, List.cons_append] at ih ⊢
        rw [ih]
      · simp only [List.flatten_cons, List.cons_append, List.nil_append] at ih ⊢
        rw [ih]

theorem runs_uniform_nonempty (bytes : List Nat) :
    ∀ run ∈ runs bytes, run ≠ [] ∧ ∀ byte ∈ run, isspace byte = isspace (run.headD 0) := by
  induction bytes with
  | nil => intro run h; simp [runs] at h
  | cons byte bytes ih =>
    intro run h
    unfold runs at h
    cases hr : runs bytes with
    | nil =>
      rw [hr] at h
      simp only [List.mem_singleton] at h
      subst h
      simp
    | cons first rest =>
      rw [hr] at h ih
      simp only [] at h
      split_ifs at h with hclass
      · simp only [List.mem_cons] at h
        rcases h with h | h
        · subst h
          have hfirst := ih first (List.mem_cons_self _ _)
          refine ⟨by simp, ?_⟩
          intro b hb
          simp only [List.headD_cons]
          simp only [List.mem_cons] at hb
          rcases hb with hb | hb
          · rw [hb]
          · rw [hfirst.2 b hb, hclass]
        · exact ih run (List.mem_cons_of_mem _ h)
      · simp only [List.mem_cons] at h
        rcases h with h | h
        · subst h; simp
        · exact ih run (by simpa using h)

theorem runs_differ (bytes : List Nat) :
    List.Chain' (fun first second => isspace (first.headD 0) ≠ isspace (second.headD 0))
      (runs bytes) := by
  induction bytes with
  | nil => exact List.chain'_nil
  | cons byte bytes ih =>
    unfold runs
    cases hr : runs bytes with
    | nil => exact List.chain'_singleton _
    | cons first rest =>
      rw [hr] at ih
      simp only []
      have hne : first ≠ [] := by
        have := runs_uniform_nonempty bytes first (by rw [hr]; exact List.mem_cons_self _ _)
        exact this.1
      split_ifs with hclass
      · cases rest with
        | nil => exact List.chain'_singleton _
        | cons second rest =>
          rw [List.chain'_cons] at ih ⊢
          refine ⟨?_, ih.2⟩
          simp only [List.headD_cons]
          rw [hclass]; exact ih.1
      · rw [List.chain'_cons]
        exact ⟨by simpa using hclass, ih⟩

theorem addSegment_succeeds (buffer : List Nat) (from_ to_ : Nat) (s : Speaker)
    (hs : s.Succeeds) (hlt : from_ < to_) :
    ∃ t, addSegment buffer from_ to_ s = (t, true) ∧ t.Succeeds ∧
      t.requests = s.requests ++
        [.addText (cString ((buffer.drop from_).take (to_ - from_))), .insertIndex to_] := by
  obtain ⟨h1, h2, h3⟩ := hs
  have hensure : ∃ u, ensureSayBuffer (to_ - from_ + 1) s = (u, true) ∧ u.Succeeds ∧
      u.requests = s.requests := by
    unfold ensureSayBuffer
    split_ifs with hsize
    · simp only [h1, if_true]
      exact ⟨_, rfl, ⟨h1, h2, h3⟩, rfl⟩
    · exact ⟨_, rfl, ⟨h1, h2, h3⟩, rfl⟩
  obtain ⟨u, hu, ⟨u1, u2, u3⟩, hreq⟩ := hensure
  unfold addSegment addCharacters
  simp only []
  rw [if_neg (by omega), hu]
  simp only []
  unfold addText
  simp only [u2, if_true, u3, cString_append_zero]
  exact ⟨_, rfl, ⟨u1, u2, u3⟩, by simp [hreq]⟩

/-- The loop of `addSegments` followed by the last `addSegment`: with a
pending segment from `from_` to `to_`, the requests made are those for the
maximal runs of the buffer from `from_` on. -/
theorem addSegmentsLoop_requests (buffer : List Nat) (n : Nat) :
    ∀ (to_ from_ : Nat) (onSpace : Option Bool) (s : Speaker),
      to_ + n = buffer.length → from_ ≤ to_ → from_ < buffer.length → s.Succeeds →
      (from_ < to_ → ∃ k, onSpace = some k ∧
        ∀ byte ∈ (buffer.drop from_).take (to_ - from_), isspace byte = k) →
      (from_ = to_ → onSpace = none) →
      ∃ t, (match addSegmentsLoop buffer n to_ onSpace from_ s with
          | (u, none) => (u, false)
          | (u, some start) => addSegment buffer start buffer.length u) = (t, true) ∧
        t.Succeeds ∧
        t.requests = s.requests ++ segmentRequests from_ (runs (buffer.drop from_)) := by
  induction n with
  | zero =>
    intro to_ from_ onSpace s hto hfrom hlength hs hpending hstart
    have hto' : to_ = buffer.length := by omega
    subst hto'
    obtain ⟨k, -, huniform⟩ := hpending (by omega)
    have htake : (buffer.drop from_).take (buffer.length - from_) = buffer.drop from_ := by
      rw [List.take_of_length_le (by simp)]
    rw [htake] at huniform
    have hne : buffer.drop from_ ≠ [] := by
      intro h
      have := congrArg List.length h
      rw [List.length_drop, List.length_nil] at this
      omega
    obtain ⟨t, ht, hsucc, hreq⟩ := addSegment_succeeds buffer from_ buffer.length s hs hlength
    refine ⟨t, ?_, hsucc, ?_⟩
    · show addSegment buffer from_ buffer.length s = _
      exact ht
    · rw [hreq, htake, (runs_uniform k _ hne huniform).1]
      simp only [segmentRequests, List.length_drop]
      rw [show from_ + (buffer.length - from_) = buffer.length by omega]
  | succ n ih =>
    intro to_ from_ onSpace s hto hfrom hlength hs hpending hstart
    have hbound : to_ < buffer.length := by omega
    have hget : buffer.getD to_ 0 = buffer[to_] := by
      rw [List.getD_eq_getElem?_getD, List.getElem?_eq_getElem hbound]
      rfl
    have hdrop : buffer.drop to_ = buffer[to_] :: buffer.drop (to_ + 1) :=
      List.drop_eq_getElem_cons hbound
    unfold addSegmentsLoop
    simp only []
    rw [hget]
    generalize hb : buffer[to_] = b at hdrop
    by_cases hequal : from_ = to_
    · -- nothing is pending
      have hnone := hstart hequal
      subst hnone
      rw [if_pos (by simp), if_neg (by omega)]
      refine ih (to_ + 1) from_ (some (isspace b)) s (by omega) (by omega) hlength hs ?_ ?_
      · intro _
        refine ⟨isspace b, rfl, ?_⟩
        subst hequal
        intro byte hbyte
        rw [hdrop] at hbyte
        simp only [Nat.add_sub_cancel_left, List.take_succ_cons, List.take_zero,
          List.mem_singleton] at hbyte
        rw [hbyte]
      · intro h; omega
    · have hlt : from_ < to_ := by omega
      obtain ⟨k, hk, huniform⟩ := hpending hlt
      subst hk
      have hsplit : buffer.drop from_ =
          (buffer.drop from_).take (to_ - from_) ++ buffer.drop to_ := by
        have := (List.take_append_drop (to_ - from_) (buffer.drop from_)).symm
        rw [List.drop_drop] at this
        have hsum : from_ + (to_ - from_) = to_ := by omega
        rw [hsum] at this
        exact this
      have htakeNext : (buffer.drop from_).take (to_ + 1 - from_) =
          (buffer.drop from_).take (to_ - from_) ++ [b] := by
        have hlen : ((buffer.drop from_).take (to_ - from_)).length = to_ - from_ := by
          rw [List.length_take, List.length_drop]; omega
        conv_lhs => rw [hsplit, hdrop]
        rw [List.take_append_eq_append_take, hlen,
          show to_ + 1 - from_ - (to_ - from_) = 1 by omega]
        rw [List.take_of_length_le (by rw [hlen]; omega)]
        rfl
      by_cases hclass : isspace b = k
      · rw [if_neg (by simp [hclass])]
        refine ih (to_ + 1) from_ (some k) s (by omega) (by omega) hlength hs ?_ ?_
        · intro _
          refine ⟨k, rfl, ?_⟩
          intro byte hbyte
          rw [htakeNext] at hbyte
          simp only [List.mem_append, List.mem_singleton] at hbyte
          rcases hbyte with h | h
          · exact huniform byte h
          · rw [h]; exact hclass
        · intro h; omega
      · rw [if_pos (by simp [hclass]), if_pos hlt]
        obtain ⟨u, hu, husucc, hureq⟩ := addSegment_succeeds buffer from_ to_ s hs hlt
        rw [hu]
        simp only []
        obtain ⟨t, ht, htsucc, htreq⟩ := ih (to_ + 1) to_ (some (isspace b)) u (by omega)
          (by omega) (by omega) husucc
          (by
            intro _
            refine ⟨isspace b, rfl, ?_⟩
            intro byte hbyte
            rw [hdrop] at hbyte
            simp only [Nat.add_sub_cancel_left, List.take_succ_cons, List.take_zero,
              List.mem_singleton] at hbyte
            rw [hbyte])
          (by intro h; omega)
        refine ⟨t, ht, htsucc, ?_⟩
        have hne : (buffer.drop from_).take (to_ - from_) ≠ [] := by
          intro h
          have := congrArg List.length h
          rw [List.length_take, List.length_drop, List.length_nil] at this
          omega
        have hruns : runs (buffer.drop from_) =
            (buffer.drop from_).take (to_ - from_) :: runs (buffer.drop to_) := by
          conv_lhs => rw [hsplit, hdrop]
          rw [(runs_uniform k _ hne huniform).2 b _ hclass, ← hdrop]
        have hlen : ((buffer.drop from_).take (to_ - from_)).length = to_ - from_ := by
          rw [List.length_take, List.length_drop]; omega
        rw [htreq, hureq, hruns]
        simp only [segmentRequests, hlen, List.append_assoc, List.cons_append, List.nil_append]
        rw [show from_ + (to_ - from_) = to_ by omega]

theorem getLast?_cons_of_ne {α : Type} (a : α) (l : List α) (h : l ≠ []) :
    (a :: l).getLast? = l.getLast? := by
  cases l with
  | nil => exact absurd rfl h
  | cons b l => exact List.getLast?_cons_cons

theorem segmentRequests_last (from_ : Nat) (segments : List (List Nat)) (h : segments ≠ []) :
    (segmentRequests from_ segments).getLast? =
      some (.insertIndex (from_ + segments.flatten.length)) := by
  induction segments generalizing from_ with
  | nil => exact absurd rfl h
  | cons run rest ih =>
    cases rest with
    | nil => simp [segmentRequests]
    | cons second rest =>
      have hne : segmentRequests (from_ + run.length) (second :: rest) ≠ [] := by
        simp [segmentRequests]
      unfold segmentRequests
      rw [List.getLast?_cons_cons, getLast?_cons_of_ne _ _ hne, ih _ (by simp)]
      simp only [List.flatten_cons, List.length_append, Option.some.injEq,
        EciRequest.insertIndex.injEq]
      omega

/-- C30 (refuted as stated): for the buffer `a`, zero byte, `b` the only
segment is the whole buffer, but the text added for it is `a`: the text is
handed over as a C string, which ends at the zero byte. -/
theorem addSegments_truncates_at_zero :
    (addSegments [97, 0, 98] sampleSpeaker).2 = true ∧
    (addSegments [97, 0, 98] sampleSpeaker).1.requests = [.addText [97], .insertIndex 3] ∧
    runs [97, 0, 98] = [[97, 0, 98]] ∧
    EciRequest.addText [97] ≠ EciRequest.addText [97, 0, 98] := by
  decide

/-- C30 (amended): if every request to the synthesizer and every allocation
succeeds, then for every buffer of length at least 1 `addSegments` succeeds
and makes, in order, for each maximal run of white space or of other bytes
the request to add its text and then the request to insert the index of its
end.  The runs are non-empty, each consists of white space only or of other
bytes only, adjacent runs differ in class, and together they are the buffer;
the last index inserted is the length of the buffer; the text added for a run
is the run up to its first zero byte, hence the run itself in a buffer
without zero bytes. -/
theorem addSegments_spec (buffer : List Nat) (s : Speaker)
    (hlength : 1 ≤ buffer.length) (hs : s.Succeeds) :
    (addSegments buffer s).2 = true ∧
    (addSegments buffer s).1.requests = s.requests ++ segmentRequests 0 (runs buffer) ∧
    (runs buffer).flatten = buffer ∧
    (∀ run ∈ runs buffer, run ≠ [] ∧ ∀ byte ∈ run, isspace byte = isspace (run.headD 0)) ∧
    List.Chain' (fun first second => isspace (first.headD 0) ≠ isspace (second.headD 0))
      (runs buffer) ∧
    (segmentRequests 0 (runs buffer)).getLast? = some (.insertIndex buffer.length) ∧
    ((∀ byte ∈ buffer, byte ≠ 0) → ∀ run ∈ runs buffer, cString run = run) := by
  obtain ⟨t, ht, -, hreq⟩ := addSegmentsLoop_requests buffer buffer.length 0 0 none s
    (by omega) (le_refl _) (by omega) hs (fun h => absurd h (by omega)) (fun _ => rfl)
  have hadd : addSegments buffer s = (t, true) := by
    unfold addSegments
    exact ht
  have hne : runs buffer ≠ [] := by
    intro h
    have := runs_flatten buffer
    rw [h] at this
    rw [← this] at hlength
    simp at hlength
  refine ⟨by rw [hadd], ?_, runs_flatten buffer, runs_uniform_nonempty buffer,
    runs_differ buffer, ?_, ?_⟩
  · rw [hadd]; exact hreq
  · rw [segmentRequests_last 0 _ hne, runs_flatten]
    simp
  · intro hzero run hrun
    apply cString_of_nonzero
    intro byte hbyte
    apply hzero
    rw [← runs_flatten buffer]
    exact List.mem_flatten.mpr ⟨run, hrun, hbyte⟩

/-- C30 (amended) on the buffer `hi`, two spaces, `you`: three segments are
handed over, with the indices 2, 4 and 7. -/
theorem addSegments_spec_witness :
    (addSegments [104, 105, 32, 32, 121, 111, 117] sampleSpeaker).1.requests =
      [.addText [104, 105], .insertIndex 2, .addText [32, 32], .insertIndex 4,
        .addText [121, 111, 117], .insertIndex 7] :=
  ((addSegments_spec [104, 105, 32, 32, 121, 111, 117] sampleSpeaker (by decide)
    ⟨fun _ => rfl, fun _ => rfl, fun _ => rfl⟩).2.1).trans (by decide)

end Brltty
